import Mathlib

/-!
# INA260 driver: shallow embedding and verification

Embedding of `src/INA260.h` and `src/INA260.cpp`.

* Machine integers (`uint8_t`, `uint16_t`, `int16_t`) are `Nat`/`Int` with explicit
  reduction modulo `2^w` at the places where C++ converts.
* The global `Wire` object (Arduino `TwoWire`, an external library) is an explicit
  state that is threaded through every operation.
* `double` is IEEE-754 binary64 with round-to-nearest-even, modelled on rationals.
-/

set_option linter.dupNamespace false

namespace INA260

/-! ## Machine integers -/

/-- Conversion to `uint8_t`. -/
def toUInt8 (n : Nat) : Nat := n % 256

/-- Conversion to `uint16_t`. -/
def toUInt16 (n : Nat) : Nat := n % 65536

/-- Conversion of an `int` to `uint16_t` (modular, as in C++). -/
def intToUInt16 (z : Int) : Nat := (z % 65536).toNat

/-- The cast `static_cast<int16_t>(uint16_t)`: two's-complement reinterpretation. -/
def toInt16 (n : Nat) : Int :=
  if n % 65536 < 32768 then ((n % 65536 : Nat) : Int) else ((n % 65536 : Nat) : Int) - 65536

/-! ## Enumerations of `INA260.h` -/

/-- `enum RegisterAddress`. -/
def CONFIGURATION_REGISTER : Nat := 0x00
def CURRENT_REGISTER : Nat := 0x01
def BUS_VOLTAGE_REGISTER : Nat := 0x02
def POWER_REGISTER : Nat := 0x03
def MASK_ENABLE_REGISTER : Nat := 0x06
def ALERT_LIMIT_REGISTER : Nat := 0x07
def MANUFACTURER_ID_REGISTER : Nat := 0xFE
def DIE_ID_REGISTER : Nat := 0xFF

/-- `enum AddressPin`. -/
inductive AddressPin where
  | ADDR_GND
  | ADDR_VS
  | ADDR_SDA
  | ADDR_SCL
  deriving DecidableEq, Repr, Fintype

/-- Enumerator values of `AddressPin` (`static_cast<uint8_t>`). -/
def AddressPin.val : AddressPin → Nat
  | .ADDR_GND => 0b00
  | .ADDR_VS => 0b01
  | .ADDR_SDA => 0b10
  | .ADDR_SCL => 0b11

/-- `enum AveragingMode`. -/
inductive AveragingMode where
  | AVG_1
  | AVG_4
  | AVG_16
  | AVG_64
  | AVG_128
  | AVG_256
  | AVG_512
  | AVG_1024
  deriving DecidableEq, Repr, Fintype

/-- Enumerator values of `AveragingMode`. -/
def AveragingMode.val : AveragingMode → Nat
  | .AVG_1 => 0b000
  | .AVG_4 => 0b001
  | .AVG_16 => 0b010
  | .AVG_64 => 0b011
  | .AVG_128 => 0b100
  | .AVG_256 => 0b101
  | .AVG_512 => 0b110
  | .AVG_1024 => 0b111

/-- `enum VoltageConversionTime`. -/
inductive VoltageConversionTime where
  | VBUSCT_140US
  | VBUSCT_204US
  | VBUSCT_332US
  | VBUSCT_588US
  | VBUSCT_1_1MS
  | VBUSCT_2_116MS
  | VBUSCT_4_156MS
  | VBUSCT_8_244MS
  deriving DecidableEq, Repr, Fintype

/-- Enumerator values of `VoltageConversionTime`. -/
def VoltageConversionTime.val : VoltageConversionTime → Nat
  | .VBUSCT_140US => 0b000
  | .VBUSCT_204US => 0b001
  | .VBUSCT_332US => 0b010
  | .VBUSCT_588US => 0b011
  | .VBUSCT_1_1MS => 0b100
  | .VBUSCT_2_116MS => 0b101
  | .VBUSCT_4_156MS => 0b110
  | .VBUSCT_8_244MS => 0b0111

/-- `enum CurrentConversionTime`. -/
inductive CurrentConversionTime where
  | ISHCT_140US
  | ISHCT_204US
  | ISHCT_332US
  | ISHCT_588US
  | ISHCT_1_1MS
  | ISHCT_2_116MS
  | ISHCT_4_156MS
  | ISHCT_8_244MS
  deriving DecidableEq, Repr, Fintype

/-- Enumerator values of `CurrentConversionTime`. -/
def CurrentConversionTime.val : CurrentConversionTime → Nat
  | .ISHCT_140US => 0b000
  | .ISHCT_204US => 0b001
  | .ISHCT_332US => 0b010
  | .ISHCT_588US => 0b011
  | .ISHCT_1_1MS => 0b100
  | .ISHCT_2_116MS => 0b101
  | .ISHCT_4_156MS => 0b110
  | .ISHCT_8_244MS => 0b111

/-- `enum OperatingMode`. -/
inductive OperatingMode where
  | MODE_POWER_DOWN1
  | MODE_ISH_TRIGGERED
  | MODE_VBUS_TRIGGERED
  | MODE_ISH_VBUS_TRIGGERED
  | MODE_POWER_DOWN2
  | MODE_ISH_CONTINUOUS
  | MODE_VBUS_CONTINUOUS
  | MODE_ISH_VBUS_CONTINUOUS
  deriving DecidableEq, Repr, Fintype

/-- Enumerator values of `OperatingMode`. -/
def OperatingMode.val : OperatingMode → Nat
  | .MODE_POWER_DOWN1 => 0b000
  | .MODE_ISH_TRIGGERED => 0b0001
  | .MODE_VBUS_TRIGGERED => 0b010
  | .MODE_ISH_VBUS_TRIGGERED => 0b011
  | .MODE_POWER_DOWN2 => 0b0100
  | .MODE_ISH_CONTINUOUS => 0b101
  | .MODE_VBUS_CONTINUOUS => 0b110
  | .MODE_ISH_VBUS_CONTINUOUS => 0b111

/-! ## The device handle -/

/-- The class `INA260`: its only data member is `uint8_t addr`. -/
structure Device where
  addr : Nat
  deriving DecidableEq, Repr

/-- Constructor `INA260(uint8_t addr = 0) : addr(0b1000000 | (addr & 0b1111))`. -/
def INA260 (addr : Nat := 0) : Device :=
  { addr := toUInt8 (0b1000000 ||| (toUInt8 addr &&& 0b1111)) }

/-- Constructor `INA260(AddressPin a0, AddressPin a1)`, delegating to `INA260(uint8_t)`
with `(static_cast<uint8_t>(a1) << 2) | static_cast<uint8_t>(a0)`. -/
def INA260Pins (a0 a1 : AddressPin) : Device :=
  INA260 (toUInt8 ((toUInt8 a1.val <<< 2) ||| toUInt8 a0.val))

/-! ## The external bus transport (`Wire`, Arduino `TwoWire`)

The transport is not part of the repository.  It is modelled as a recording state:
every call the driver makes is appended to `calls`; what the bus answers (the status of
`endTransmission`, the bytes a `requestFrom` delivers) is given by two functions of the
call history, so any deterministic transport behaviour can be plugged in. -/

/-- Calls on the global `Wire` object. -/
inductive WireCall where
  | begin
  | beginTransmission (address : Nat)
  | write (data : Nat)
  | endTransmission
  | requestFrom (address quantity : Nat)
  | available
  | read
  deriving DecidableEq, Repr

/-- State of the global `Wire` object together with the behaviour of the bus behind it. -/
structure TwoWire where
  /-- Every call made so far, oldest first. -/
  calls : List WireCall
  /-- Bytes received by the last `requestFrom` and not yet consumed by `read`. -/
  rxBuffer : List Nat
  /-- Status byte that `endTransmission` returns, given the calls made up to and including it
  (0 = success, non-zero = bus error such as a NACK). -/
  endStatus : List WireCall → Nat
  /-- Bytes that the bus delivers to `requestFrom address quantity`, given the calls made up to
  and including it. -/
  slave : List WireCall → Nat → Nat → List Nat

/-- Appends one call to the log. -/
def TwoWire.record (w : TwoWire) (c : WireCall) : TwoWire :=
  { w with calls := w.calls ++ [c] }

/-- `Wire.begin()`. -/
def TwoWire.begin (w : TwoWire) : TwoWire :=
  w.record .begin

/-- `Wire.beginTransmission(address)`. -/
def TwoWire.beginTransmission (w : TwoWire) (address : Nat) : TwoWire :=
  w.record (.beginTransmission (toUInt8 address))

/-- `Wire.write(data)`: queues one byte. -/
def TwoWire.write (w : TwoWire) (data : Nat) : TwoWire :=
  w.record (.write (toUInt8 data))

/-- `Wire.endTransmission()`: returns the status byte. -/
def TwoWire.endTransmission (w : TwoWire) : Nat × TwoWire :=
  let w1 := w.record .endTransmission
  (toUInt8 (w1.endStatus w1.calls), w1)

/-- `Wire.requestFrom(address, quantity)`: replaces the receive buffer by what the bus
delivers and returns the number of bytes received. -/
def TwoWire.requestFrom (w : TwoWire) (address quantity : Nat) : Nat × TwoWire :=
  let w1 := w.record (.requestFrom (toUInt8 address) quantity)
  let rx := w1.slave w1.calls (toUInt8 address) quantity
  (rx.length, { w1 with rxBuffer := rx })

/-- `Wire.available()`: number of bytes left in the receive buffer. -/
def TwoWire.available (w : TwoWire) : Int × TwoWire :=
  ((w.rxBuffer.length : Int), w.record .available)

/-- `Wire.read()`: next byte of the receive buffer, or `-1` when it is empty. -/
def TwoWire.read (w : TwoWire) : Int × TwoWire :=
  match w.rxBuffer with
  | [] => (-1, w.record .read)
  | b :: rest => (((toUInt8 b : Nat) : Int), { w.record .read with rxBuffer := rest })

/-! ## Register access (`INA260.cpp`) -/

/-- `bool INA260::readRegister(uint8_t reg, uint16_t &value) const`.
The reference parameter `value` is passed in and returned. -/
def readRegister (self : Device) (reg : Nat) (value : Nat) (Wire : TwoWire) :
    Bool × Nat × TwoWire :=
  let Wire := Wire.beginTransmission self.addr
  let Wire := Wire.write reg
  let Wire := Wire.endTransmission.2
  let Wire := (Wire.requestFrom self.addr 2).2
  let n := Wire.available.1
  let Wire := Wire.available.2
  if n = 2 then
    let msb : Nat := intToUInt16 Wire.read.1
    let Wire := Wire.read.2
    let lsb : Nat := intToUInt16 Wire.read.1
    let Wire := Wire.read.2
    (true, toUInt16 ((msb <<< 8) ||| lsb), Wire)
  else
    (false, value, Wire)

/-- `bool INA260::writeRegister(uint8_t reg, uint16_t value) const`. -/
def writeRegister (self : Device) (reg : Nat) (value : Nat) (Wire : TwoWire) :
    Bool × TwoWire :=
  let Wire := Wire.beginTransmission self.addr
  let Wire := Wire.write reg
  let Wire := Wire.write ((value >>> 8) &&& 0xFF)
  let Wire := Wire.write (value &&& 0xFF)
  let status := Wire.endTransmission.1
  let Wire := Wire.endTransmission.2
  (status == 0, Wire)

/-! ## Register views (`union` of a packed bit-field struct and `uint16_t rawValue`)

Bit-fields are allocated from the least significant bit upwards, as GCC does on the
little-endian targets the driver is built for. -/

/-- Reads the bit-field of `width` bits at offset `off` of a 16-bit word. -/
def getBits (raw off width : Nat) : Nat :=
  (raw >>> off) % 2 ^ width

/-- Assigns `v` (truncated to `width` bits) to the bit-field at offset `off`. -/
def setBits (raw off width v : Nat) : Nat :=
  toUInt16 (raw ^^^ ((getBits raw off width ^^^ (v % 2 ^ width)) <<< off))

/-- `union ConfigurationRegister`. -/
structure ConfigurationRegister where
  rawValue : Nat
  deriving DecidableEq, Repr

/-- Value-initialisation `ConfigurationRegister reg{}`. -/
def ConfigurationRegister.zero : ConfigurationRegister := { rawValue := 0 }

def ConfigurationRegister.mode (r : ConfigurationRegister) : Nat := getBits r.rawValue 0 3
def ConfigurationRegister.ishct (r : ConfigurationRegister) : Nat := getBits r.rawValue 3 3
def ConfigurationRegister.vbusct (r : ConfigurationRegister) : Nat := getBits r.rawValue 6 3
def ConfigurationRegister.avg (r : ConfigurationRegister) : Nat := getBits r.rawValue 9 3
def ConfigurationRegister.rst (r : ConfigurationRegister) : Nat := getBits r.rawValue 15 1

def ConfigurationRegister.setMode (r : ConfigurationRegister) (v : Nat) : ConfigurationRegister :=
  { rawValue := setBits r.rawValue 0 3 v }
def ConfigurationRegister.setIshct (r : ConfigurationRegister) (v : Nat) : ConfigurationRegister :=
  { rawValue := setBits r.rawValue 3 3 v }
def ConfigurationRegister.setVbusct (r : ConfigurationRegister) (v : Nat) : ConfigurationRegister :=
  { rawValue := setBits r.rawValue 6 3 v }
def ConfigurationRegister.setAvg (r : ConfigurationRegister) (v : Nat) : ConfigurationRegister :=
  { rawValue := setBits r.rawValue 9 3 v }
def ConfigurationRegister.setRst (r : ConfigurationRegister) (v : Nat) : ConfigurationRegister :=
  { rawValue := setBits r.rawValue 15 1 v }

/-- `union MaskEnableRegister`. -/
structure MaskEnableRegister where
  rawValue : Nat
  deriving DecidableEq, Repr

/-- Value-initialisation `MaskEnableRegister reg{}`. -/
def MaskEnableRegister.zero : MaskEnableRegister := { rawValue := 0 }

def MaskEnableRegister.len (r : MaskEnableRegister) : Nat := getBits r.rawValue 0 1
def MaskEnableRegister.apol (r : MaskEnableRegister) : Nat := getBits r.rawValue 1 1
def MaskEnableRegister.ovf (r : MaskEnableRegister) : Nat := getBits r.rawValue 2 1
def MaskEnableRegister.cvrf (r : MaskEnableRegister) : Nat := getBits r.rawValue 3 1
def MaskEnableRegister.aff (r : MaskEnableRegister) : Nat := getBits r.rawValue 4 1
def MaskEnableRegister.cnvr (r : MaskEnableRegister) : Nat := getBits r.rawValue 10 1
def MaskEnableRegister.pol (r : MaskEnableRegister) : Nat := getBits r.rawValue 11 1
def MaskEnableRegister.bul (r : MaskEnableRegister) : Nat := getBits r.rawValue 12 1
def MaskEnableRegister.bol (r : MaskEnableRegister) : Nat := getBits r.rawValue 13 1
def MaskEnableRegister.ucl (r : MaskEnableRegister) : Nat := getBits r.rawValue 14 1
def MaskEnableRegister.ocl (r : MaskEnableRegister) : Nat := getBits r.rawValue 15 1

def MaskEnableRegister.setLen (r : MaskEnableRegister) (v : Nat) : MaskEnableRegister :=
  { rawValue := setBits r.rawValue 0 1 v }
def MaskEnableRegister.setApol (r : MaskEnableRegister) (v : Nat) : MaskEnableRegister :=
  { rawValue := setBits r.rawValue 1 1 v }
def MaskEnableRegister.setOvf (r : MaskEnableRegister) (v : Nat) : MaskEnableRegister :=
  { rawValue := setBits r.rawValue 2 1 v }
def MaskEnableRegister.setCvrf (r : MaskEnableRegister) (v : Nat) : MaskEnableRegister :=
  { rawValue := setBits r.rawValue 3 1 v }
def MaskEnableRegister.setAff (r : MaskEnableRegister) (v : Nat) : MaskEnableRegister :=
  { rawValue := setBits r.rawValue 4 1 v }
def MaskEnableRegister.setCnvr (r : MaskEnableRegister) (v : Nat) : MaskEnableRegister :=
  { rawValue := setBits r.rawValue 10 1 v }
def MaskEnableRegister.setPol (r : MaskEnableRegister) (v : Nat) : MaskEnableRegister :=
  { rawValue := setBits r.rawValue 11 1 v }
def MaskEnableRegister.setBul (r : MaskEnableRegister) (v : Nat) : MaskEnableRegister :=
  { rawValue := setBits r.rawValue 12 1 v }
def MaskEnableRegister.setBol (r : MaskEnableRegister) (v : Nat) : MaskEnableRegister :=
  { rawValue := setBits r.rawValue 13 1 v }
def MaskEnableRegister.setUcl (r : MaskEnableRegister) (v : Nat) : MaskEnableRegister :=
  { rawValue := setBits r.rawValue 14 1 v }
def MaskEnableRegister.setOcl (r : MaskEnableRegister) (v : Nat) : MaskEnableRegister :=
  { rawValue := setBits r.rawValue 15 1 v }

/-- Named flags of `MaskEnableRegister`, in declaration order. -/
inductive MaskEnableFlag where
  | len
  | apol
  | ovf
  | cvrf
  | aff
  | cnvr
  | pol
  | bul
  | bol
  | ucl
  | ocl
  deriving DecidableEq, Repr, Fintype

/-- Reads the named flag (the member access `reg.flag`). -/
def MaskEnableRegister.get (r : MaskEnableRegister) : MaskEnableFlag → Nat
  | .len => r.len
  | .apol => r.apol
  | .ovf => r.ovf
  | .cvrf => r.cvrf
  | .aff => r.aff
  | .cnvr => r.cnvr
  | .pol => r.pol
  | .bul => r.bul
  | .bol => r.bol
  | .ucl => r.ucl
  | .ocl => r.ocl

/-- Assigns the named flag (the member assignment `reg.flag = v`). -/
def MaskEnableRegister.set (r : MaskEnableRegister) (f : MaskEnableFlag) (v : Nat) :
    MaskEnableRegister :=
  match f with
  | .len => r.setLen v
  | .apol => r.setApol v
  | .ovf => r.setOvf v
  | .cvrf => r.setCvrf v
  | .aff => r.setAff v
  | .cnvr => r.setCnvr v
  | .pol => r.setPol v
  | .bul => r.setBul v
  | .bol => r.setBol v
  | .ucl => r.setUcl v
  | .ocl => r.setOcl v

/-- `union DieIdRegister`. -/
structure DieIdRegister where
  rawValue : Nat
  deriving DecidableEq, Repr

def DieIdRegister.rid (r : DieIdRegister) : Nat := getBits r.rawValue 0 4
def DieIdRegister.did (r : DieIdRegister) : Nat := getBits r.rawValue 4 12

def DieIdRegister.setRid (r : DieIdRegister) (v : Nat) : DieIdRegister :=
  { rawValue := setBits r.rawValue 0 4 v }
def DieIdRegister.setDid (r : DieIdRegister) (v : Nat) : DieIdRegister :=
  { rawValue := setBits r.rawValue 4 12 v }

/-! ## Accessors of `INA260.h` -/

/-- `bool readConfigurationRegister(ConfigurationRegister &reg) const`. -/
def readConfigurationRegister (self : Device) (reg : ConfigurationRegister) (Wire : TwoWire) :
    Bool × ConfigurationRegister × TwoWire :=
  let r := readRegister self CONFIGURATION_REGISTER reg.rawValue Wire
  (r.1, { rawValue := r.2.1 }, r.2.2)

/-- `bool writeConfigurationRegister(const ConfigurationRegister &reg) const`. -/
def writeConfigurationRegister (self : Device) (reg : ConfigurationRegister) (Wire : TwoWire) :
    Bool × TwoWire :=
  writeRegister self CONFIGURATION_REGISTER reg.rawValue Wire

/-- `bool reset() const`. -/
def reset (self : Device) (Wire : TwoWire) : Bool × TwoWire :=
  let reg := ConfigurationRegister.zero
  let reg := reg.setRst 1
  writeConfigurationRegister self reg Wire

/-- `bool readCurrentRegister(uint16_t &value) const`. -/
def readCurrentRegister (self : Device) (value : Nat) (Wire : TwoWire) : Bool × Nat × TwoWire :=
  readRegister self CURRENT_REGISTER value Wire

/-- `bool readBusVoltageRegister(uint16_t &value) const`. -/
def readBusVoltageRegister (self : Device) (value : Nat) (Wire : TwoWire) :
    Bool × Nat × TwoWire :=
  readRegister self BUS_VOLTAGE_REGISTER value Wire

/-- `bool readPowerRegister(uint16_t &value) const`. -/
def readPowerRegister (self : Device) (value : Nat) (Wire : TwoWire) : Bool × Nat × TwoWire :=
  readRegister self POWER_REGISTER value Wire

/-- `bool readMaskEnableRegister(MaskEnableRegister &reg) const`. -/
def readMaskEnableRegister (self : Device) (reg : MaskEnableRegister) (Wire : TwoWire) :
    Bool × MaskEnableRegister × TwoWire :=
  let r := readRegister self MASK_ENABLE_REGISTER reg.rawValue Wire
  (r.1, { rawValue := r.2.1 }, r.2.2)

/-- `bool writeMaskEnableRegister(const MaskEnableRegister &reg) const`. -/
def writeMaskEnableRegister (self : Device) (reg : MaskEnableRegister) (Wire : TwoWire) :
    Bool × TwoWire :=
  writeRegister self MASK_ENABLE_REGISTER reg.rawValue Wire

/-- `bool readAlertLimitRegister(uint16_t &value) const`. -/
def readAlertLimitRegister (self : Device) (value : Nat) (Wire : TwoWire) :
    Bool × Nat × TwoWire :=
  readRegister self ALERT_LIMIT_REGISTER value Wire

/-- `bool writeAlertLimitRegister(uint16_t value) const`. -/
def writeAlertLimitRegister (self : Device) (value : Nat) (Wire : TwoWire) : Bool × TwoWire :=
  writeRegister self ALERT_LIMIT_REGISTER value Wire

/-- `bool readManufacturerIdRegister(char mfgStr[3]) const`.  The caller's three-character
buffer is passed in and returned; a `char` is identified with its byte value. -/
def readManufacturerIdRegister (self : Device) (mfgStr : Nat × Nat × Nat) (Wire : TwoWire) :
    Bool × (Nat × Nat × Nat) × TwoWire :=
  let value : Nat := 0
  let r := readRegister self MANUFACTURER_ID_REGISTER value Wire
  if r.1 then
    (true, (toUInt8 ((r.2.1 >>> 8) &&& 0xFF), toUInt8 (r.2.1 &&& 0xFF), 0), r.2.2)
  else
    (false, mfgStr, r.2.2)

/-- `bool readDieIdRegister(DieIdRegister &reg) const`. -/
def readDieIdRegister (self : Device) (reg : DieIdRegister) (Wire : TwoWire) :
    Bool × DieIdRegister × TwoWire :=
  let r := readRegister self DIE_ID_REGISTER reg.rawValue Wire
  (r.1, { rawValue := r.2.1 }, r.2.2)

/-- `bool clearAlert() const`. -/
def clearAlert (self : Device) (Wire : TwoWire) : Bool × TwoWire :=
  let reg := MaskEnableRegister.zero
  let r := readMaskEnableRegister self reg Wire
  (r.1, r.2.2)

/-! ## Start-up (`INA260.cpp`) -/

/-- Objects with static storage duration that `begin` touches: the function-local
`static bool wireInitialized` and the global `Wire`. -/
structure Globals where
  wireInitialized : Bool
  Wire : TwoWire

/-- Program start: `static bool wireInitialized = false`. -/
def Globals.start (Wire : TwoWire) : Globals :=
  { wireInitialized := false, Wire := Wire }

/-- `void INA260::begin()`.  The result of `reset()` is discarded. -/
def begin (self : Device) (g : Globals) : Globals :=
  let g : Globals :=
    if !g.wireInitialized then
      { wireInitialized := true, Wire := g.Wire.begin }
    else g
  { g with Wire := (reset self g.Wire).2 }

/-! ## IEEE-754 binary floating point (`double`)

A finite `double` is represented by its rational value.  Every arithmetic operation computes
the exact rational result and rounds it to the nearest representable value, ties to even.
The two zeros are identified: the driver only multiplies and divides by positive constants
and converts to integers, none of which distinguishes `-0.0` from `+0.0`.

C++ leaves the format of `double` to the implementation.  The operations below use binary64,
the format of desktop compilers and of the 32-bit Arduino cores; the rounding function itself
is parametric in the format.  (On 8-bit AVR `double` is binary32; the statements below that
depend on the precision are about binary64.) -/

/-- Parameters of a binary floating-point format. -/
structure FloatFormat where
  /-- Number of significand bits, the implicit leading bit included. -/
  prec : Nat
  /-- Exponent of the smallest positive (subnormal) value `2^emin`. -/
  emin : Int
  /-- Finite values have magnitude below `2^emax`. -/
  emax : Int

/-- IEEE-754 binary64. -/
def binary64 : FloatFormat := { prec := 53, emin := -1074, emax := 1024 }

/-- The power `2^e` as a rational, for any integer exponent. -/
def pow2 (e : Int) : ℚ :=
  if 0 ≤ e then ((2 ^ e.toNat : Nat) : ℚ) else 1 / ((2 ^ (-e).toNat : Nat) : ℚ)

/-- Binary logarithm of a natural number, rounded down, by repeated halving. -/
def log2Fuel : Nat → Nat → Nat
  | 0, _ => 0
  | fuel + 1, n => if 2 ≤ n then log2Fuel fuel (n / 2) + 1 else 0

/-- Floor of the binary logarithm of `n` (`0` for `n = 0`). -/
def nlog2 (n : Nat) : Nat := log2Fuel n n

/-- Floor of the binary logarithm of `|q|` for `q ≠ 0`. -/
def ilog2 (q : ℚ) : Int :=
  let e : Int := (nlog2 q.num.natAbs : Int) - (nlog2 q.den : Int)
  if pow2 e ≤ |q| then e else e - 1

/-- Rounding of a rational to the nearest integer, ties to the even one. -/
def rne (s : ℚ) : Int :=
  let f := ⌊s⌋
  let r := s - f
  if r < 1 / 2 then f else if 1 / 2 < r then f + 1 else if f % 2 = 0 then f else f + 1

/-- Exponent of the unit in the last place for a value of magnitude `|q|`. -/
def FloatFormat.ulpExp (F : FloatFormat) (q : ℚ) : Int :=
  max (ilog2 q - ((F.prec : Int) - 1)) F.emin

/-- The unit in the last place for a value of magnitude `|q|`. -/
def FloatFormat.ulp (F : FloatFormat) (q : ℚ) : ℚ :=
  pow2 (F.ulpExp q)

/-- Values of type `double`. -/
inductive Double where
  | fin (q : ℚ)
  | inf (neg : Bool)
  | nan
  deriving DecidableEq

/-- The multiple of the unit in the last place nearest to `q`, ties to even. -/
def FloatFormat.roundQ (F : FloatFormat) (q : ℚ) : ℚ :=
  (rne (q / F.ulp q) : ℚ) * F.ulp q

/-- Round-to-nearest-even of an exact result, overflowing to an infinity. -/
def FloatFormat.round (F : FloatFormat) (q : ℚ) : Double :=
  if pow2 F.emax ≤ |F.roundQ q| then .inf (decide (F.roundQ q < 0)) else .fin (F.roundQ q)

/-- The values `m * 2^e` with a significand of at most `prec` bits and `e` not below `emin`:
the finite values of the format, the bound on the magnitude left aside. -/
def FloatFormat.inFormat (F : FloatFormat) (f : ℚ) : Prop :=
  ∃ m e : Int, |m| < 2 ^ F.prec ∧ F.emin ≤ e ∧ f = (m : ℚ) * (2 : ℚ) ^ e

/-- A rational is a value of the format when rounding leaves it unchanged. -/
def FloatFormat.representable (F : FloatFormat) (q : ℚ) : Prop :=
  F.round q = .fin q

instance (F : FloatFormat) (q : ℚ) : Decidable (F.representable q) :=
  inferInstanceAs (Decidable (F.round q = .fin q))

/-- Multiplication of two `double`s. -/
def Double.mul : Double → Double → Double
  | .fin a, .fin b => binary64.round (a * b)
  | .fin a, .inf s => if a = 0 then .nan else .inf (xor (decide (a < 0)) s)
  | .inf s, .fin b => if b = 0 then .nan else .inf (xor s (decide (b < 0)))
  | .inf s, .inf t => .inf (xor s t)
  | .nan, _ => .nan
  | _, .nan => .nan

/-- Division of two `double`s (a zero divisor is taken as `+0.0`). -/
def Double.div : Double → Double → Double
  | .fin a, .fin b =>
      if b = 0 then (if a = 0 then .nan else .inf (decide (a < 0))) else binary64.round (a / b)
  | .fin _, .inf _ => .fin 0
  | .inf s, .fin b => .inf (xor s (decide (b < 0)))
  | .inf _, .inf _ => .nan
  | .nan, _ => .nan
  | _, .nan => .nan

/-- Conversion of an integer (`int16_t`, `uint16_t` after promotion) to `double`. -/
def Double.ofInt (z : Int) : Double :=
  binary64.round (z : ℚ)

/-- Truncation of a rational toward zero. -/
def truncate (q : ℚ) : Int :=
  if 0 ≤ q then ⌊q⌋ else -⌊-q⌋

/-- Conversion `double` to `int16_t`: the value truncated toward zero.  The behaviour is
undefined (`none`) when the truncated value does not fit, or for an infinity or NaN. -/
def Double.toInt16 : Double → Option Int
  | .fin q => if -32768 ≤ truncate q ∧ truncate q ≤ 32767 then some (truncate q) else none
  | _ => none

/-- Conversion `double` to `uint16_t`: the value truncated toward zero.  The behaviour is
undefined (`none`) when the truncated value does not fit, or for an infinity or NaN. -/
def Double.toUInt16 : Double → Option Nat
  | .fin q => if 0 ≤ truncate q ∧ truncate q ≤ 65535 then some (truncate q).toNat else none
  | _ => none

/-! ## Unit conversions (`INA260.h`) -/

/-- `static double rawToAmps(int16_t value) { return (value * 1.25) / 1000.0; }`. -/
def rawToAmps (value : Int) : Double :=
  Double.div (Double.mul (Double.ofInt value) (.fin (5 / 4))) (.fin 1000)

/-- `static int16_t ampsToRaw(double value) { return (value * 1000.0) / 1.25; }`. -/
def ampsToRaw (value : Double) : Option Int :=
  (Double.div (Double.mul value (.fin 1000)) (.fin (5 / 4))).toInt16

/-- `static double rawToVolts(uint16_t value) { return (value * 1.25) / 1000.0; }`. -/
def rawToVolts (value : Nat) : Double :=
  Double.div (Double.mul (Double.ofInt (value : Int)) (.fin (5 / 4))) (.fin 1000)

/-- `static uint16_t voltsToRaw(double value) { return (value * 1000.0) / 1.25; }`. -/
def voltsToRaw (value : Double) : Option Nat :=
  (Double.div (Double.mul value (.fin 1000)) (.fin (5 / 4))).toUInt16

/-- `static double rawToWatts(uint16_t value) { return (value * 10.0) / 1000.0; }`. -/
def rawToWatts (value : Nat) : Double :=
  Double.div (Double.mul (Double.ofInt (value : Int)) (.fin 10)) (.fin 1000)

/-- `static uint16_t wattsToRaw(double value) { return (value * 1000.0) / 10.0; }`. -/
def wattsToRaw (value : Double) : Option Nat :=
  (Double.div (Double.mul value (.fin 1000)) (.fin 10)).toUInt16

/-! ## Unit-converted read accessors (`INA260.h`) -/

/-- `bool readCurrentRegisterInAmps(double &value) const`. -/
def readCurrentRegisterInAmps (self : Device) (value : Double) (Wire : TwoWire) :
    Bool × Double × TwoWire :=
  let rawValue : Nat := 0
  let r := readCurrentRegister self rawValue Wire
  if r.1 then (true, rawToAmps (toInt16 r.2.1), r.2.2) else (false, value, r.2.2)

/-- `bool readBusVoltageRegisterInVolts(double &value) const`. -/
def readBusVoltageRegisterInVolts (self : Device) (value : Double) (Wire : TwoWire) :
    Bool × Double × TwoWire :=
  let rawValue : Nat := 0
  let r := readBusVoltageRegister self rawValue Wire
  if r.1 then (true, rawToVolts r.2.1, r.2.2) else (false, value, r.2.2)

/-- `bool readPowerRegisterInWatts(double &value) const`. -/
def readPowerRegisterInWatts (self : Device) (value : Double) (Wire : TwoWire) :
    Bool × Double × TwoWire :=
  let rawValue : Nat := 0
  let r := readPowerRegister self rawValue Wire
  if r.1 then (true, rawToWatts r.2.1, r.2.2) else (false, value, r.2.2)

/-- `bool readAlertLimitRegisterInAmps(double &value) const`. -/
def readAlertLimitRegisterInAmps (self : Device) (value : Double) (Wire : TwoWire) :
    Bool × Double × TwoWire :=
  let val : Nat := 0
  let r := readAlertLimitRegister self val Wire
  if r.1 then (true, rawToAmps (toInt16 r.2.1), r.2.2) else (false, value, r.2.2)

/-- `bool readAlertLimitRegisterInVolts(double &value) const`. -/
def readAlertLimitRegisterInVolts (self : Device) (value : Double) (Wire : TwoWire) :
    Bool × Double × TwoWire :=
  let val : Nat := 0
  let r := readAlertLimitRegister self val Wire
  if r.1 then (true, rawToVolts r.2.1, r.2.2) else (false, value, r.2.2)

/-- `bool readAlertLimitRegisterInWatts(double &value) const`. -/
def readAlertLimitRegisterInWatts (self : Device) (value : Double) (Wire : TwoWire) :
    Bool × Double × TwoWire :=
  let val : Nat := 0
  let r := readAlertLimitRegister self val Wire
  if r.1 then (true, rawToWatts r.2.1, r.2.2) else (false, value, r.2.2)

/-! ## Unit-converted write accessors (`INA260.h`)

The result is `none` when the conversion of the computed count to the integer type is
undefined. -/

/-- `bool writeAlertLimitRegisterInAmps(double value) const`.  The `int16_t` count is
converted to the `uint16_t` parameter of `writeAlertLimitRegister`. -/
def writeAlertLimitRegisterInAmps (self : Device) (value : Double) (Wire : TwoWire) :
    Option (Bool × TwoWire) :=
  (ampsToRaw value).map fun n => writeAlertLimitRegister self (intToUInt16 n) Wire

/-- `bool writeAlertLimitRegisterInVolts(double value) const`. -/
def writeAlertLimitRegisterInVolts (self : Device) (value : Double) (Wire : TwoWire) :
    Option (Bool × TwoWire) :=
  (voltsToRaw value).map fun n => writeAlertLimitRegister self n Wire

/-- `bool writeAlertLimitRegisterInWatts(double value) const`. -/
def writeAlertLimitRegisterInWatts (self : Device) (value : Double) (Wire : TwoWire) :
    Option (Bool × TwoWire) :=
  (wattsToRaw value).map fun n => writeAlertLimitRegister self n Wire

/-! ## Simulated transports and call sequences used in the statements -/

/-- The calls `readRegister` makes before it inspects the receive buffer. -/
def selectAndRequest (self : Device) (reg : Nat) : List WireCall :=
  [.beginTransmission self.addr, .write reg, .endTransmission, .requestFrom self.addr 2]

/-- The calls of one `writeRegister` transaction. -/
def writeTransaction (self : Device) (reg v : Nat) : List WireCall :=
  [.beginTransmission self.addr, .write reg, .write ((v >>> 8) &&& 0xFF), .write (v &&& 0xFF),
    .endTransmission]

/-- A simulated transport that answers every read request with the same bytes and every
write transaction with the same status. -/
def constWire (status : Nat) (bytes : List Nat) : TwoWire :=
  { calls := [], rxBuffer := [], endStatus := fun _ => status, slave := fun _ _ _ => bytes }

/-- Calls `begin` on each handle of the list, in order. -/
def beginAll (handles : List Device) (g : Globals) : Globals :=
  handles.foldl (fun g self => begin self g) g

/-- One reset write per handle, in order: the configuration word `0x8000` sent to register
`0x00` of the handle's bus address. -/
def resetWrites (handles : List Device) : List WireCall :=
  handles.flatMap fun self =>
    [.beginTransmission self.addr, .write 0x00, .write 0x80, .write 0x00, .endTransmission]

/-- Packs five field values into a `ConfigurationRegister` by member assignment, starting
from the value-initialised register. -/
def ConfigurationRegister.pack (mode ishct vbusct avg rst : Nat) : ConfigurationRegister :=
  ((((ConfigurationRegister.zero.setMode mode).setIshct ishct).setVbusct vbusct).setAvg
    avg).setRst rst

/-- Bit position of a named flag of `MaskEnableRegister` in `rawValue`. -/
def MaskEnableFlag.bit : MaskEnableFlag → Nat
  | .len => 0
  | .apol => 1
  | .ovf => 2
  | .cvrf => 3
  | .aff => 4
  | .cnvr => 10
  | .pol => 11
  | .bul => 12
  | .bol => 13
  | .ucl => 14
  | .ocl => 15

/-! ## Properties -/

/-! ### Device address -/

/-- C1: for every 8-bit sub-address `a` the constructor yields the bus address
`0b1000000 | (a & 0b1111)`, that is `0x40 + a mod 16`, which lies in `0x40..0x4F`;
larger inputs are masked, never rejected. -/
theorem subaddress_masked (a : Nat) (h : a < 256) :
    (INA260 a).addr = 0b1000000 ||| (a &&& 0b1111) ∧
    (INA260 a).addr = 0x40 + a % 16 ∧
    0x40 ≤ (INA260 a).addr ∧ (INA260 a).addr ≤ 0x4F := by
  revert a
  decide!

/-- Witness for C1: sub-address `0b10101` gives `0x45`, the default sub-address gives `0x40`. -/
theorem subaddress_masked_witness :
    (0b10101 : Nat) < 256 ∧ (INA260 0b10101).addr = 0x45 ∧ (INA260).addr = 0x40 :=
  ⟨by decide, (subaddress_masked 0b10101 (by decide)).1.trans (by decide), by decide⟩

/-- C2: the pin constructor delegates to the sub-address constructor with
`(a1 << 2) | a0`, so the address is `0x40 | (a1 << 2) | a0`; the sixteen pin pairs give
pairwise distinct addresses, and these are exactly `0x40..0x4F`. -/
theorem address_pins_bijective :
    (∀ a0 a1 : AddressPin,
      INA260Pins a0 a1 = INA260 ((a1.val <<< 2) ||| a0.val) ∧
      (INA260Pins a0 a1).addr = 0x40 ||| (a1.val <<< 2) ||| a0.val) ∧
    (∀ a0 a1 b0 b1 : AddressPin,
      (INA260Pins a0 a1).addr = (INA260Pins b0 b1).addr → a0 = b0 ∧ a1 = b1) ∧
    (∀ n : Nat, (0x40 ≤ n ∧ n ≤ 0x4F) ↔ ∃ a0 a1 : AddressPin, (INA260Pins a0 a1).addr = n) := by
  refine ⟨by decide, by decide, ?_⟩
  intro n
  constructor
  · rintro ⟨h1, h2⟩
    have key : ∀ k : Nat, k ≤ 0x4F → 0x40 ≤ k →
        ∃ a0 a1 : AddressPin, (INA260Pins a0 a1).addr = k := by
      decide!
    exact key n h2 h1
  · rintro ⟨a0, a1, rfl⟩
    revert a0 a1
    decide

/-- Witness for C2: pins `(SCL, SCL)` give `0x4F`, and `0x4B` is the address of some pair. -/
theorem address_pins_bijective_witness :
    (INA260Pins .ADDR_SCL .ADDR_SCL).addr = 0x4F ∧
    ∃ a0 a1 : AddressPin, (INA260Pins a0 a1).addr = 0x4B :=
  ⟨(address_pins_bijective.1 .ADDR_SCL .ADDR_SCL).2.trans (by decide),
    (address_pins_bijective.2.2 0x4B).mp ⟨by decide, by decide⟩⟩

/-! ### Register access -/

/-- Two bytes taken from the receive buffer combine most-significant byte first. -/
theorem byte_word (b0 b1 : Nat) (h0 : b0 < 256) (h1 : b1 < 256) :
    toUInt16 ((intToUInt16 ((toUInt8 b0 : Nat) : Int) <<< 8) |||
      intToUInt16 ((toUInt8 b1 : Nat) : Int)) = (b0 <<< 8) ||| b1 := by
  have e0 : intToUInt16 ((toUInt8 b0 : Nat) : Int) = b0 := by
    unfold intToUInt16 toUInt8; omega
  have e1 : intToUInt16 ((toUInt8 b1 : Nat) : Int) = b1 := by
    unfold intToUInt16 toUInt8; omega
  rw [e0, e1]
  unfold toUInt16
  apply Nat.mod_eq_of_lt
  have hs : b0 <<< 8 < 2 ^ 16 := by
    rw [Nat.shiftLeft_eq]; omega
  exact Nat.or_lt_two_pow hs (by omega)

/-- The control flow of `readRegister` in terms of what the bus delivers. -/
theorem readRegister_unfold (self : Device) (reg value : Nat) (Wire : TwoWire)
    (haddr : self.addr < 256) (hreg : reg < 256) :
    readRegister self reg value Wire =
      if (Wire.slave (Wire.calls ++ selectAndRequest self reg) self.addr 2).length = 2 then
        (true,
          toUInt16 ((intToUInt16 (TwoWire.read
              { Wire with
                calls := Wire.calls ++ selectAndRequest self reg ++ [.available]
                rxBuffer := Wire.slave (Wire.calls ++ selectAndRequest self reg) self.addr 2 }).1
            <<< 8) |||
            intToUInt16 (TwoWire.read (TwoWire.read
              { Wire with
                calls := Wire.calls ++ selectAndRequest self reg ++ [.available]
                rxBuffer := Wire.slave (Wire.calls ++ selectAndRequest self reg) self.addr 2 }).2).1),
          (TwoWire.read (TwoWire.read
              { Wire with
                calls := Wire.calls ++ selectAndRequest self reg ++ [.available]
                rxBuffer := Wire.slave (Wire.calls ++ selectAndRequest self reg) self.addr 2 }).2).2)
      else
        (false, value,
          { Wire with
            calls := Wire.calls ++ selectAndRequest self reg ++ [.available]
            rxBuffer := Wire.slave (Wire.calls ++ selectAndRequest self reg) self.addr 2 }) := by
  have ha : toUInt8 self.addr = self.addr := Nat.mod_eq_of_lt haddr
  have hr : toUInt8 reg = reg := Nat.mod_eq_of_lt hreg
  simp only [readRegister, selectAndRequest, TwoWire.beginTransmission, TwoWire.write,
    TwoWire.endTransmission, TwoWire.requestFrom, TwoWire.available, TwoWire.record, ha, hr,
    List.append_assoc, List.cons_append, List.nil_append, Nat.cast_inj, Nat.cast_ofNat]
  congr 1
  exact propext (by norm_cast)

/-- What a successful two-byte read returns and leaves behind. -/
theorem readRegister_two_bytes (self : Device) (reg value b0 b1 : Nat) (Wire : TwoWire)
    (haddr : self.addr < 256) (hreg : reg < 256) (h0 : b0 < 256) (h1 : b1 < 256)
    (hbus : Wire.slave (Wire.calls ++ selectAndRequest self reg) self.addr 2 = [b0, b1]) :
    readRegister self reg value Wire =
      (true, (b0 <<< 8) ||| b1,
        { Wire with
          calls := Wire.calls ++ selectAndRequest self reg ++ [.available, .read, .read]
          rxBuffer := [] }) := by
  rw [readRegister_unfold self reg value Wire haddr hreg, hbus]
  simp [TwoWire.read, TwoWire.record, byte_word b0 b1 h0 h1]

/-- C3: when the bus delivers exactly the two bytes `[b0, b1]`, `readRegister reg` sends the
single select byte `reg` to the device address, requests exactly 2 bytes from that address,
returns `true` and sets `value = (b0 << 8) | b1`, consuming both bytes. -/
theorem readRegister_success (self : Device) (reg value b0 b1 : Nat) (Wire : TwoWire)
    (haddr : self.addr < 256) (hreg : reg < 256) (h0 : b0 < 256) (h1 : b1 < 256)
    (hbus : Wire.slave (Wire.calls ++ selectAndRequest self reg) self.addr 2 = [b0, b1]) :
    (readRegister self reg value Wire).1 = true ∧
    (readRegister self reg value Wire).2.1 = (b0 <<< 8) ||| b1 ∧
    (readRegister self reg value Wire).2.2.calls =
      Wire.calls ++ [.beginTransmission self.addr, .write reg, .endTransmission,
        .requestFrom self.addr 2, .available, .read, .read] ∧
    (readRegister self reg value Wire).2.2.rxBuffer = [] := by
  rw [readRegister_two_bytes self reg value b0 b1 Wire haddr hreg h0 h1 hbus]
  simp [selectAndRequest]

/-- Witness for C3: a transport answering `[0x12, 0x34]` gives success and `0x1234`. -/
theorem readRegister_success_witness :
    (readRegister (INA260 0) CURRENT_REGISTER 0 (constWire 0 [0x12, 0x34])).1 = true ∧
    (readRegister (INA260 0) CURRENT_REGISTER 0 (constWire 0 [0x12, 0x34])).2.1 = 0x1234 :=
  have h := readRegister_success (INA260 0) CURRENT_REGISTER 0 0x12 0x34
    (constWire 0 [0x12, 0x34]) (by decide) (by decide) (by decide) (by decide) rfl
  ⟨h.1, h.2.1.trans (by decide)⟩

/-- C4: when the number of bytes available after the request differs from 2,
`readRegister` returns `false`, leaves `value` as it was, and consumes no data byte (the
receive buffer is what the bus delivered and no `read` call is made); and `readRegister`
returns `true` exactly when the available count is 2. -/
theorem readRegister_failure (self : Device) (reg value : Nat) (Wire : TwoWire)
    (haddr : self.addr < 256) (hreg : reg < 256) :
    ((Wire.slave (Wire.calls ++ selectAndRequest self reg) self.addr 2).length ≠ 2 →
      (readRegister self reg value Wire).1 = false ∧
      (readRegister self reg value Wire).2.1 = value ∧
      (readRegister self reg value Wire).2.2.rxBuffer =
        Wire.slave (Wire.calls ++ selectAndRequest self reg) self.addr 2 ∧
      (readRegister self reg value Wire).2.2.calls =
        Wire.calls ++ selectAndRequest self reg ++ [.available]) ∧
    ((readRegister self reg value Wire).1 = true ↔
      (Wire.slave (Wire.calls ++ selectAndRequest self reg) self.addr 2).length = 2) := by
  rw [readRegister_unfold self reg value Wire haddr hreg]
  constructor
  · intro hlen
    rw [if_neg hlen]
    exact ⟨rfl, rfl, rfl, rfl⟩
  · by_cases hlen : (Wire.slave (Wire.calls ++ selectAndRequest self reg) self.addr 2).length = 2
    · rw [if_pos hlen]; simp [hlen]
    · rw [if_neg hlen]; simp [hlen]

/-- Witness for C4: with a single byte available the read fails, `value` keeps `0xBEEF`
and the byte stays in the receive buffer. -/
theorem readRegister_failure_witness :
    (readRegister (INA260 0) CURRENT_REGISTER 0xBEEF (constWire 0 [0x12])).1 = false ∧
    (readRegister (INA260 0) CURRENT_REGISTER 0xBEEF (constWire 0 [0x12])).2.1 = 0xBEEF ∧
    (readRegister (INA260 0) CURRENT_REGISTER 0xBEEF (constWire 0 [0x12])).2.2.rxBuffer = [0x12] :=
  have h := (readRegister_failure (INA260 0) CURRENT_REGISTER 0xBEEF (constWire 0 [0x12])
    (by decide) (by decide)).1 (by decide)
  ⟨h.1, h.2.1, h.2.2.1⟩

/-- The calls and the result of `writeRegister`. -/
theorem writeRegister_spec (self : Device) (reg v : Nat) (Wire : TwoWire)
    (haddr : self.addr < 256) (hreg : reg < 256) :
    writeRegister self reg v Wire =
      (toUInt8 (Wire.endStatus (Wire.calls ++ writeTransaction self reg v)) == 0,
        { Wire with calls := Wire.calls ++ writeTransaction self reg v }) := by
  have ha : toUInt8 self.addr = self.addr := Nat.mod_eq_of_lt haddr
  have hr : toUInt8 reg = reg := Nat.mod_eq_of_lt hreg
  have h1 : toUInt8 ((v >>> 8) &&& 0xFF) = (v >>> 8) &&& 0xFF :=
    Nat.mod_eq_of_lt (lt_of_le_of_lt Nat.and_le_right (by decide))
  have h2 : toUInt8 (v &&& 0xFF) = v &&& 0xFF :=
    Nat.mod_eq_of_lt (lt_of_le_of_lt Nat.and_le_right (by decide))
  simp [writeRegister, writeTransaction, TwoWire.beginTransmission, TwoWire.write,
    TwoWire.endTransmission, TwoWire.record, ha, hr, h1, h2]

/-- C5: `writeRegister reg v` performs a single transaction to the device address whose
bytes are `[reg, (v >> 8) & 0xFF, v & 0xFF]`, and returns `true` exactly when the status of
that transaction is 0; nothing else is sent (no retry). -/
theorem writeRegister_transaction (self : Device) (reg v : Nat) (Wire : TwoWire)
    (haddr : self.addr < 256) (hreg : reg < 256) :
    (writeRegister self reg v Wire).2.calls =
      Wire.calls ++ [.beginTransmission self.addr, .write reg, .write ((v >>> 8) &&& 0xFF),
        .write (v &&& 0xFF), .endTransmission] ∧
    (writeRegister self reg v Wire).2.rxBuffer = Wire.rxBuffer ∧
    ((writeRegister self reg v Wire).1 = true ↔
      toUInt8 (Wire.endStatus (Wire.calls ++ [.beginTransmission self.addr, .write reg,
        .write ((v >>> 8) &&& 0xFF), .write (v &&& 0xFF), .endTransmission])) = 0) := by
  rw [writeRegister_spec self reg v Wire haddr hreg]
  simp [writeTransaction]

/-- Witness for C5: writing `0x1234` to the alert limit register of the default device, once
on a bus that acknowledges and once on a bus that reports a NACK (status 2). -/
theorem writeRegister_transaction_witness :
    (writeRegister (INA260 0) ALERT_LIMIT_REGISTER 0x1234 (constWire 0 [])).2.calls =
      [.beginTransmission 0x40, .write 0x07, .write 0x12, .write 0x34, .endTransmission] ∧
    (writeRegister (INA260 0) ALERT_LIMIT_REGISTER 0x1234 (constWire 0 [])).1 = true ∧
    (writeRegister (INA260 0) ALERT_LIMIT_REGISTER 0x1234 (constWire 2 [])).1 = false :=
  ⟨(writeRegister_transaction (INA260 0) ALERT_LIMIT_REGISTER 0x1234 (constWire 0 [])
      (by decide) (by decide)).1,
    (writeRegister_transaction (INA260 0) ALERT_LIMIT_REGISTER 0x1234 (constWire 0 [])
      (by decide) (by decide)).2.2.mpr (by decide),
    by decide⟩

/-- C6: `reset` is one write of the word `0x8000` to the configuration register `0x00`:
only the reset flag (bit 15) is set and every other field is zero, the wire bytes are
`[0x00, 0x80, 0x00]`, and the result is the success of that write. -/
theorem reset_writes_reset_bit (self : Device) (Wire : TwoWire) (haddr : self.addr < 256) :
    reset self Wire = writeRegister self CONFIGURATION_REGISTER 0x8000 Wire ∧
    CONFIGURATION_REGISTER = 0x00 ∧
    ((ConfigurationRegister.zero.setRst 1).rawValue = 0x8000 ∧
      (ConfigurationRegister.zero.setRst 1).rst = 1 ∧
      (ConfigurationRegister.zero.setRst 1).mode = 0 ∧
      (ConfigurationRegister.zero.setRst 1).ishct = 0 ∧
      (ConfigurationRegister.zero.setRst 1).vbusct = 0 ∧
      (ConfigurationRegister.zero.setRst 1).avg = 0 ∧
      getBits (ConfigurationRegister.zero.setRst 1).rawValue 12 3 = 0) ∧
    (reset self Wire).2.calls =
      Wire.calls ++ [.beginTransmission self.addr, .write 0x00, .write 0x80, .write 0x00,
        .endTransmission] ∧
    ((reset self Wire).1 = true ↔
      toUInt8 (Wire.endStatus (Wire.calls ++ [.beginTransmission self.addr, .write 0x00,
        .write 0x80, .write 0x00, .endTransmission])) = 0) := by
  have h : reset self Wire = writeRegister self CONFIGURATION_REGISTER 0x8000 Wire := by
    simp only [reset, writeConfigurationRegister]
    rfl
  have hw := writeRegister_spec self CONFIGURATION_REGISTER 0x8000 Wire haddr (by decide)
  have ht : writeTransaction self CONFIGURATION_REGISTER 0x8000 =
      [.beginTransmission self.addr, .write 0x00, .write 0x80, .write 0x00,
        .endTransmission] := by
    simp only [writeTransaction, CONFIGURATION_REGISTER]
    have e1 : (0x8000 >>> 8) &&& 0xFF = 0x80 := by decide
    have e2 : 0x8000 &&& 0xFF = 0x00 := by decide
    rw [e1, e2]
  rw [ht] at hw
  refine ⟨h, rfl, by decide, ?_, ?_⟩
  · rw [h, hw]
  · rw [h, hw]
    simp

/-- Witness for C6: resetting the device at address `0x45`. -/
theorem reset_writes_reset_bit_witness :
    (reset (INA260 0b0101) (constWire 0 [])).2.calls =
      [.beginTransmission 0x45, .write 0x00, .write 0x80, .write 0x00, .endTransmission] ∧
    (reset (INA260 0b0101) (constWire 0 [])).1 = true :=
  ⟨(reset_writes_reset_bit (INA260 0b0101) (constWire 0 []) (by decide)).2.2.2.1,
    (reset_writes_reset_bit (INA260 0b0101) (constWire 0 []) (by decide)).2.2.2.2.mpr
      (by decide)⟩

/-! ### Floating point: powers of two and binary logarithms -/

/-- `pow2` is the integer power of two. -/
theorem pow2_eq (e : Int) : pow2 e = (2 : ℚ) ^ e := by
  unfold pow2
  split_ifs with h
  · lift e to ℕ using h
    simp
  · push_neg at h
    have h' : 0 ≤ -e := by omega
    obtain ⟨k, hk⟩ := Int.eq_ofNat_of_zero_le h'
    have he : e = -(k : Int) := by omega
    subst he
    simp

/-- Powers of two are positive. -/
theorem pow2_pos (e : Int) : 0 < pow2 e := by
  rw [pow2_eq]; positivity

/-- With enough fuel `log2Fuel` brackets `n` between consecutive powers of two. -/
theorem log2Fuel_spec : ∀ (fuel n : Nat), n ≤ fuel → 1 ≤ n →
    2 ^ log2Fuel fuel n ≤ n ∧ n < 2 ^ (log2Fuel fuel n + 1)
  | 0, n, h, h1 => by omega
  | fuel + 1, n, h, h1 => by
    unfold log2Fuel
    split_ifs with h2
    · have ih := log2Fuel_spec fuel (n / 2) (by omega) (by omega)
      constructor
      · calc 2 ^ (log2Fuel fuel (n / 2) + 1) = 2 ^ log2Fuel fuel (n / 2) * 2 := by ring
          _ ≤ (n / 2) * 2 := Nat.mul_le_mul_right 2 ih.1
          _ ≤ n := Nat.div_mul_le_self n 2
      · have : n / 2 + 1 ≤ 2 ^ (log2Fuel fuel (n / 2) + 1) := ih.2
        calc n < (n / 2 + 1) * 2 := by omega
          _ ≤ 2 ^ (log2Fuel fuel (n / 2) + 1) * 2 := Nat.mul_le_mul_right 2 this
          _ = 2 ^ (log2Fuel fuel (n / 2) + 1 + 1) := by ring
    · constructor
      · simpa using h1
      · simp; omega

/-- `nlog2 n` is the floor of the binary logarithm of `n`. -/
theorem nlog2_spec (n : Nat) (h : 1 ≤ n) : 2 ^ nlog2 n ≤ n ∧ n < 2 ^ (nlog2 n + 1) :=
  log2Fuel_spec n n le_rfl h

/-- `ilog2 q` is the floor of the binary logarithm of `|q|`. -/
theorem ilog2_spec (q : ℚ) (hq : q ≠ 0) :
    (2 : ℚ) ^ ilog2 q ≤ |q| ∧ |q| < (2 : ℚ) ^ (ilog2 q + 1) := by
  have hn : 1 ≤ q.num.natAbs := by
    have : q.num ≠ 0 := Rat.num_ne_zero.mpr hq
    omega
  have hd : 1 ≤ q.den := q.den_pos
  obtain ⟨a1, a2⟩ := nlog2_spec _ hn
  obtain ⟨b1, b2⟩ := nlog2_spec _ hd
  have habs : |q| = (q.num.natAbs : ℚ) / (q.den : ℚ) := by
    rw [← Rat.num_div_den q, abs_div]
    simp [Nat.cast_natAbs]
    rw [Rat.num_div_den]
  have hdpos : (0 : ℚ) < q.den := by exact_mod_cast hd
  have A1 : (2 : ℚ) ^ (nlog2 q.num.natAbs) ≤ (q.num.natAbs : ℚ) := by exact_mod_cast a1
  have A2 : (q.num.natAbs : ℚ) < (2 : ℚ) ^ (nlog2 q.num.natAbs + 1) := by exact_mod_cast a2
  have B1 : (2 : ℚ) ^ (nlog2 q.den) ≤ (q.den : ℚ) := by exact_mod_cast b1
  have B2 : (q.den : ℚ) < (2 : ℚ) ^ (nlog2 q.den + 1) := by exact_mod_cast b2
  set a := nlog2 q.num.natAbs
  set b := nlog2 q.den
  have two_pos : (0 : ℚ) < 2 := by norm_num
  -- bounds on |q|
  have up : |q| < (2 : ℚ) ^ ((a : Int) - b + 1) := by
    rw [habs, div_lt_iff₀ hdpos]
    calc (q.num.natAbs : ℚ) < (2 : ℚ) ^ (a + 1) := A2
      _ = (2 : ℚ) ^ ((a : Int) - b + 1) * (2 : ℚ) ^ b := by
          rw [← zpow_natCast, ← zpow_natCast, ← zpow_add₀ two_pos.ne']
          congr 1; push_cast; ring
      _ ≤ (2 : ℚ) ^ ((a : Int) - b + 1) * q.den :=
          mul_le_mul_of_nonneg_left B1 (by positivity)
  have lo : (2 : ℚ) ^ ((a : Int) - b - 1) ≤ |q| := by
    rw [habs, le_div_iff₀ hdpos]
    calc (2 : ℚ) ^ ((a : Int) - b - 1) * q.den ≤ (2 : ℚ) ^ ((a : Int) - b - 1) * (2 : ℚ) ^ (b + 1) :=
          mul_le_mul_of_nonneg_left B2.le (by positivity)
      _ = (2 : ℚ) ^ a := by
          rw [← zpow_natCast, ← zpow_natCast, ← zpow_add₀ two_pos.ne']
          congr 1; push_cast; ring
      _ ≤ (q.num.natAbs : ℚ) := A1
  unfold ilog2
  simp only
  rw [pow2_eq]
  split_ifs with h
  · exact ⟨h, up⟩
  · push_neg at h
    refine ⟨lo, ?_⟩
    have : (a : Int) - b - 1 + 1 = (a : Int) - b := by ring
    rw [this]; exact h

/-! ### Floating point: rounding to the nearest integer -/

/-- The result of `rne` is the floor or the floor plus one, whichever is not farther. -/
theorem rne_cases (s : ℚ) :
    (rne s = ⌊s⌋ ∧ s - ⌊s⌋ ≤ 1 / 2) ∨ (rne s = ⌊s⌋ + 1 ∧ 1 / 2 ≤ s - ⌊s⌋) := by
  unfold rne
  simp only
  split_ifs with h1 h2 h3
  · exact Or.inl ⟨rfl, h1.le⟩
  · exact Or.inr ⟨rfl, h2.le⟩
  · exact Or.inl ⟨rfl, le_of_not_lt h2⟩
  · exact Or.inr ⟨rfl, le_of_not_lt h1⟩

/-- No integer is nearer to `s` than `rne s`. -/
theorem rne_nearest (s : ℚ) (k : Int) : |(rne s : ℚ) - s| ≤ |(k : ℚ) - s| := by
  have hf1 : (⌊s⌋ : ℚ) ≤ s := Int.floor_le s
  have hf2 : s < (⌊s⌋ : ℚ) + 1 := Int.lt_floor_add_one s
  have hk : k ≤ ⌊s⌋ ∨ ⌊s⌋ + 1 ≤ k := by omega
  rcases rne_cases s with ⟨e, h⟩ | ⟨e, h⟩
  · rw [e]
    rw [abs_of_nonpos (by linarith)]
    rcases hk with hk | hk
    · have : (k : ℚ) ≤ (⌊s⌋ : ℚ) := by exact_mod_cast hk
      rw [abs_of_nonpos (by linarith)]
      linarith
    · have : (⌊s⌋ : ℚ) + 1 ≤ (k : ℚ) := by exact_mod_cast hk
      rw [abs_of_nonneg (by linarith)]
      linarith
  · rw [e]
    push_cast
    rw [abs_of_nonneg (by linarith)]
    rcases hk with hk | hk
    · have : (k : ℚ) ≤ (⌊s⌋ : ℚ) := by exact_mod_cast hk
      rw [abs_of_nonpos (by linarith)]
      linarith
    · have : (⌊s⌋ : ℚ) + 1 ≤ (k : ℚ) := by exact_mod_cast hk
      rw [abs_of_nonneg (by linarith)]
      linarith

/-- Integers are left unchanged by `rne`. -/
theorem rne_intCast (k : Int) : rne (k : ℚ) = k := by
  have h := rne_nearest (k : ℚ) k
  simp only [sub_self, abs_zero] at h
  have h0 : (rne (k : ℚ) : ℚ) - k = 0 := abs_eq_zero.mp (le_antisymm h (abs_nonneg _))
  have : (rne (k : ℚ) : ℚ) = (k : ℚ) := by linarith
  exact_mod_cast this

/-- Rounding to nearest is monotone with respect to integer thresholds. -/
theorem rne_le_of_le (s : ℚ) (k : Int) (h : s ≤ k) : rne s ≤ k := by
  by_contra hc
  push_neg at hc
  have h1 := rne_nearest s k
  have hc' : (k : ℚ) + 1 ≤ (rne s : ℚ) := by exact_mod_cast hc
  rw [abs_of_nonneg (by linarith), abs_of_nonneg (by linarith)] at h1
  linarith

/-- Rounding to nearest is monotone with respect to integer thresholds. -/
theorem le_rne_of_le (s : ℚ) (k : Int) (h : (k : ℚ) ≤ s) : k ≤ rne s := by
  by_contra hc
  push_neg at hc
  have h1 := rne_nearest s k
  have hc' : (rne s : ℚ) + 1 ≤ (k : ℚ) := by exact_mod_cast hc
  rw [abs_of_nonpos (by linarith), abs_of_nonpos (by linarith)] at h1
  linarith

/-- Rounding to nearest even commutes with negation. -/
theorem rne_neg (s : ℚ) : rne (-s) = -rne s := by
  by_cases hs : (⌊s⌋ : ℚ) = s
  · rw [← hs, ← Int.cast_neg, rne_intCast, rne_intCast]
  · have hf1 : (⌊s⌋ : ℚ) < s := lt_of_le_of_ne (Int.floor_le s) hs
    have hf2 : s < (⌊s⌋ : ℚ) + 1 := Int.lt_floor_add_one s
    have hfl : ⌊-s⌋ = -⌊s⌋ - 1 := by
      rw [Int.floor_eq_iff]
      push_cast
      constructor <;> linarith
    unfold rne
    simp only [hfl]
    push_cast
    split_ifs <;> first | omega | (exfalso; linarith)

/-! ### Floating point: rounding to the format -/

/-- The unit in the last place is a power of two. -/
theorem ulp_eq (F : FloatFormat) (q : ℚ) : F.ulp q = (2 : ℚ) ^ F.ulpExp q :=
  pow2_eq _

/-- The unit in the last place is positive. -/
theorem ulp_pos (F : FloatFormat) (q : ℚ) : 0 < F.ulp q :=
  pow2_pos _

/-- Zero rounds to zero. -/
theorem roundQ_zero (F : FloatFormat) : F.roundQ 0 = 0 := by
  unfold FloatFormat.roundQ
  rw [zero_div]
  have : rne (0 : ℚ) = 0 := by exact_mod_cast rne_intCast 0
  rw [this]; simp

/-- No multiple of the unit in the last place is nearer to `q` than `roundQ q`. -/
theorem roundQ_nearest_grid (F : FloatFormat) (q : ℚ) (k : Int) :
    |F.roundQ q - q| ≤ |(k : ℚ) * F.ulp q - q| := by
  have hU := ulp_pos F q
  have h := rne_nearest (q / F.ulp q) k
  have e1 : F.roundQ q - q = ((rne (q / F.ulp q) : ℚ) - q / F.ulp q) * F.ulp q := by
    unfold FloatFormat.roundQ; field_simp
  have e2 : (k : ℚ) * F.ulp q - q = ((k : ℚ) - q / F.ulp q) * F.ulp q := by
    field_simp
  rw [e1, e2, abs_mul, abs_mul, abs_of_pos hU]
  exact mul_le_mul_of_nonneg_right h hU.le

/-- Round-to-nearest: no value of the format is nearer to `q` than `roundQ q`. -/
theorem roundQ_nearest (F : FloatFormat) (hp : 1 ≤ F.prec) (q f : ℚ) (hf : F.inFormat f) :
    |F.roundQ q - q| ≤ |f - q| := by
  obtain ⟨m, e, hm, he, rfl⟩ := hf
  by_cases hq : q = 0
  · subst hq; rw [roundQ_zero]; simp
  have two_ne : (2 : ℚ) ≠ 0 := by norm_num
  by_cases hu : F.ulpExp q ≤ e
  · -- the value is a multiple of the unit in the last place
    obtain ⟨j, hj⟩ := Int.eq_ofNat_of_zero_le (sub_nonneg.mpr hu)
    have he' : e = F.ulpExp q + (j : Int) := by omega
    have h := roundQ_nearest_grid F q (m * 2 ^ j)
    have e3 : ((m * 2 ^ j : Int) : ℚ) * F.ulp q = (m : ℚ) * (2 : ℚ) ^ e := by
      rw [ulp_eq, he', zpow_add₀ two_ne, zpow_natCast]
      push_cast; ring
    rw [e3] at h
    exact h
  · -- the value lies below the binade of `q`
    push_neg at hu
    have hmax : F.ulpExp q = ilog2 q - ((F.prec : Int) - 1) := by
      unfold FloatFormat.ulpExp at hu ⊢
      rcases max_cases (ilog2 q - ((F.prec : Int) - 1)) F.emin with ⟨h1, _⟩ | ⟨h1, _⟩
      · exact h1
      · rw [h1] at hu; omega
    obtain ⟨hlo, _⟩ := ilog2_spec q hq
    have hmq : |((m : ℚ))| < (2 : ℚ) ^ F.prec := by
      have : ((|m| : Int) : ℚ) < ((2 ^ F.prec : Int) : ℚ) := by exact_mod_cast hm
      simpa using this
    have hf : |(m : ℚ) * (2 : ℚ) ^ e| < (2 : ℚ) ^ ilog2 q := by
      rw [abs_mul, abs_of_pos (by positivity : (0 : ℚ) < (2 : ℚ) ^ e)]
      calc |(m : ℚ)| * (2 : ℚ) ^ e < (2 : ℚ) ^ F.prec * (2 : ℚ) ^ e :=
            mul_lt_mul_of_pos_right hmq (by positivity)
        _ = (2 : ℚ) ^ ((F.prec : Int) + e) := by
            rw [zpow_add₀ two_ne, zpow_natCast]
        _ ≤ (2 : ℚ) ^ ilog2 q := zpow_le_zpow_right₀ (by norm_num) (by omega)
    obtain ⟨p', hp'⟩ : ∃ p' : Nat, F.prec = p' + 1 := ⟨F.prec - 1, by omega⟩
    have hgrid : ((2 ^ p' : Int) : ℚ) * F.ulp q = (2 : ℚ) ^ ilog2 q := by
      rw [ulp_eq, hmax, hp']
      push_cast
      rw [← zpow_natCast, ← zpow_add₀ two_ne]
      congr 1; ring
    have hsub : |q| - |(m : ℚ) * (2 : ℚ) ^ e| ≤ |(m : ℚ) * (2 : ℚ) ^ e - q| := by
      rw [abs_sub_comm]; exact abs_sub_abs_le_abs_sub _ _
    rcases lt_or_gt_of_ne hq with hneg | hpos
    · have h := roundQ_nearest_grid F q (-(2 ^ p' : Int))
      have e3 : ((-(2 ^ p' : Int) : Int) : ℚ) * F.ulp q = -(2 : ℚ) ^ ilog2 q := by
        rw [← hgrid]; push_cast; ring
      rw [e3] at h
      rw [abs_of_neg hneg] at hlo hsub
      have h2 : |-(2 : ℚ) ^ ilog2 q - q| = -(2 : ℚ) ^ ilog2 q - q :=
        abs_of_nonneg (by linarith)
      rw [h2] at h
      linarith
    · have h := roundQ_nearest_grid F q (2 ^ p' : Int)
      rw [hgrid] at h
      rw [abs_of_pos hpos] at hlo hsub
      have h2 : |(2 : ℚ) ^ ilog2 q - q| = -((2 : ℚ) ^ ilog2 q - q) :=
        abs_of_nonpos (by linarith)
      rw [h2] at h
      linarith

/-- The rounded value belongs to the format. -/
theorem roundQ_inFormat (F : FloatFormat) (hp : 1 ≤ F.prec) (q : ℚ) :
    F.inFormat (F.roundQ q) := by
  by_cases hq : q = 0
  · subst hq
    exact ⟨0, F.emin, by positivity, le_rfl, by rw [roundQ_zero]; simp⟩
  have two_ne : (2 : ℚ) ≠ 0 := by norm_num
  obtain ⟨_, hhi⟩ := ilog2_spec q hq
  have hU := ulp_pos F q
  have hu1 : ilog2 q - ((F.prec : Int) - 1) ≤ F.ulpExp q := le_max_left _ _
  have hu2 : F.emin ≤ F.ulpExp q := le_max_right _ _
  -- the scaled value is below `2^prec` in magnitude
  have hs : |q / F.ulp q| < (2 : ℚ) ^ F.prec := by
    rw [abs_div, abs_of_pos hU, div_lt_iff₀ hU, ulp_eq]
    calc |q| < (2 : ℚ) ^ (ilog2 q + 1) := hhi
      _ ≤ (2 : ℚ) ^ ((F.prec : Int) + F.ulpExp q) := zpow_le_zpow_right₀ (by norm_num) (by omega)
      _ = (2 : ℚ) ^ F.prec * (2 : ℚ) ^ F.ulpExp q := by rw [zpow_add₀ two_ne, zpow_natCast]
  obtain ⟨hs1, hs2⟩ := abs_lt.mp hs
  have hR1 : rne (q / F.ulp q) ≤ (2 ^ F.prec : Int) :=
    rne_le_of_le _ _ (by push_cast; exact hs2.le)
  have hR2 : -(2 ^ F.prec : Int) ≤ rne (q / F.ulp q) :=
    le_rne_of_le _ _ (by push_cast; exact hs1.le)
  have h1lt : (1 : Int) < 2 ^ F.prec := by
    calc (1 : Int) < 2 ^ 1 := by norm_num
      _ ≤ 2 ^ F.prec := pow_le_pow_right₀ (by norm_num) hp
  by_cases hlt : |rne (q / F.ulp q)| < (2 ^ F.prec : Int)
  · exact ⟨rne (q / F.ulp q), F.ulpExp q, hlt, hu2, by unfold FloatFormat.roundQ; rw [ulp_eq]⟩
  · have hcase : rne (q / F.ulp q) = 2 ^ F.prec ∨ rne (q / F.ulp q) = -(2 ^ F.prec) := by
      rcases abs_cases (rne (q / F.ulp q)) with ⟨h1, _⟩ | ⟨h1, _⟩
      · left; rw [h1] at hlt; omega
      · right; rw [h1] at hlt; omega
    rcases hcase with h | h
    · refine ⟨1, F.ulpExp q + F.prec, by simpa using h1lt, by omega, ?_⟩
      unfold FloatFormat.roundQ
      rw [h, ulp_eq, zpow_add₀ two_ne, zpow_natCast]
      push_cast; ring
    · refine ⟨-1, F.ulpExp q + F.prec, by simpa using h1lt, by omega, ?_⟩
      unfold FloatFormat.roundQ
      rw [h, ulp_eq, zpow_add₀ two_ne, zpow_natCast]
      push_cast; ring

/-- A value of the format above `q` is also above the rounded `q`. -/
theorem roundQ_le_of_le (F : FloatFormat) (hp : 1 ≤ F.prec) (q f : ℚ) (hf : F.inFormat f)
    (h : q ≤ f) : F.roundQ q ≤ f := by
  by_contra hc
  push_neg at hc
  have hn := roundQ_nearest F hp q f hf
  rw [abs_of_nonneg (by linarith), abs_of_nonneg (by linarith)] at hn
  linarith

/-- A value of the format below `q` is also below the rounded `q`. -/
theorem le_roundQ_of_le (F : FloatFormat) (hp : 1 ≤ F.prec) (q f : ℚ) (hf : F.inFormat f)
    (h : f ≤ q) : f ≤ F.roundQ q := by
  by_contra hc
  push_neg at hc
  have hn := roundQ_nearest F hp q f hf
  rw [abs_of_nonpos (by linarith), abs_of_nonpos (by linarith)] at hn
  linarith

/-- Values of the format are left unchanged by rounding. -/
theorem roundQ_exact (F : FloatFormat) (hp : 1 ≤ F.prec) (q : ℚ) (hf : F.inFormat q) :
    F.roundQ q = q :=
  le_antisymm (roundQ_le_of_le F hp q q hf le_rfl) (le_roundQ_of_le F hp q q hf le_rfl)

/-- Rounding is monotone. -/
theorem roundQ_mono (F : FloatFormat) (hp : 1 ≤ F.prec) (q1 q2 : ℚ) (h : q1 ≤ q2) :
    F.roundQ q1 ≤ F.roundQ q2 := by
  by_contra hc
  push_neg at hc
  have f1 := roundQ_inFormat F hp q1
  have f2 := roundQ_inFormat F hp q2
  have a1 : F.roundQ q2 < q1 := by
    by_contra h'
    push_neg at h'
    exact absurd (roundQ_le_of_le F hp q1 _ f2 h') (not_le.mpr hc)
  have a2 : q2 < F.roundQ q1 := by
    by_contra h'
    push_neg at h'
    exact absurd (le_roundQ_of_le F hp q2 _ f1 h') (not_le.mpr hc)
  have n1 := roundQ_nearest F hp q1 _ f2
  have n2 := roundQ_nearest F hp q2 _ f1
  rw [abs_of_nonneg (by linarith), abs_of_nonpos (by linarith)] at n1
  rw [abs_of_nonpos (by linarith), abs_of_nonneg (by linarith)] at n2
  have heq : q1 = q2 := by linarith
  rw [heq] at hc
  exact lt_irrefl _ hc

/-- The binary logarithm ignores the sign. -/
theorem ilog2_neg (q : ℚ) : ilog2 (-q) = ilog2 q := by
  unfold ilog2
  simp [Rat.neg_num, Rat.neg_den]

/-- Rounding commutes with negation. -/
theorem roundQ_neg (F : FloatFormat) (q : ℚ) : F.roundQ (-q) = -F.roundQ q := by
  have hu : F.ulp (-q) = F.ulp q := by
    unfold FloatFormat.ulp FloatFormat.ulpExp
    rw [ilog2_neg]
  unfold FloatFormat.roundQ
  rw [hu, neg_div, rne_neg]
  push_cast; ring

/-! ### Floating point: binary64 -/

/-- Integers of at most 53 bits divided by a small power of two are binary64 values. -/
theorem inFormat_dyadic (z : Int) (k : Nat) (hz : |z| < 2 ^ 53) (hk : k ≤ 1074) :
    binary64.inFormat ((z : ℚ) / 2 ^ k) := by
  refine ⟨z, -(k : Int), hz, ?_, ?_⟩
  · show (-1074 : Int) ≤ -(k : Int)
    omega
  · rw [zpow_neg, zpow_natCast, div_eq_mul_inv]

/-- Integers of at most 53 bits are binary64 values. -/
theorem inFormat_int (z : Int) (hz : |z| < 2 ^ 53) : binary64.inFormat (z : ℚ) := by
  have h := inFormat_dyadic z 0 hz (by norm_num)
  simpa using h

/-- The overflow threshold of binary64 exceeds `2^64`. -/
theorem pow2_emax_gt : (2 : ℚ) ^ 64 < pow2 binary64.emax := by
  rw [pow2_eq]
  show (2 : ℚ) ^ 64 < (2 : ℚ) ^ (1024 : Int)
  rw [← zpow_natCast]
  exact zpow_lt_zpow_right₀ (by norm_num) (by norm_num)

/-- Rounding a value of bounded magnitude gives a finite `double`. -/
theorem round_fin (q : ℚ) (hq : |q| ≤ 2 ^ 64) :
    binary64.round q = .fin (binary64.roundQ q) := by
  have hB : binary64.inFormat ((2 : ℚ) ^ 64) := by
    refine ⟨1, 64, by show |(1 : Int)| < 2 ^ 53; norm_num,
      by show (-1074 : Int) ≤ 64; norm_num, ?_⟩
    norm_num
  have hB' : binary64.inFormat (-(2 : ℚ) ^ 64) := by
    refine ⟨-1, 64, by show |(-1 : Int)| < 2 ^ 53; norm_num,
      by show (-1074 : Int) ≤ 64; norm_num, ?_⟩
    norm_num
  obtain ⟨h1, h2⟩ := abs_le.mp hq
  have u := roundQ_le_of_le binary64 (by decide) q _ hB h2
  have l := le_roundQ_of_le binary64 (by decide) q _ hB' h1
  have : |binary64.roundQ q| ≤ 2 ^ 64 := abs_le.mpr ⟨l, u⟩
  unfold FloatFormat.round
  rw [if_neg]
  exact not_le.mpr (lt_of_le_of_lt this pow2_emax_gt)

/-- Rounding a binary64 value of bounded magnitude returns it unchanged. -/
theorem round_exact (q : ℚ) (hf : binary64.inFormat q) (hq : |q| ≤ 2 ^ 64) :
    binary64.round q = .fin q := by
  rw [round_fin q hq, roundQ_exact binary64 (by decide) q hf]

/-- Conversion of a 17-bit integer to `double` is exact. -/
theorem ofInt_exact (z : Int) (hz : |z| ≤ 65536) : Double.ofInt z = .fin (z : ℚ) := by
  unfold Double.ofInt
  have hz' : |(z : ℚ)| ≤ 65536 := by exact_mod_cast hz
  exact round_exact _ (inFormat_int z (by omega)) (by linarith [hz'])

/-- The product of a 17-bit integer and `1.25` is exact. -/
theorem mul_five_quarters_exact (z : Int) (hz : |z| ≤ 65536) :
    Double.mul (.fin (z : ℚ)) (.fin (5 / 4)) = .fin ((z : ℚ) * (5 / 4)) := by
  have hz' : |(z : ℚ)| ≤ 65536 := by exact_mod_cast hz
  have e : (z : ℚ) * (5 / 4) = ((5 * z : Int) : ℚ) / 2 ^ 2 := by push_cast; ring
  show binary64.round ((z : ℚ) * (5 / 4)) = _
  apply round_exact
  · rw [e]
    exact inFormat_dyadic (5 * z) 2 (by rw [abs_mul]; norm_num; omega) (by norm_num)
  · rw [abs_mul]
    have : |(5 / 4 : ℚ)| = 5 / 4 := abs_of_pos (by norm_num)
    rw [this]; linarith

/-- The product of a 17-bit integer and `10.0` is exact. -/
theorem mul_ten_exact (z : Int) (hz : |z| ≤ 65536) :
    Double.mul (.fin (z : ℚ)) (.fin 10) = .fin ((z : ℚ) * 10) := by
  have hz' : |(z : ℚ)| ≤ 65536 := by exact_mod_cast hz
  have e : (z : ℚ) * 10 = ((10 * z : Int) : ℚ) := by push_cast; ring
  show binary64.round ((z : ℚ) * 10) = _
  apply round_exact
  · rw [e]
    exact inFormat_int (10 * z) (by rw [abs_mul]; norm_num; omega)
  · rw [abs_mul]
    have : |(10 : ℚ)| = 10 := abs_of_pos (by norm_num)
    rw [this]; linarith

/-- Division of a finite `double` of bounded magnitude by a finite non-zero `double`. -/
theorem div_fin (a b : ℚ) (hb : b ≠ 0) (h : |a / b| ≤ 2 ^ 64) :
    Double.div (.fin a) (.fin b) = .fin (binary64.roundQ (a / b)) := by
  show (if b = 0 then _ else binary64.round (a / b)) = _
  rw [if_neg hb, round_fin _ h]

/-- The raw-to-amps conversion as a single rounding of the exact scaling. -/
theorem rawToAmps_eq (r : Int) (hr : |r| ≤ 65536) :
    rawToAmps r = .fin (binary64.roundQ ((r : ℚ) * (5 / 4) / 1000)) := by
  have hr' : |(r : ℚ)| ≤ 65536 := by exact_mod_cast hr
  unfold rawToAmps
  rw [ofInt_exact r hr, mul_five_quarters_exact r hr]
  apply div_fin _ _ (by norm_num)
  rw [abs_div, abs_mul]
  have e1 : |(5 / 4 : ℚ)| = 5 / 4 := abs_of_pos (by norm_num)
  have e2 : |(1000 : ℚ)| = 1000 := abs_of_pos (by norm_num)
  rw [e1, e2, div_le_iff₀ (by norm_num)]
  linarith

/-- The raw-to-volts conversion as a single rounding of the exact scaling. -/
theorem rawToVolts_eq (r : Nat) (hr : r ≤ 65536) :
    rawToVolts r = .fin (binary64.roundQ ((r : ℚ) * (5 / 4) / 1000)) := by
  have h := rawToAmps_eq (r : Int) (by rw [abs_of_nonneg (by positivity)]; exact_mod_cast hr)
  simpa [rawToAmps, rawToVolts] using h

/-- The raw-to-watts conversion as a single rounding of the exact scaling. -/
theorem rawToWatts_eq (r : Nat) (hr : r ≤ 65536) :
    rawToWatts r = .fin (binary64.roundQ ((r : ℚ) * 10 / 1000)) := by
  have hz : |(r : Int)| ≤ 65536 := by rw [abs_of_nonneg (by positivity)]; exact_mod_cast hr
  have hr' : (r : ℚ) ≤ 65536 := by exact_mod_cast hr
  have hr0 : (0 : ℚ) ≤ r := by positivity
  unfold rawToWatts
  rw [ofInt_exact (r : Int) hz, mul_ten_exact (r : Int) hz]
  have := div_fin (((r : Int) : ℚ) * 10) 1000 (by norm_num) (by
    rw [abs_div, abs_mul]
    have e1 : |(10 : ℚ)| = 10 := abs_of_pos (by norm_num)
    have e2 : |(1000 : ℚ)| = 1000 := abs_of_pos (by norm_num)
    have e3 : |(((r : Int) : ℚ))| = r := by simp
    rw [e1, e2, e3, div_le_iff₀ (by norm_num)]
    linarith)
  simpa using this

/-! ### Unit conversions -/

/-- Truncation moves toward zero by less than one. -/
theorem truncate_spec (y : ℚ) :
    (0 ≤ y → (truncate y : ℚ) ≤ y ∧ y < (truncate y : ℚ) + 1) ∧
    (y ≤ 0 → y ≤ (truncate y : ℚ) ∧ (truncate y : ℚ) - 1 < y) := by
  constructor
  · intro h
    unfold truncate
    rw [if_pos h]
    exact ⟨Int.floor_le y, Int.lt_floor_add_one y⟩
  · intro h
    unfold truncate
    split_ifs with h0
    · have : y = 0 := le_antisymm h h0
      subst this
      simp
    · have h1 := Int.floor_le (-y)
      have h2 := Int.lt_floor_add_one (-y)
      push_cast
      constructor <;> linarith

/-- The amps conversion is defined exactly when the truncated quotient fits `int16_t`. -/
theorem ampsToRaw_iff (x : Double) (n : Int) :
    ampsToRaw x = some n ↔
      ∃ y : ℚ, Double.div (Double.mul x (.fin 1000)) (.fin (5 / 4)) = .fin y ∧
        n = truncate y ∧ -32768 ≤ n ∧ n ≤ 32767 := by
  unfold ampsToRaw
  cases h : Double.div (Double.mul x (.fin 1000)) (.fin (5 / 4)) with
  | fin y =>
    simp only [Double.toInt16, Double.fin.injEq, exists_eq_left']
    split_ifs with hr
    · constructor
      · intro hn
        have : truncate y = n := by simpa using hn
        subst this
        exact ⟨rfl, hr.1, hr.2⟩
      · rintro ⟨rfl, _, _⟩
        rfl
    · constructor
      · intro hn; simp at hn
      · rintro ⟨rfl, h1, h2⟩
        exact absurd ⟨h1, h2⟩ hr
  | inf s => simp [Double.toInt16]
  | nan => simp [Double.toInt16]

/-- The volts conversion is defined exactly when the truncated quotient fits `uint16_t`. -/
theorem voltsToRaw_iff (x : Double) (n : Nat) :
    voltsToRaw x = some n ↔
      ∃ y : ℚ, Double.div (Double.mul x (.fin 1000)) (.fin (5 / 4)) = .fin y ∧
        (n : Int) = truncate y ∧ n ≤ 65535 := by
  unfold voltsToRaw
  cases h : Double.div (Double.mul x (.fin 1000)) (.fin (5 / 4)) with
  | fin y =>
    simp only [Double.toUInt16, Double.fin.injEq, exists_eq_left']
    split_ifs with hr
    · constructor
      · intro hn
        have : (truncate y).toNat = n := by simpa using hn
        omega
      · rintro ⟨h1, _⟩
        congr 1
        omega
    · constructor
      · intro hn; simp at hn
      · rintro ⟨h1, h2⟩
        exact absurd ⟨by omega, by omega⟩ hr
  | inf s => simp [Double.toUInt16]
  | nan => simp [Double.toUInt16]

/-- The watts conversion is defined exactly when the truncated quotient fits `uint16_t`. -/
theorem wattsToRaw_iff (x : Double) (n : Nat) :
    wattsToRaw x = some n ↔
      ∃ y : ℚ, Double.div (Double.mul x (.fin 1000)) (.fin 10) = .fin y ∧
        (n : Int) = truncate y ∧ n ≤ 65535 := by
  unfold wattsToRaw
  cases h : Double.div (Double.mul x (.fin 1000)) (.fin 10) with
  | fin y =>
    simp only [Double.toUInt16, Double.fin.injEq, exists_eq_left']
    split_ifs with hr
    · constructor
      · intro hn
        have : (truncate y).toNat = n := by simpa using hn
        omega
      · rintro ⟨h1, _⟩
        congr 1
        omega
    · constructor
      · intro hn; simp at hn
      · rintro ⟨h1, h2⟩
        exact absurd ⟨by omega, by omega⟩ hr
  | inf s => simp [Double.toUInt16]
  | nan => simp [Double.toUInt16]

/-! ### Unit-converted reads -/

/-- The two's-complement reinterpretation of a 16-bit word. -/
theorem toInt16_eq (w : Nat) (hw : w < 65536) :
    toInt16 w = if w < 0x8000 then (w : Int) else (w : Int) - 65536 := by
  unfold toInt16
  rw [Nat.mod_eq_of_lt hw]

/-- A 16-bit word reinterpreted as `int16_t` is within the `int16_t` range. -/
theorem toInt16_range (w : Nat) : -32768 ≤ toInt16 w ∧ toInt16 w ≤ 32767 := by
  unfold toInt16
  split_ifs <;> omega

/-- Two bytes combine to a 16-bit word. -/
theorem word_lt (b0 b1 : Nat) (h0 : b0 < 256) (h1 : b1 < 256) : (b0 <<< 8) ||| b1 < 65536 := by
  have hs : b0 <<< 8 < 2 ^ 16 := by
    rw [Nat.shiftLeft_eq]; omega
  exact Nat.or_lt_two_pow hs (by omega)

/-! ### Floating point: the grid of a binade -/

/-- Splitting a power of two. -/
theorem two_zpow_split (e : Int) (k : Nat) :
    (2 : ℚ) ^ e = (2 : ℚ) ^ k * (2 : ℚ) ^ (e - k) := by
  rw [← zpow_natCast, ← zpow_add₀ (by norm_num : (2 : ℚ) ≠ 0)]
  congr 1; ring

/-- The binary logarithm is determined by the binade. -/
theorem ilog2_unique (q : ℚ) (e : Int) (h1 : (2 : ℚ) ^ e ≤ |q|) (h2 : |q| < (2 : ℚ) ^ (e + 1)) :
    ilog2 q = e := by
  have hq : q ≠ 0 := by
    intro h
    rw [h, abs_zero] at h1
    exact absurd h1 (not_le.mpr (by positivity))
  obtain ⟨s1, s2⟩ := ilog2_spec q hq
  have a1 : e < ilog2 q + 1 :=
    (zpow_lt_zpow_iff_right₀ (by norm_num : (1 : ℚ) < 2)).mp (lt_of_le_of_lt h1 s2)
  have a2 : ilog2 q < e + 1 :=
    (zpow_lt_zpow_iff_right₀ (by norm_num : (1 : ℚ) < 2)).mp (lt_of_le_of_lt s1 h2)
  omega

/-- Within a normal binade, rounding is rounding to a multiple of `2^(e - 52)`. -/
theorem roundQ_eq_of_binade (q : ℚ) (e : Int) (he : -1022 ≤ e)
    (h1 : (2 : ℚ) ^ e ≤ |q|) (h2 : |q| < (2 : ℚ) ^ (e + 1)) :
    binary64.roundQ q = (rne (q / (2 : ℚ) ^ (e - 52)) : ℚ) * (2 : ℚ) ^ (e - 52) := by
  have hu : binary64.ulp q = (2 : ℚ) ^ (e - 52) := by
    rw [ulp_eq]
    unfold FloatFormat.ulpExp
    rw [ilog2_unique q e h1 h2]
    show (2 : ℚ) ^ (max (e - (((53 : Nat) : Int) - 1)) (-1074)) = _
    congr 1
    rw [max_eq_left (by push_cast; omega)]
    push_cast; ring
  unfold FloatFormat.roundQ
  rw [hu]

/-- A binary64 value of magnitude at least `2^e` is a multiple of `2^(e - 52)`. -/
theorem inFormat_grid (x : ℚ) (e : Int) (hx : binary64.inFormat x) (h : (2 : ℚ) ^ e ≤ |x|) :
    ∃ K : Int, x = (K : ℚ) * (2 : ℚ) ^ (e - 52) := by
  obtain ⟨m, e', hm, _, rfl⟩ := hx
  have two_ne : (2 : ℚ) ≠ 0 := by norm_num
  have hmq : |((m : ℚ))| < (2 : ℚ) ^ (53 : Nat) := by
    have h' : ((|m| : Int) : ℚ) < ((2 ^ 53 : Int) : ℚ) := by exact_mod_cast hm
    rw [Int.cast_abs] at h'
    simpa only [Int.cast_pow, Int.cast_ofNat] using h'
  have hlt : (2 : ℚ) ^ e < (2 : ℚ) ^ (53 + e') := by
    calc (2 : ℚ) ^ e ≤ |(m : ℚ) * (2 : ℚ) ^ e'| := h
      _ = |(m : ℚ)| * (2 : ℚ) ^ e' := by
          rw [abs_mul, abs_of_pos (by positivity : (0 : ℚ) < (2 : ℚ) ^ e')]
      _ < (2 : ℚ) ^ (53 : Nat) * (2 : ℚ) ^ e' := mul_lt_mul_of_pos_right hmq (by positivity)
      _ = (2 : ℚ) ^ (53 + e') := by
          rw [two_zpow_split (53 + e') 53]
          congr 2; push_cast; ring
  have hee : e < 53 + e' := (zpow_lt_zpow_iff_right₀ (by norm_num : (1 : ℚ) < 2)).mp hlt
  obtain ⟨j, hj⟩ := Int.eq_ofNat_of_zero_le (by omega : 0 ≤ e' - (e - 52))
  refine ⟨m * 2 ^ j, ?_⟩
  have : e' = (e - 52) + (j : Int) := by omega
  rw [this, zpow_add₀ two_ne, zpow_natCast]
  push_cast; ring

/-- Rounding a positive value of a binade stays within `2^(e - 53)` of it and above `2^e`. -/
theorem roundQ_binade_bounds (z : ℚ) (e : Int) (he : -1022 ≤ e)
    (h1 : (2 : ℚ) ^ e ≤ z) (h2 : z < (2 : ℚ) ^ (e + 1)) :
    (∃ R : Int, binary64.roundQ z = (R : ℚ) * (2 : ℚ) ^ (e - 52)) ∧
    z - (2 : ℚ) ^ (e - 52) / 2 ≤ binary64.roundQ z ∧
    binary64.roundQ z ≤ z + (2 : ℚ) ^ (e - 52) / 2 ∧
    (2 : ℚ) ^ e ≤ binary64.roundQ z := by
  have hzpos : 0 < z := lt_of_lt_of_le (by positivity) h1
  have habs : |z| = z := abs_of_pos hzpos
  have hU : (0 : ℚ) < (2 : ℚ) ^ (e - 52) := by positivity
  have hr := roundQ_eq_of_binade z e he (by rw [habs]; exact h1) (by rw [habs]; exact h2)
  have hf1 := Int.floor_le (z / (2 : ℚ) ^ (e - 52))
  have hf2 := Int.lt_floor_add_one (z / (2 : ℚ) ^ (e - 52))
  have hhalf : |(rne (z / (2 : ℚ) ^ (e - 52)) : ℚ) - z / (2 : ℚ) ^ (e - 52)| ≤ 1 / 2 := by
    rcases rne_cases (z / (2 : ℚ) ^ (e - 52)) with ⟨e1, h⟩ | ⟨e1, h⟩
    · rw [e1, abs_le]
      constructor <;> linarith
    · rw [e1, abs_le]
      push_cast
      constructor <;> linarith
  obtain ⟨hh1, hh2⟩ := abs_le.mp hhalf
  have hzU : z = z / (2 : ℚ) ^ (e - 52) * (2 : ℚ) ^ (e - 52) := by field_simp
  refine ⟨⟨_, hr⟩, ?_, ?_, ?_⟩
  · rw [hr]
    nlinarith
  · rw [hr]
    nlinarith
  · have h2e : (2 : ℚ) ^ e = ((2 ^ 52 : Int) : ℚ) * (2 : ℚ) ^ (e - 52) := by
      rw [two_zpow_split e 52]
      simp only [Int.cast_pow, Int.cast_ofNat, Nat.cast_ofNat]
    have h52 : ((2 ^ 52 : Int) : ℚ) ≤ z / (2 : ℚ) ^ (e - 52) := by
      rw [le_div_iff₀ hU, ← h2e]; exact h1
    have hR := le_rne_of_le _ _ h52
    have hRq : ((2 ^ 52 : Int) : ℚ) ≤ (rne (z / (2 : ℚ) ^ (e - 52)) : ℚ) := by exact_mod_cast hR
    rw [hr, h2e]
    exact mul_le_mul_of_nonneg_right hRq hU.le

/-! ### Round trip: the upper side -/

/-- Core of the upper bound.  Let `z` lie in the binade `e` and `c = 1000 * (z + L)` be a
`double` on the grid `2^(j - 52)` with no `double` strictly between `c - 2^(j - 52)` and `c`.
If every multiple of `2^(e - 52)` that is at least `L` exceeds `L` by enough, then every
`double` `x` at least `L` above the rounded `z` has `1000 * x` rounded to `c` or more. -/
theorem upper_core (e j : Int) (z L c x : ℚ) (he : -1022 ≤ e)
    (hz1 : (2 : ℚ) ^ e ≤ z) (hz2 : z < (2 : ℚ) ^ (e + 1)) (hL : 0 ≤ L)
    (hc : c = 1000 * (z + L)) (hcf : binary64.inFormat c)
    (hcg : ∃ C : Int, c = (C : ℚ) * (2 : ℚ) ^ (j - 52))
    (hcj : (2 : ℚ) ^ j ≤ c - (2 : ℚ) ^ (j - 52))
    (hgrid : ∀ D : Int, L ≤ (D : ℚ) * (2 : ℚ) ^ (e - 52) →
      L + (2 : ℚ) ^ (e - 52) / 2 < (D : ℚ) * (2 : ℚ) ^ (e - 52) + (2 : ℚ) ^ (j - 52) / 2000)
    (hx : binary64.inFormat x) (hxl : binary64.roundQ z + L ≤ x) :
    c ≤ binary64.roundQ (1000 * x) := by
  have hp : 1 ≤ binary64.prec := by decide
  obtain ⟨⟨R, hR⟩, hlo, _, hVe⟩ := roundQ_binade_bounds z e he hz1 hz2
  have hU : (0 : ℚ) < (2 : ℚ) ^ (e - 52) := by positivity
  have hg : (0 : ℚ) < (2 : ℚ) ^ (j - 52) := by positivity
  have hxe : (2 : ℚ) ^ e ≤ |x| := by
    rw [abs_of_nonneg (by linarith [(by positivity : (0 : ℚ) < (2 : ℚ) ^ e)])]
    linarith
  obtain ⟨K, hK⟩ := inFormat_grid x e hx hxe
  -- the distance between `x` and the rounded `z` is a multiple of the grid
  have hD : L ≤ ((K - R : Int) : ℚ) * (2 : ℚ) ^ (e - 52) := by
    push_cast
    rw [sub_mul, ← hK, ← hR]
    linarith
  have hgr := hgrid (K - R) hD
  have hxx : x = binary64.roundQ z + ((K - R : Int) : ℚ) * (2 : ℚ) ^ (e - 52) := by
    push_cast
    rw [sub_mul, ← hK, ← hR]
    ring
  have hw : c - (2 : ℚ) ^ (j - 52) / 2 < 1000 * x := by
    rw [hc, hxx]
    linarith
  by_cases hcw : c ≤ 1000 * x
  · exact le_roundQ_of_le binary64 hp _ c hcf hcw
  · push_neg at hcw
    have hn := roundQ_nearest binary64 hp (1000 * x) c hcf
    rw [abs_of_pos (by linarith : 0 < c - 1000 * x)] at hn
    obtain ⟨hn1, _⟩ := abs_le.mp hn
    have ha : c - (2 : ℚ) ^ (j - 52) < binary64.roundQ (1000 * x) := by linarith
    have haj : (2 : ℚ) ^ j ≤ |binary64.roundQ (1000 * x)| := by
      rw [abs_of_nonneg (by linarith [(by positivity : (0 : ℚ) < (2 : ℚ) ^ j)])]
      linarith
    obtain ⟨K', hK'⟩ := inFormat_grid _ j (roundQ_inFormat binary64 hp _) haj
    obtain ⟨C, hC⟩ := hcg
    rw [hK', hC] at ha ⊢
    have hlt : ((C - 1 : Int) : ℚ) < (K' : ℚ) := by
      push_cast
      have : ((C : ℚ) - 1) * (2 : ℚ) ^ (j - 52) < (K' : ℚ) * (2 : ℚ) ^ (j - 52) := by
        linarith
      exact lt_of_mul_lt_mul_right this hg.le
    have hle : C ≤ K' := by
      have : C - 1 < K' := by exact_mod_cast hlt
      omega
    exact mul_le_mul_of_nonneg_right (by exact_mod_cast hle) hg.le

/-- A positive rational lies in the binade given by its binary logarithm. -/
theorem binade_of_pos (z : ℚ) (hz : 0 < z) :
    (2 : ℚ) ^ ilog2 z ≤ z ∧ z < (2 : ℚ) ^ (ilog2 z + 1) := by
  have h := ilog2_spec z hz.ne'
  rwa [abs_of_pos hz] at h

/-- The grid condition of `upper_core` from an integer inequality: `T = 2^(52 - e)` is the
number of grid steps per unit, `s` the number of LSBs per unit and `jd = j - e`. -/
theorem hgrid_of_int (e : Int) (T s : Int) (jd : Nat) (hs : 0 < s)
    (hT : (T : ℚ) * (2 : ℚ) ^ (e - 52) = 1)
    (hint : ∀ D : Int, T ≤ s * D → 1000 * s + 2000 * T < 2000 * s * D + s * 2 ^ jd) :
    ∀ D : Int, (1 / (s : ℚ)) ≤ (D : ℚ) * (2 : ℚ) ^ (e - 52) →
      1 / (s : ℚ) + (2 : ℚ) ^ (e - 52) / 2 <
        (D : ℚ) * (2 : ℚ) ^ (e - 52) + (2 : ℚ) ^ (e + jd - 52) / 2000 := by
  intro D hD
  have hU : (0 : ℚ) < (2 : ℚ) ^ (e - 52) := by positivity
  have hsq : (0 : ℚ) < (s : ℚ) := by exact_mod_cast hs
  have hTpos : (0 : ℚ) < (T : ℚ) := by
    by_contra h
    push_neg at h
    have : (T : ℚ) * (2 : ℚ) ^ (e - 52) ≤ 0 := mul_nonpos_of_nonpos_of_nonneg h hU.le
    linarith
  have hUT : (2 : ℚ) ^ (e - 52) = 1 / (T : ℚ) := by
    field_simp; linarith
  have hg : (2 : ℚ) ^ (e + jd - 52) = (2 : ℚ) ^ jd / (T : ℚ) := by
    have : e + (jd : Int) - 52 = (e - 52) + (jd : Int) := by ring
    rw [this, zpow_add₀ (by norm_num : (2 : ℚ) ≠ 0), zpow_natCast, hUT]
    ring
  rw [hUT] at hD
  rw [hg, hUT]
  have h1 : (T : ℚ) ≤ (s : ℚ) * (D : ℚ) := by
    rw [div_le_iff₀ hsq, mul_one_div, div_mul_eq_mul_div, le_div_iff₀ hTpos] at hD
    linarith
  have h2 := hint D (by exact_mod_cast h1)
  have h3 : (1000 : ℚ) * s + 2000 * T < 2000 * s * D + s * 2 ^ jd := by exact_mod_cast h2
  rw [← sub_pos]
  have e1 : (D : ℚ) * (1 / (T : ℚ)) + (2 : ℚ) ^ jd / (T : ℚ) / 2000 -
      (1 / (s : ℚ) + 1 / (T : ℚ) / 2) =
      (2000 * s * D + s * 2 ^ jd - (1000 * s + 2000 * T)) / (2000 * s * T) := by
    field_simp
    ring
  rw [e1]
  apply div_pos
  · linarith
  · positivity

/-- The upper bound within one binade `e`, for `s` LSBs per unit, with the grid of the
threshold `c` taken `jd` binades above `e`. -/
theorem upper_binade (s m e : Int) (jd : Nat) (z c x : ℚ)
    (hs : 0 < s) (he1 : -1022 ≤ e) (he2 : e + jd ≤ 50)
    (hz1 : (2 : ℚ) ^ e ≤ z) (hz2 : z < (2 : ℚ) ^ (e + 1))
    (hc : c = 1000 * (z + 1 / (s : ℚ))) (hm : |m| < 2 ^ 53) (hc4 : c = (m : ℚ) / 4)
    (hcj : (2 : ℚ) ^ (e + jd) ≤ c - (2 : ℚ) ^ (e + jd - 52))
    (hint : ∀ D : Int, (2 : Int) ^ (52 - e).toNat ≤ s * D →
      1000 * s + 2000 * (2 : Int) ^ (52 - e).toNat < 2000 * s * D + s * 2 ^ jd)
    (hx : binary64.inFormat x) (hxl : binary64.roundQ z + 1 / (s : ℚ) ≤ x) :
    c ≤ binary64.roundQ (1000 * x) := by
  have two_ne : (2 : ℚ) ≠ 0 := by norm_num
  have hsq : (0 : ℚ) < (s : ℚ) := by exact_mod_cast hs
  have hcf : binary64.inFormat c := by
    rw [hc4]
    have := inFormat_dyadic m 2 hm (by norm_num)
    norm_num at this ⊢
    exact this
  have hcg : ∃ C : Int, c = (C : ℚ) * (2 : ℚ) ^ (e + jd - 52) := by
    obtain ⟨k, hk⟩ := Int.eq_ofNat_of_zero_le (by omega : 0 ≤ -2 - (e + jd - 52))
    refine ⟨m * 2 ^ k, ?_⟩
    have e1 : (-2 : Int) = (e + jd - 52) + (k : Int) := by omega
    have e2 : (4 : ℚ) = ((2 : ℚ) ^ (-2 : Int))⁻¹ := by norm_num
    rw [hc4, div_eq_mul_inv, e2, inv_inv, e1, zpow_add₀ two_ne, zpow_natCast]
    push_cast; ring
  have hT : (((2 : Int) ^ (52 - e).toNat : Int) : ℚ) * (2 : ℚ) ^ (e - 52) = 1 := by
    obtain ⟨k, hk⟩ := Int.eq_ofNat_of_zero_le (by omega : 0 ≤ 52 - e)
    rw [hk]
    have e1 : e - 52 = -(k : Int) := by omega
    rw [e1]
    simp only [Int.toNat_ofNat, Int.cast_pow, Int.cast_ofNat, zpow_neg, zpow_natCast]
    field_simp
  exact upper_core e (e + jd) z (1 / (s : ℚ)) c x he1 hz1 hz2 (by positivity) hc hcf hcg hcj
    (hgrid_of_int e _ s jd hs hT hint) hx hxl

/-- With the threshold grid nine binades up there is no `double` strictly between
`c - 2^(e + 9 - 52)` and `c`. -/
theorem grid_nine (e : Int) (z c L : ℚ) (he : e ≤ 43) (hz1 : (2 : ℚ) ^ e ≤ z)
    (hL : 1 / 1000 ≤ L) (hc : c = 1000 * (z + L)) :
    (2 : ℚ) ^ (e + (9 : Nat)) ≤ c - (2 : ℚ) ^ (e + (9 : Nat) - 52) := by
  have h1 : (2 : ℚ) ^ (e + (9 : Nat)) = (2 : ℚ) ^ e * 512 := by
    rw [zpow_add₀ (by norm_num : (2 : ℚ) ≠ 0)]; norm_num
  have h2 : (2 : ℚ) ^ (e + (9 : Nat) - 52) ≤ 1 :=
    zpow_le_one_of_nonpos₀ (by norm_num) (by push_cast; omega)
  have h3 : (0 : ℚ) < (2 : ℚ) ^ e := by positivity
  rw [h1, hc]
  linarith

/-- The upper bound when the raw value converts without rounding down. -/
theorem upper_exact_case (z L c x : ℚ) (hc : c = 1000 * (z + L)) (hcf : binary64.inFormat c)
    (hV : z ≤ binary64.roundQ z) (hxl : binary64.roundQ z + L ≤ x) :
    c ≤ binary64.roundQ (1000 * x) :=
  le_roundQ_of_le binary64 (by decide) _ c hcf (by rw [hc]; linarith)

/-- The binade of `n / s` for a positive 16-bit `n`. -/
theorem binade_bounds (z : ℚ) (lo hi : Int) (hz : 0 < z) (h1 : (2 : ℚ) ^ lo ≤ z)
    (h2 : z < (2 : ℚ) ^ (hi + 1)) : lo ≤ ilog2 z ∧ ilog2 z ≤ hi := by
  obtain ⟨b1, b2⟩ := binade_of_pos z hz
  have a1 : lo < ilog2 z + 1 :=
    (zpow_lt_zpow_iff_right₀ (by norm_num : (1 : ℚ) < 2)).mp (lt_of_le_of_lt h1 b2)
  have a2 : ilog2 z < hi + 1 :=
    (zpow_lt_zpow_iff_right₀ (by norm_num : (1 : ℚ) < 2)).mp (lt_of_le_of_lt b1 h2)
  omega

set_option maxHeartbeats 1000000 in
/-- Upper side for volts and amps: a `double` that is at least one LSB above the converted
raw value `n` has `x * 1000.0` rounded to at least `1.25 * (n + 1)`. -/
theorem volts_upper (n : Nat) (hn1 : 1 ≤ n) (hn : n < 65536) (x : ℚ)
    (hx : binary64.inFormat x) (hxl : binary64.roundQ ((n : ℚ) / 800) + 1 / 800 ≤ x) :
    5 * ((n : ℚ) + 1) / 4 ≤ binary64.roundQ (1000 * x) := by
  have hnq1 : (1 : ℚ) ≤ n := by exact_mod_cast hn1
  have hnq2 : (n : ℚ) ≤ 65535 := by exact_mod_cast (by omega : n ≤ 65535)
  have hzpos : (0 : ℚ) < (n : ℚ) / 800 := by positivity
  obtain ⟨hz1, hz2⟩ := binade_of_pos _ hzpos
  obtain ⟨he1, he2⟩ := binade_bounds ((n : ℚ) / 800) (-10) 6 hzpos
    (by rw [le_div_iff₀ (by norm_num)]; norm_num; linarith)
    (by rw [div_lt_iff₀ (by norm_num)]; norm_num; linarith)
  have hc : 5 * ((n : ℚ) + 1) / 4 = 1000 * ((n : ℚ) / 800 + 1 / ((800 : Int) : ℚ)) := by
    push_cast; ring
  have hc4 : 5 * ((n : ℚ) + 1) / 4 = ((5 * ((n : Int) + 1) : Int) : ℚ) / 4 := by
    push_cast; ring
  have hm : |(5 * ((n : Int) + 1) : Int)| < 2 ^ 53 := by
    rw [abs_of_nonneg (by positivity)]; omega
  have hcf : binary64.inFormat (5 * ((n : ℚ) + 1) / 4) := by
    rw [hc4]
    have := inFormat_dyadic _ 2 hm (by norm_num)
    norm_num at this ⊢
    exact this
  have hxl' : binary64.roundQ ((n : ℚ) / 800) + 1 / ((800 : Int) : ℚ) ≤ x := by
    push_cast; exact hxl
  generalize ilog2 ((n : ℚ) / 800) = e at hz1 hz2 he1 he2
  have good : (∀ D : Int, (2 : Int) ^ (52 - e).toNat ≤ 800 * D →
      1000 * 800 + 2000 * (2 : Int) ^ (52 - e).toNat < 2000 * 800 * D + 800 * 2 ^ 9) →
      5 * ((n : ℚ) + 1) / 4 ≤ binary64.roundQ (1000 * x) := fun hint =>
    upper_binade 800 _ e 9 _ _ x (by norm_num) (by omega) (by push_cast; omega) hz1 hz2 hc hm hc4
      (grid_nine e _ _ _ (by omega) hz1 (by norm_num) hc) hint hx hxl'
  have big : (2 : ℚ) ^ (e + (10 : Nat)) ≤
      5 * ((n : ℚ) + 1) / 4 - (2 : ℚ) ^ (e + (10 : Nat) - 52) →
      5 * ((n : ℚ) + 1) / 4 ≤ binary64.roundQ (1000 * x) := fun hcj =>
    upper_binade 800 _ e 10 _ _ x (by norm_num) (by omega) (by push_cast; omega) hz1 hz2 hc hm hc4
      hcj (by intro D h; linarith) hx hxl'
  have special : (n : ℚ) / 800 ≤ binary64.roundQ ((n : ℚ) / 800) →
      5 * ((n : ℚ) + 1) / 4 ≤ binary64.roundQ (1000 * x) := fun hV =>
    upper_exact_case _ (1 / 800) _ x (by ring) hcf hV hxl
  interval_cases e
  -- binade -10: only `n = 1`
  · norm_num at hz1 hz2 big
    apply big
    linarith
  all_goals first
    | exact good (by
        intro D h
        simp only [Int.reduceSub, Int.reduceNeg, Int.reduceToNat, Int.sub_neg,
          Int.reduceAdd] at h ⊢
        omega)
    | skip
  -- binade -5: `25 ≤ n < 50`
  · norm_num at hz1 hz2 big
    apply big
    linarith
  -- binade -4: `50 ≤ n < 100`
  · norm_num at hz1 hz2 big
    by_cases h50 : n = 50
    · subst h50
      exact special (by decide!)
    · have h1 : (50 : ℚ) ≤ n := by linarith
      have h2 : 50 ≤ n := by exact_mod_cast h1
      have h3 : (51 : ℚ) ≤ n := by exact_mod_cast (by omega : 51 ≤ n)
      apply big
      linarith
  -- binade -3: `100 ≤ n < 200`
  · norm_num at hz1 hz2 big
    have h1 : (100 : ℚ) ≤ n := by linarith
    have h2 : 100 ≤ n := by exact_mod_cast h1
    by_cases h100 : n = 100
    · subst h100
      exact special (by decide!)
    by_cases h101 : n = 101
    · subst h101
      exact special (by decide!)
    · have h3 : (102 : ℚ) ≤ n := by exact_mod_cast (by omega : 102 ≤ n)
      apply big
      linarith

set_option maxHeartbeats 1000000 in
/-- Upper side for watts: a `double` that is at least one LSB above the converted raw value
`n` has `x * 1000.0` rounded to at least `10 * (n + 1)`. -/
theorem watts_upper (n : Nat) (hn1 : 1 ≤ n) (hn : n < 65536) (x : ℚ)
    (hx : binary64.inFormat x) (hxl : binary64.roundQ ((n : ℚ) / 100) + 1 / 100 ≤ x) :
    10 * ((n : ℚ) + 1) ≤ binary64.roundQ (1000 * x) := by
  have hnq1 : (1 : ℚ) ≤ n := by exact_mod_cast hn1
  have hnq2 : (n : ℚ) ≤ 65535 := by exact_mod_cast (by omega : n ≤ 65535)
  have hzpos : (0 : ℚ) < (n : ℚ) / 100 := by positivity
  obtain ⟨hz1, hz2⟩ := binade_of_pos _ hzpos
  obtain ⟨he1, he2⟩ := binade_bounds ((n : ℚ) / 100) (-7) 9 hzpos
    (by rw [le_div_iff₀ (by norm_num)]; norm_num; linarith)
    (by rw [div_lt_iff₀ (by norm_num)]; norm_num; linarith)
  have hc : 10 * ((n : ℚ) + 1) = 1000 * ((n : ℚ) / 100 + 1 / ((100 : Int) : ℚ)) := by
    push_cast; ring
  have hc4 : 10 * ((n : ℚ) + 1) = ((40 * ((n : Int) + 1) : Int) : ℚ) / 4 := by
    push_cast; ring
  have hm : |(40 * ((n : Int) + 1) : Int)| < 2 ^ 53 := by
    rw [abs_of_nonneg (by positivity)]; omega
  have hcf : binary64.inFormat (10 * ((n : ℚ) + 1)) := by
    rw [hc4]
    have := inFormat_dyadic _ 2 hm (by norm_num)
    norm_num at this ⊢
    exact this
  have hxl' : binary64.roundQ ((n : ℚ) / 100) + 1 / ((100 : Int) : ℚ) ≤ x := by
    push_cast; exact hxl
  generalize ilog2 ((n : ℚ) / 100) = e at hz1 hz2 he1 he2
  have good : (∀ D : Int, (2 : Int) ^ (52 - e).toNat ≤ 100 * D →
      1000 * 100 + 2000 * (2 : Int) ^ (52 - e).toNat < 2000 * 100 * D + 100 * 2 ^ 9) →
      10 * ((n : ℚ) + 1) ≤ binary64.roundQ (1000 * x) := fun hint =>
    upper_binade 100 _ e 9 _ _ x (by norm_num) (by omega) (by push_cast; omega) hz1 hz2 hc hm hc4
      (grid_nine e _ _ _ (by omega) hz1 (by norm_num) hc) hint hx hxl'
  have big : (2 : ℚ) ^ (e + (10 : Nat)) ≤
      10 * ((n : ℚ) + 1) - (2 : ℚ) ^ (e + (10 : Nat) - 52) →
      10 * ((n : ℚ) + 1) ≤ binary64.roundQ (1000 * x) := fun hcj =>
    upper_binade 100 _ e 10 _ _ x (by norm_num) (by omega) (by push_cast; omega) hz1 hz2 hc hm hc4
      hcj (by intro D h; linarith) hx hxl'
  have special : (n : ℚ) / 100 ≤ binary64.roundQ ((n : ℚ) / 100) →
      10 * ((n : ℚ) + 1) ≤ binary64.roundQ (1000 * x) := fun hV =>
    upper_exact_case _ (1 / 100) _ x (by ring) hcf hV hxl
  interval_cases e
  -- binade -7: only `n = 1`
  · norm_num at hz1 hz2 big
    apply big
    linarith
  all_goals first
    | exact good (by
        intro D h
        simp only [Int.reduceSub, Int.reduceNeg, Int.reduceToNat, Int.sub_neg,
          Int.reduceAdd] at h ⊢
        omega)
    | skip
  -- binade -2: `25 ≤ n < 50`
  · norm_num at hz1 hz2 big
    apply big
    linarith
  -- binade -1: `50 ≤ n < 100`
  · norm_num at hz1 hz2 big
    by_cases h50 : n = 50
    · subst h50
      exact special (by decide!)
    · have h1 : (50 : ℚ) ≤ n := by linarith
      have h2 : 50 ≤ n := by exact_mod_cast h1
      have h3 : (51 : ℚ) ≤ n := by exact_mod_cast (by omega : 51 ≤ n)
      apply big
      linarith
  -- binade 0: `100 ≤ n < 200`
  · norm_num at hz1 hz2 big
    have h1 : (100 : ℚ) ≤ n := by linarith
    have h2 : 100 ≤ n := by exact_mod_cast h1
    by_cases h100 : n = 100
    · subst h100
      exact special (by decide!)
    by_cases h101 : n = 101
    · subst h101
      exact special (by decide!)
    · have h3 : (102 : ℚ) ≤ n := by exact_mod_cast (by omega : 102 ≤ n)
      apply big
      linarith

/-! ### Round trip: the lower side and the ends of the range -/

/-- A rounded value of moderate size is within `2^-20` above the exact one. -/
theorem roundQ_le_add (z : ℚ) (h0 : 0 ≤ z) (h1 : z ≤ 2 ^ 20) :
    binary64.roundQ z ≤ z + 1 / 2 ^ 20 := by
  have hc1 := Int.le_ceil (z * 2 ^ 20)
  have hc2 := Int.ceil_lt_add_one (z * 2 ^ 20)
  have hc0 : 0 ≤ ⌈z * 2 ^ 20⌉ := Int.ceil_nonneg (by positivity)
  have hcu : ⌈z * 2 ^ 20⌉ ≤ 2 ^ 40 := by
    apply Int.ceil_le.mpr
    push_cast
    nlinarith
  have hf : binary64.inFormat ((⌈z * 2 ^ 20⌉ : ℚ) / 2 ^ 20) :=
    inFormat_dyadic _ 20 (by rw [abs_of_nonneg hc0]; omega) (by norm_num)
  have h := roundQ_le_of_le binary64 (by decide) z _ hf (by rw [le_div_iff₀ (by positivity)]; exact hc1)
  have : (⌈z * 2 ^ 20⌉ : ℚ) / 2 ^ 20 < z + 1 / 2 ^ 20 := by
    rw [div_lt_iff₀ (by positivity)]
    have e : (z + 1 / 2 ^ 20) * 2 ^ 20 = z * 2 ^ 20 + 1 := by field_simp
    rw [e]; exact hc2
  linarith

/-- Lower side for volts and amps: a value at least one LSB below the converted raw value
`n` converts to a raw value below `n`. -/
theorem volts_lower (n : Nat) (hn1 : 1 ≤ n) (hn : n ≤ 65536) (x : ℚ)
    (hxl : x ≤ binary64.roundQ ((n : ℚ) / 800) - 1 / 800) :
    binary64.roundQ (binary64.roundQ (1000 * x) / (5 / 4)) ≤ (n : ℚ) - 1 / 2 := by
  have hp : 1 ≤ binary64.prec := by decide
  have hnq1 : (1 : ℚ) ≤ n := by exact_mod_cast hn1
  have hnq2 : (n : ℚ) ≤ 65536 := by exact_mod_cast hn
  have hV := roundQ_le_add ((n : ℚ) / 800) (by positivity)
    (by rw [div_le_iff₀ (by norm_num)]; norm_num; linarith)
  have hf1 : binary64.inFormat (((5 * (n : Int) - 4 : Int) : ℚ) / 2 ^ 2) :=
    inFormat_dyadic _ 2 (by rw [abs_of_nonneg (by omega)]; omega) (by norm_num)
  have hf2 : binary64.inFormat (((2 * (n : Int) - 1 : Int) : ℚ) / 2 ^ 1) :=
    inFormat_dyadic _ 1 (by rw [abs_of_nonneg (by omega)]; omega) (by norm_num)
  have h1 : binary64.roundQ (1000 * x) ≤ ((5 * (n : Int) - 4 : Int) : ℚ) / 2 ^ 2 := by
    apply roundQ_le_of_le binary64 hp _ _ hf1
    push_cast
    norm_num at hV ⊢
    linarith
  have h2 : (n : ℚ) - 1 / 2 = ((2 * (n : Int) - 1 : Int) : ℚ) / 2 ^ 1 := by
    push_cast; ring
  rw [h2]
  apply roundQ_le_of_le binary64 hp _ _ hf2
  push_cast at h1 ⊢
  rw [div_le_iff₀ (by norm_num)]
  linarith

/-- Lower side for watts: a value at least one LSB below the converted raw value `n`
converts to a raw value below `n`. -/
theorem watts_lower (n : Nat) (hn1 : 1 ≤ n) (hn : n ≤ 65536) (x : ℚ)
    (hxl : x ≤ binary64.roundQ ((n : ℚ) / 100) - 1 / 100) :
    binary64.roundQ (binary64.roundQ (1000 * x) / 10) ≤ (n : ℚ) - 1 / 2 := by
  have hp : 1 ≤ binary64.prec := by decide
  have hnq1 : (1 : ℚ) ≤ n := by exact_mod_cast hn1
  have hnq2 : (n : ℚ) ≤ 65536 := by exact_mod_cast hn
  have hV := roundQ_le_add ((n : ℚ) / 100) (by positivity)
    (by rw [div_le_iff₀ (by norm_num)]; norm_num; linarith)
  have hf1 : binary64.inFormat (((10 * (n : Int) - 9 : Int) : ℚ)) :=
    inFormat_int _ (by rw [abs_of_nonneg (by omega)]; omega)
  have hf2 : binary64.inFormat (((2 * (n : Int) - 1 : Int) : ℚ) / 2 ^ 1) :=
    inFormat_dyadic _ 1 (by rw [abs_of_nonneg (by omega)]; omega) (by norm_num)
  have h1 : binary64.roundQ (1000 * x) ≤ ((10 * (n : Int) - 9 : Int) : ℚ) := by
    apply roundQ_le_of_le binary64 hp _ _ hf1
    push_cast
    norm_num at hV ⊢
    linarith
  have h2 : (n : ℚ) - 1 / 2 = ((2 * (n : Int) - 1 : Int) : ℚ) / 2 ^ 1 := by
    push_cast; ring
  rw [h2]
  apply roundQ_le_of_le binary64 hp _ _ hf2
  push_cast at h1 ⊢
  rw [div_le_iff₀ (by norm_num)]
  linarith

/-- A `double` of the binade `e` below `2^(e - 52) * (2^57 / 25)` has a significand of at
most `5764607523034234`; this bounds the `double`s below `81.92`, `40.96` and `655.36`. -/
theorem edge_grid (x : ℚ) (e : Int) (hx : binary64.inFormat x) (hlo : (2 : ℚ) ^ e ≤ x)
    (hhi : x < (2 : ℚ) ^ (e - 52) * (2 ^ 57 / 25)) :
    x ≤ (2 : ℚ) ^ (e - 52) * 5764607523034234 := by
  have hU : (0 : ℚ) < (2 : ℚ) ^ (e - 52) := by positivity
  have hxa : (2 : ℚ) ^ e ≤ |x| := by
    rw [abs_of_nonneg (le_trans (by positivity) hlo)]; exact hlo
  obtain ⟨K, hK⟩ := inFormat_grid x e hx hxa
  rw [hK, mul_comm] at hhi
  have h1 : (K : ℚ) < 2 ^ 57 / 25 := lt_of_mul_lt_mul_left hhi hU.le
  rw [lt_div_iff₀ (by norm_num)] at h1
  have h2 : K * 25 < 2 ^ 57 := by exact_mod_cast h1
  have h3 : K ≤ 5764607523034234 := by omega
  rw [hK, mul_comm]
  exact mul_le_mul_of_nonneg_left (by exact_mod_cast h3) hU.le

/-! ### Round trip: from the `double` operations to rounded rationals -/

/-- A `double` is a value of the format. -/
theorem inFormat_of_representable (x : ℚ) (hx : binary64.representable x) :
    binary64.inFormat x := by
  unfold FloatFormat.representable FloatFormat.round at hx
  split_ifs at hx
  have h : binary64.roundQ x = x := by simpa using hx
  rw [← h]
  exact roundQ_inFormat binary64 (by decide) x

/-- When `x * 1000.0 / d` is finite it is the twice rounded exact quotient. -/
theorem expr_defined (x d y : ℚ) (hd : d ≠ 0)
    (h : Double.div (Double.mul (.fin x) (.fin 1000)) (.fin d) = .fin y) :
    y = binary64.roundQ (binary64.roundQ (x * 1000) / d) := by
  simp only [Double.mul, FloatFormat.round] at h
  split_ifs at h with h1
  · simp [Double.div] at h
  · simp only [Double.div, if_neg hd, FloatFormat.round] at h
    split_ifs at h with h2
    simpa using h.symm

/-- For moderate `x` the expression `x * 1000.0 / d` is finite. -/
theorem expr_fin (x d : ℚ) (hd : 1 ≤ d) (hx : |x| ≤ 2 ^ 20) :
    Double.div (Double.mul (.fin x) (.fin 1000)) (.fin d) =
      .fin (binary64.roundQ (binary64.roundQ (x * 1000) / d)) := by
  have hp : 1 ≤ binary64.prec := by decide
  obtain ⟨hx1, hx2⟩ := abs_le.mp hx
  have hf : binary64.inFormat ((2 : ℚ) ^ 30) := by
    have := inFormat_int (2 ^ 30) (by norm_num)
    simpa using this
  have hf' : binary64.inFormat (-(2 : ℚ) ^ 30) := by
    have := inFormat_int (-(2 ^ 30)) (by norm_num)
    simpa using this
  have h1 : |x * 1000| ≤ 2 ^ 64 := by
    rw [abs_le]; constructor <;> nlinarith
  have ha1 : binary64.roundQ (x * 1000) ≤ 2 ^ 30 :=
    roundQ_le_of_le binary64 hp _ _ hf (by nlinarith)
  have ha2 : -(2 : ℚ) ^ 30 ≤ binary64.roundQ (x * 1000) :=
    le_roundQ_of_le binary64 hp _ _ hf' (by nlinarith)
  have hd0 : (0 : ℚ) < d := by linarith
  have h2 : |binary64.roundQ (x * 1000) / d| ≤ 2 ^ 64 := by
    rw [abs_div, abs_of_pos hd0, div_le_iff₀ hd0]
    have : |binary64.roundQ (x * 1000)| ≤ 2 ^ 30 := abs_le.mpr ⟨ha2, ha1⟩
    nlinarith
  show Double.div (binary64.round (x * 1000)) (.fin d) = _
  rw [round_fin _ h1]
  exact div_fin _ _ hd0.ne' h2

/-- The twice rounded quotient is monotone in `x`. -/
theorem expr_mono (d x1 x2 : ℚ) (hd : 0 < d) (h : x1 ≤ x2) :
    binary64.roundQ (binary64.roundQ (x1 * 1000) / d) ≤
      binary64.roundQ (binary64.roundQ (x2 * 1000) / d) := by
  have hp : 1 ≤ binary64.prec := by decide
  apply roundQ_mono binary64 hp
  apply div_le_div_of_nonneg_right _ hd.le
  apply roundQ_mono binary64 hp
  linarith

/-- The twice rounded quotient commutes with negation. -/
theorem expr_neg (d x : ℚ) :
    binary64.roundQ (binary64.roundQ (-x * 1000) / d) =
      -binary64.roundQ (binary64.roundQ (x * 1000) / d) := by
  rw [neg_mul, roundQ_neg, neg_div, roundQ_neg]

/-- At an exact threshold `t / s` with `d * s = 1000` the twice rounded quotient is `t`. -/
theorem expr_exact (d s x : ℚ) (m t : Int) (hd : 0 < d) (hs : d * s = 1000)
    (hm : |m| < 2 ^ 53) (hmt : (m : ℚ) / 2 ^ 2 = d * t) (ht : |t| < 2 ^ 53)
    (hx : x = (t : ℚ) / s) :
    binary64.roundQ (binary64.roundQ (x * 1000) / d) = t := by
  have hp : 1 ≤ binary64.prec := by decide
  have hs0 : s ≠ 0 := by
    intro h; rw [h] at hs; norm_num at hs
  have e1 : x * 1000 = d * t := by
    rw [hx, ← hs]; field_simp; ring
  have f1 : binary64.inFormat (d * t) := by
    rw [← hmt]; exact inFormat_dyadic m 2 hm (by norm_num)
  rw [e1, roundQ_exact binary64 hp _ f1]
  have e2 : d * (t : ℚ) / d = t := by field_simp
  rw [e2]
  exact roundQ_exact binary64 hp _ (inFormat_int t ht)

/-! ### Round trip: bounds for a given raw value -/

/-- Volts and amps: if `x` converts to the raw value `n ≥ 1`, then converting `n` back gives
a value within one LSB of `x`. -/
theorem volts_core_pos (n : Nat) (hn1 : 1 ≤ n) (hn : n < 65536) (x : ℚ)
    (hx : binary64.inFormat x)
    (h1 : (n : ℚ) ≤ binary64.roundQ (binary64.roundQ (x * 1000) / (5 / 4)))
    (h2 : binary64.roundQ (binary64.roundQ (x * 1000) / (5 / 4)) < (n : ℚ) + 1) :
    |binary64.roundQ ((n : ℚ) / 800) - x| < 1 / 800 := by
  have hp : 1 ≤ binary64.prec := by decide
  rw [abs_lt]
  constructor
  · by_contra hc
    push_neg at hc
    have hu := volts_upper n hn1 hn x hx (by linarith)
    rw [mul_comm 1000 x] at hu
    have hf : binary64.inFormat (((n + 1 : Int) : ℚ)) := inFormat_int _ (by
      rw [abs_of_nonneg (by positivity)]; omega)
    have := le_roundQ_of_le binary64 hp (binary64.roundQ (x * 1000) / (5 / 4)) _ hf (by
      rw [le_div_iff₀ (by norm_num)]; push_cast; linarith)
    push_cast at this
    linarith
  · by_contra hc
    push_neg at hc
    have hl := volts_lower n hn1 hn.le x (by linarith)
    rw [mul_comm 1000 x] at hl
    linarith

/-- Watts: if `x` converts to the raw value `n ≥ 1`, then converting `n` back gives a value
within one LSB of `x`. -/
theorem watts_core_pos (n : Nat) (hn1 : 1 ≤ n) (hn : n < 65536) (x : ℚ)
    (hx : binary64.inFormat x)
    (h1 : (n : ℚ) ≤ binary64.roundQ (binary64.roundQ (x * 1000) / 10))
    (h2 : binary64.roundQ (binary64.roundQ (x * 1000) / 10) < (n : ℚ) + 1) :
    |binary64.roundQ ((n : ℚ) / 100) - x| < 1 / 100 := by
  have hp : 1 ≤ binary64.prec := by decide
  rw [abs_lt]
  constructor
  · by_contra hc
    push_neg at hc
    have hu := watts_upper n hn1 hn x hx (by linarith)
    rw [mul_comm 1000 x] at hu
    have hf : binary64.inFormat (((n + 1 : Int) : ℚ)) := inFormat_int _ (by
      rw [abs_of_nonneg (by positivity)]; omega)
    have := le_roundQ_of_le binary64 hp (binary64.roundQ (x * 1000) / 10) _ hf (by
      rw [le_div_iff₀ (by norm_num)]; push_cast; linarith)
    push_cast at this
    linarith
  · by_contra hc
    push_neg at hc
    have hl := watts_lower n hn1 hn.le x (by linarith)
    rw [mul_comm 1000 x] at hl
    linarith

/-- Volts and amps: a value that converts to less than `1` is below one LSB. -/
theorem volts_zero (x : ℚ)
    (h : binary64.roundQ (binary64.roundQ (x * 1000) / (5 / 4)) < 1) : x < 1 / 800 := by
  by_contra hc
  push_neg at hc
  have hm := expr_mono (5 / 4) _ _ (by norm_num) hc
  have he := expr_exact (5 / 4) 800 (1 / 800) 5 1 (by norm_num) (by norm_num) (by norm_num)
    (by norm_num) (by norm_num) (by norm_num)
  rw [he] at hm
  push_cast at hm
  linarith

/-- Watts: a value that converts to less than `1` is below one LSB. -/
theorem watts_zero (x : ℚ)
    (h : binary64.roundQ (binary64.roundQ (x * 1000) / 10) < 1) : x < 1 / 100 := by
  by_contra hc
  push_neg at hc
  have hm := expr_mono 10 _ _ (by norm_num) hc
  have he := expr_exact 10 100 (1 / 100) 40 1 (by norm_num) (by norm_num) (by norm_num)
    (by norm_num) (by norm_num) (by norm_num)
  rw [he] at hm
  push_cast at hm
  linarith

/-- Volts: every `double` below `81.92` converts to less than `65536`. -/
theorem volts_edge (x : ℚ) (hx : binary64.inFormat x) (h : x * 800 < 65536) :
    binary64.roundQ (binary64.roundQ (x * 1000) / (5 / 4)) < 65536 := by
  by_cases h64 : x ≤ 64
  · have hm := expr_mono (5 / 4) _ _ (by norm_num) h64
    have he := expr_exact (5 / 4) 800 64 256000 51200 (by norm_num) (by norm_num)
      (by norm_num) (by norm_num) (by norm_num) (by norm_num)
    rw [he] at hm
    push_cast at hm
    linarith
  · push_neg at h64
    have hg := edge_grid x 6 hx (by norm_num; linarith) (by norm_num; linarith)
    have e : (2 : ℚ) ^ ((6 : Int) - 52) * 5764607523034234 =
        5764607523034234 / 70368744177664 := by norm_num
    rw [e] at hg
    have hm := expr_mono (5 / 4) _ _ (by norm_num) hg
    have hv : binary64.roundQ (binary64.roundQ
        ((5764607523034234 / 70368744177664 : ℚ) * 1000) / (5 / 4)) < 65536 := by decide!
    linarith

/-- Amps: every `double` below `40.96` converts to less than `32768`. -/
theorem amps_edge (x : ℚ) (hx : binary64.inFormat x) (h : x * 800 < 32768) :
    binary64.roundQ (binary64.roundQ (x * 1000) / (5 / 4)) < 32768 := by
  by_cases h32 : x ≤ 32
  · have hm := expr_mono (5 / 4) _ _ (by norm_num) h32
    have he := expr_exact (5 / 4) 800 32 128000 25600 (by norm_num) (by norm_num)
      (by norm_num) (by norm_num) (by norm_num) (by norm_num)
    rw [he] at hm
    push_cast at hm
    linarith
  · push_neg at h32
    have hg := edge_grid x 5 hx (by norm_num; linarith) (by norm_num; linarith)
    have e : (2 : ℚ) ^ ((5 : Int) - 52) * 5764607523034234 =
        5764607523034234 / 140737488355328 := by norm_num
    rw [e] at hg
    have hm := expr_mono (5 / 4) _ _ (by norm_num) hg
    have hv : binary64.roundQ (binary64.roundQ
        ((5764607523034234 / 140737488355328 : ℚ) * 1000) / (5 / 4)) < 32768 := by decide!
    linarith

/-- Watts: every `double` below `655.36` converts to less than `65536`. -/
theorem watts_edge (x : ℚ) (hx : binary64.inFormat x) (h : x * 100 < 65536) :
    binary64.roundQ (binary64.roundQ (x * 1000) / 10) < 65536 := by
  by_cases h512 : x ≤ 512
  · have hm := expr_mono 10 _ _ (by norm_num) h512
    have he := expr_exact 10 100 512 2048000 51200 (by norm_num) (by norm_num)
      (by norm_num) (by norm_num) (by norm_num) (by norm_num)
    rw [he] at hm
    push_cast at hm
    linarith
  · push_neg at h512
    have hg := edge_grid x 9 hx (by norm_num; linarith) (by norm_num; linarith)
    have e : (2 : ℚ) ^ ((9 : Int) - 52) * 5764607523034234 =
        5764607523034234 / 8796093022208 := by norm_num
    rw [e] at hg
    have hm := expr_mono 10 _ _ (by norm_num) hg
    have hv : binary64.roundQ (binary64.roundQ
        ((5764607523034234 / 8796093022208 : ℚ) * 1000) / 10) < 65536 := by decide!
    linarith

/-! ### Round trip: physical to raw to physical -/

/-- The negative of a value of the format is a value of the format. -/
theorem inFormat_neg (x : ℚ) (hx : binary64.inFormat x) : binary64.inFormat (-x) := by
  obtain ⟨m, e, hm, he, rfl⟩ := hx
  exact ⟨-m, e, by rwa [abs_neg], he, by push_cast; ring⟩

/-- Zero converts to zero. -/
theorem expr_zero (d : ℚ) : binary64.roundQ (binary64.roundQ (0 * 1000) / d) = 0 := by
  rw [zero_mul, roundQ_zero, zero_div, roundQ_zero]

/-- Volts round trip for a `double` in range. -/
theorem volts_roundtrip (x : ℚ) (hx : binary64.inFormat x) (h0 : 0 ≤ x * 800)
    (h1 : x * 800 < 65536) :
    ∃ (n : Nat) (v : ℚ), voltsToRaw (.fin x) = some n ∧ rawToVolts n = .fin v ∧
      |v - x| < 1 / 800 := by
  have hx0 : 0 ≤ x := by linarith
  have hY0 : 0 ≤ binary64.roundQ (binary64.roundQ (x * 1000) / (5 / 4)) := by
    have := expr_mono (5 / 4) 0 x (by norm_num) hx0
    rwa [expr_zero] at this
  have hY1 := volts_edge x hx h1
  have hexpr := expr_fin x (5 / 4) (by norm_num) (by rw [abs_of_nonneg hx0]; linarith)
  have hfl0 : 0 ≤ ⌊binary64.roundQ (binary64.roundQ (x * 1000) / (5 / 4))⌋ := Int.floor_nonneg.mpr hY0
  have hfl1 : ⌊binary64.roundQ (binary64.roundQ (x * 1000) / (5 / 4))⌋ < 65536 :=
    Int.floor_lt.mpr (by push_cast; exact hY1)
  have hfa := Int.floor_le (binary64.roundQ (binary64.roundQ (x * 1000) / (5 / 4)))
  have hfb := Int.lt_floor_add_one (binary64.roundQ (binary64.roundQ (x * 1000) / (5 / 4)))
  obtain ⟨n, hn⟩ := Int.eq_ofNat_of_zero_le hfl0
  rw [hn] at hfl1 hfa hfb
  have hn' : n < 65536 := by exact_mod_cast hfl1
  push_cast at hfa hfb
  refine ⟨n, _, ?_, rawToVolts_eq n hn'.le, ?_⟩
  · rw [voltsToRaw_iff]
    refine ⟨_, hexpr, ?_, by omega⟩
    unfold truncate
    rw [if_pos hY0, hn]
  · have e : (n : ℚ) * (5 / 4) / 1000 = (n : ℚ) / 800 := by ring
    rw [e]
    rcases Nat.eq_zero_or_pos n with h | h
    · subst h
      have hz := volts_zero x (by push_cast at hfb; linarith)
      simp only [Nat.cast_zero, zero_div, roundQ_zero, zero_sub, abs_neg]
      rw [abs_of_nonneg hx0]
      exact hz
    · exact volts_core_pos n h hn' x hx hfa hfb

/-- Watts round trip for a `double` in range. -/
theorem watts_roundtrip (x : ℚ) (hx : binary64.inFormat x) (h0 : 0 ≤ x * 100)
    (h1 : x * 100 < 65536) :
    ∃ (n : Nat) (v : ℚ), wattsToRaw (.fin x) = some n ∧ rawToWatts n = .fin v ∧
      |v - x| < 1 / 100 := by
  have hx0 : 0 ≤ x := by linarith
  have hY0 : 0 ≤ binary64.roundQ (binary64.roundQ (x * 1000) / 10) := by
    have := expr_mono 10 0 x (by norm_num) hx0
    rwa [expr_zero] at this
  have hY1 := watts_edge x hx h1
  have hexpr := expr_fin x 10 (by norm_num) (by rw [abs_of_nonneg hx0]; linarith)
  have hfl0 : 0 ≤ ⌊binary64.roundQ (binary64.roundQ (x * 1000) / 10)⌋ := Int.floor_nonneg.mpr hY0
  have hfl1 : ⌊binary64.roundQ (binary64.roundQ (x * 1000) / 10)⌋ < 65536 :=
    Int.floor_lt.mpr (by push_cast; exact hY1)
  have hfa := Int.floor_le (binary64.roundQ (binary64.roundQ (x * 1000) / 10))
  have hfb := Int.lt_floor_add_one (binary64.roundQ (binary64.roundQ (x * 1000) / 10))
  obtain ⟨n, hn⟩ := Int.eq_ofNat_of_zero_le hfl0
  rw [hn] at hfl1 hfa hfb
  have hn' : n < 65536 := by exact_mod_cast hfl1
  push_cast at hfa hfb
  refine ⟨n, _, ?_, rawToWatts_eq n hn'.le, ?_⟩
  · rw [wattsToRaw_iff]
    refine ⟨_, hexpr, ?_, by omega⟩
    unfold truncate
    rw [if_pos hY0, hn]
  · have e : (n : ℚ) * 10 / 1000 = (n : ℚ) / 100 := by ring
    rw [e]
    rcases Nat.eq_zero_or_pos n with h | h
    · subst h
      have hz := watts_zero x (by push_cast at hfb; linarith)
      simp only [Nat.cast_zero, zero_div, roundQ_zero, zero_sub, abs_neg]
      rw [abs_of_nonneg hx0]
      exact hz
    · exact watts_core_pos n h hn' x hx hfa hfb

/-- Amps round trip for a `double` whose raw count fits `int16_t`. -/
theorem amps_roundtrip (x : ℚ) (n : Int) (hx : binary64.inFormat x)
    (h : ampsToRaw (.fin x) = some n) :
    ∃ v : ℚ, rawToAmps n = .fin v ∧ |v - x| < 1 / 800 := by
  obtain ⟨y, hy, hn, hr1, hr2⟩ := (ampsToRaw_iff (.fin x) n).mp h
  have hyY := expr_defined x (5 / 4) y (by norm_num) hy
  refine ⟨_, rawToAmps_eq n (abs_le.mpr ⟨by omega, by omega⟩), ?_⟩
  have e : (n : ℚ) * (5 / 4) / 1000 = (n : ℚ) / 800 := by ring
  rw [e]
  obtain ⟨t1, t2⟩ := truncate_spec y
  rcases lt_trichotomy n 0 with hneg | hzero | hpos
  · -- negative raw value: mirror
    have hy0 : y ≤ 0 := by
      by_contra hc
      push_neg at hc
      have := (t1 hc.le).1
      have h0 : (0 : ℚ) ≤ (truncate y : ℚ) := by
        unfold truncate; rw [if_pos hc.le]; exact_mod_cast Int.floor_nonneg.mpr hc.le
      rw [← hn] at h0
      have : (0 : Int) ≤ n := by exact_mod_cast h0
      omega
    obtain ⟨s1, s2⟩ := t2 hy0
    rw [← hn] at s1 s2
    obtain ⟨k, hk⟩ := Int.eq_ofNat_of_zero_le (by omega : 0 ≤ -n)
    have hnk : n = -(k : Int) := by omega
    have hk1 : 1 ≤ k := by omega
    have hk2 : k < 65536 := by omega
    have hYn := expr_neg (5 / 4) x
    rw [← hyY] at hYn
    have c := volts_core_pos k hk1 hk2 (-x) (inFormat_neg x hx)
      (by rw [hYn]; rw [hnk] at s1; push_cast at s1; linarith)
      (by rw [hYn]; rw [hnk] at s2; push_cast at s2; linarith)
    have e2 : (n : ℚ) / 800 = -((k : ℚ) / 800) := by rw [hnk]; push_cast; ring
    rw [e2, roundQ_neg]
    have e3 : -binary64.roundQ ((k : ℚ) / 800) - x = -(binary64.roundQ ((k : ℚ) / 800) - -x) := by
      ring
    rw [e3, abs_neg]
    exact c
  · -- zero raw value
    subst hzero
    have hy1 : y < 1 := by
      by_contra hc
      push_neg at hc
      have := (t1 (by linarith)).1
      have h1 : (1 : ℚ) ≤ (truncate y : ℚ) := by
        unfold truncate; rw [if_pos (by linarith)]
        exact_mod_cast Int.le_floor.mpr (by push_cast; exact hc)
      rw [← hn] at h1
      norm_num at h1
    have hy2 : -1 < y := by
      by_contra hc
      push_neg at hc
      have h1 : (truncate y : ℚ) ≤ -1 := by
        unfold truncate
        rw [if_neg (by linarith)]
        have : (1 : Int) ≤ ⌊-y⌋ := Int.le_floor.mpr (by push_cast; linarith)
        push_cast
        have : (1 : ℚ) ≤ (⌊-y⌋ : ℚ) := by exact_mod_cast this
        linarith
      rw [← hn] at h1
      norm_num at h1
    have z1 := volts_zero x (by rw [← hyY]; exact hy1)
    have z2 := volts_zero (-x) (by rw [expr_neg, ← hyY]; linarith)
    simp only [Int.cast_zero, zero_div, roundQ_zero, zero_sub, abs_neg]
    rw [abs_lt]
    constructor <;> linarith
  · -- positive raw value
    have hy0 : 0 ≤ y := by
      by_contra hc
      push_neg at hc
      have := (t2 hc.le).1
      have h0 : (truncate y : ℚ) ≤ 0 := by
        unfold truncate; rw [if_neg (by linarith)]
        have : (0 : Int) ≤ ⌊-y⌋ := Int.floor_nonneg.mpr (by linarith)
        push_cast
        have : (0 : ℚ) ≤ (⌊-y⌋ : ℚ) := by exact_mod_cast this
        linarith
      rw [← hn] at h0
      have : n ≤ (0 : Int) := by exact_mod_cast h0
      omega
    obtain ⟨s1, s2⟩ := t1 hy0
    rw [← hn] at s1 s2
    obtain ⟨k, hk⟩ := Int.eq_ofNat_of_zero_le hpos.le
    have hk1 : 1 ≤ k := by omega
    have hk2 : k < 65536 := by omega
    rw [hk] at s1 s2 ⊢
    push_cast at s1 s2 ⊢
    exact volts_core_pos k hk1 hk2 x hx (by rw [← hyY]; exact s1) (by rw [← hyY]; exact s2)

/-- Amps: for a `double` within the `int16_t` range of counts the conversion is defined. -/
theorem amps_defined (x : ℚ) (hx : binary64.inFormat x) (h0 : -32768 ≤ x * 800)
    (h1 : x * 800 < 32768) : ∃ n : Int, ampsToRaw (.fin x) = some n := by
  have hY1 := amps_edge x hx h1
  have hY0 : -32768 ≤ binary64.roundQ (binary64.roundQ (x * 1000) / (5 / 4)) := by
    have hm := expr_mono (5 / 4) (-32768 / 800) x (by norm_num) (by linarith)
    have he := expr_exact (5 / 4) 800 (-32768 / 800) (-163840) (-32768) (by norm_num)
      (by norm_num) (by norm_num) (by norm_num) (by norm_num) (by norm_num)
    rw [he] at hm
    push_cast at hm
    exact hm
  have hexpr := expr_fin x (5 / 4) (by norm_num) (by rw [abs_le]; constructor <;> linarith)
  obtain ⟨t1, t2⟩ := truncate_spec (binary64.roundQ (binary64.roundQ (x * 1000) / (5 / 4)))
  refine ⟨truncate (binary64.roundQ (binary64.roundQ (x * 1000) / (5 / 4))), ?_⟩
  rw [ampsToRaw_iff]
  refine ⟨_, hexpr, rfl, ?_, ?_⟩
  · rcases le_total 0 (binary64.roundQ (binary64.roundQ (x * 1000) / (5 / 4))) with hc | hc
    · have : (0 : Int) ≤ truncate (binary64.roundQ (binary64.roundQ (x * 1000) / (5 / 4))) := by
        unfold truncate; rw [if_pos hc]; exact Int.floor_nonneg.mpr hc
      omega
    · have := (t2 hc).1
      have h2 : ((-32768 : Int) : ℚ) ≤
          (truncate (binary64.roundQ (binary64.roundQ (x * 1000) / (5 / 4))) : ℚ) := by
        push_cast; linarith
      exact_mod_cast h2
  · rcases le_total 0 (binary64.roundQ (binary64.roundQ (x * 1000) / (5 / 4))) with hc | hc
    · have := (t1 hc).1
      have h2 : (truncate (binary64.roundQ (binary64.roundQ (x * 1000) / (5 / 4))) : ℚ) <
          ((32768 : Int) : ℚ) := by
        push_cast; linarith
      have h3 : truncate (binary64.roundQ (binary64.roundQ (x * 1000) / (5 / 4))) < 32768 := by
        exact_mod_cast h2
      omega
    · have := (t2 hc).2
      have h2 : (truncate (binary64.roundQ (binary64.roundQ (x * 1000) / (5 / 4))) : ℚ) <
          ((1 : Int) : ℚ) := by
        push_cast; linarith
      have h3 : truncate (binary64.roundQ (binary64.roundQ (x * 1000) / (5 / 4))) < 1 := by
        exact_mod_cast h2
      omega

/-! ### Physical to raw: the computed count against the exact quotient -/

/-- Truncation commutes with negation. -/
theorem truncate_neg (q : ℚ) : truncate (-q) = -truncate q := by
  unfold truncate
  rcases lt_trichotomy q 0 with h | h | h
  · rw [if_pos (by linarith), if_neg (by linarith)]
    simp
  · subst h; simp
  · rw [if_neg (by linarith), if_pos (by linarith)]
    simp

/-- For a non-negative `x` whose twice rounded quotient `x * 1000.0 / d` stays below `2^16`,
the floor of the computed quotient is the floor of the exact quotient `x * s` or one more
(`d * s = 1000`, `4 * d` an integer). -/
theorem floor_near_exact (d s x : ℚ) (d4 : Int) (hd : 0 < d) (hs : d * s = 1000)
    (hd4 : (d4 : ℚ) = 4 * d) (hd4b : |d4| ≤ 40) (hx : 0 ≤ x)
    (hY : binary64.roundQ (binary64.roundQ (x * 1000) / d) < 65536) :
    ⌊x * s⌋ ≤ ⌊binary64.roundQ (binary64.roundQ (x * 1000) / d)⌋ ∧
    ⌊binary64.roundQ (binary64.roundQ (x * 1000) / d)⌋ ≤ ⌊x * s⌋ + 1 := by
  have hs0 : 0 < s := by
    by_contra h
    push_neg at h
    have : d * s ≤ 0 := mul_nonpos_of_nonneg_of_nonpos hd.le h
    linarith
  have hk0 : 0 ≤ ⌊x * s⌋ := Int.floor_nonneg.mpr (by positivity)
  have hka := Int.floor_le (x * s)
  have hkb := Int.lt_floor_add_one (x * s)
  have ex : ∀ t : Int, 0 ≤ t → t ≤ 65536 →
      binary64.roundQ (binary64.roundQ ((t : ℚ) / s * 1000) / d) = t := by
    intro t h0 h1
    refine expr_exact d s _ (d4 * t) t hd hs ?_ ?_ ?_ rfl
    · rw [abs_mul, abs_of_nonneg h0]
      have : |d4| * t ≤ 40 * 65536 :=
        mul_le_mul hd4b h1 h0 (by norm_num)
      omega
    · push_cast; rw [hd4]; ring
    · rw [abs_of_nonneg h0]; omega
  have hk1 : ⌊x * s⌋ < 65536 := by
    by_contra hc
    push_neg at hc
    have h1 : (65536 : ℚ) ≤ x * s := by
      have : ((65536 : Int) : ℚ) ≤ (⌊x * s⌋ : ℚ) := by exact_mod_cast hc
      push_cast at this; linarith
    have hm := expr_mono d ((65536 : Int) / s) x hd (by
      rw [div_le_iff₀ hs0]; push_cast; exact h1)
    rw [ex 65536 (by norm_num) (by norm_num)] at hm
    push_cast at hm
    linarith
  constructor
  · apply Int.le_floor.mpr
    have hm := expr_mono d ((⌊x * s⌋ : ℚ) / s) x hd (by rw [div_le_iff₀ hs0]; exact hka)
    rw [ex _ hk0 hk1.le] at hm
    exact hm
  · have hm := expr_mono d x (((⌊x * s⌋ + 1 : Int) : ℚ) / s) hd (by
      rw [le_div_iff₀ hs0]; push_cast; exact hkb.le)
    rw [ex _ (by omega) (by omega)] at hm
    have := Int.floor_le_floor hm
    rwa [Int.floor_intCast] at this

/-- For non-negative values truncation is the floor. -/
theorem truncate_of_nonneg (q : ℚ) (h : 0 ≤ q) : truncate q = ⌊q⌋ := by
  unfold truncate; rw [if_pos h]

/-- The computed count is the exact truncated quotient or one further from zero. -/
theorem truncate_near_exact (d s x : ℚ) (d4 : Int) (hd : 0 < d) (hs : d * s = 1000)
    (hd4 : (d4 : ℚ) = 4 * d) (hd4b : |d4| ≤ 40)
    (hY : |binary64.roundQ (binary64.roundQ (x * 1000) / d)| < 65536) :
    |truncate (binary64.roundQ (binary64.roundQ (x * 1000) / d)) - truncate (x * s)| ≤ 1 ∧
    |truncate (x * s)| ≤ |truncate (binary64.roundQ (binary64.roundQ (x * 1000) / d))| := by
  have hs0 : 0 < s := by
    by_contra h
    push_neg at h
    have : d * s ≤ 0 := mul_nonpos_of_nonneg_of_nonpos hd.le h
    linarith
  obtain ⟨hY1, hY2⟩ := abs_lt.mp hY
  rcases le_total 0 x with hx | hx
  · have hY0 : 0 ≤ binary64.roundQ (binary64.roundQ (x * 1000) / d) := by
      have := expr_mono d 0 x hd hx
      rwa [expr_zero] at this
    obtain ⟨f1, f2⟩ := floor_near_exact d s x d4 hd hs hd4 hd4b hx hY2
    have hk0 : 0 ≤ ⌊x * s⌋ := Int.floor_nonneg.mpr (by positivity)
    rw [truncate_of_nonneg _ hY0, truncate_of_nonneg _ (by positivity : 0 ≤ x * s)]
    constructor
    · rw [abs_le]; constructor <;> omega
    · rw [abs_of_nonneg hk0, abs_of_nonneg (by omega)]; exact f1
  · have hx' : 0 ≤ -x := by linarith
    have hYn := expr_neg d x
    have hY0 : 0 ≤ binary64.roundQ (binary64.roundQ (-x * 1000) / d) := by
      have := expr_mono d 0 (-x) hd hx'
      rwa [expr_zero] at this
    obtain ⟨f1, f2⟩ := floor_near_exact d s (-x) d4 hd hs hd4 hd4b hx' (by rw [hYn]; linarith)
    have hk0 : 0 ≤ ⌊-x * s⌋ := Int.floor_nonneg.mpr (by positivity)
    have t1 : truncate (binary64.roundQ (binary64.roundQ (x * 1000) / d)) =
        -⌊binary64.roundQ (binary64.roundQ (-x * 1000) / d)⌋ := by
      rw [← truncate_of_nonneg _ hY0, hYn, truncate_neg, neg_neg]
    have t2 : truncate (x * s) = -⌊-x * s⌋ := by
      rw [← truncate_of_nonneg _ (by positivity : 0 ≤ -x * s), neg_mul, truncate_neg, neg_neg]
    rw [t1, t2]
    constructor
    · rw [abs_le]; constructor <;> omega
    · rw [abs_neg, abs_neg, abs_of_nonneg hk0, abs_of_nonneg (by omega)]; exact f1

/-- The computed amps count against the exact truncated quotient. -/
theorem ampsToRaw_near_exact (x : ℚ) (n : Int) (h : ampsToRaw (.fin x) = some n) :
    |n - truncate (x * 1000 / (5 / 4))| ≤ 1 ∧ |truncate (x * 1000 / (5 / 4))| ≤ |n| := by
  obtain ⟨y, hy, hn, hr1, hr2⟩ := (ampsToRaw_iff (.fin x) n).mp h
  have hyY := expr_defined x (5 / 4) y (by norm_num) hy
  obtain ⟨t1, t2⟩ := truncate_spec y
  have hyb : |y| < 65536 := by
    rw [abs_lt]
    have c1 : ((-32768 : Int) : ℚ) ≤ (truncate y : ℚ) := by exact_mod_cast (hn ▸ hr1)
    have c2 : (truncate y : ℚ) ≤ ((32767 : Int) : ℚ) := by exact_mod_cast (hn ▸ hr2)
    push_cast at c1 c2
    rcases le_total 0 y with hc | hc
    · constructor <;> linarith [(t1 hc).1, (t1 hc).2]
    · constructor <;> linarith [(t2 hc).1, (t2 hc).2]
  have e : x * 1000 / (5 / 4) = x * 800 := by ring
  rw [e, hn, hyY]
  rw [hyY] at hyb
  exact truncate_near_exact (5 / 4) 800 x 5 (by norm_num) (by norm_num) (by norm_num)
    (by norm_num) hyb

/-- The computed volts count against the exact truncated quotient. -/
theorem voltsToRaw_near_exact (x : ℚ) (n : Nat) (h : voltsToRaw (.fin x) = some n) :
    |(n : Int) - truncate (x * 1000 / (5 / 4))| ≤ 1 ∧
      |truncate (x * 1000 / (5 / 4))| ≤ |(n : Int)| := by
  obtain ⟨y, hy, hn, hr⟩ := (voltsToRaw_iff (.fin x) n).mp h
  have hyY := expr_defined x (5 / 4) y (by norm_num) hy
  obtain ⟨t1, t2⟩ := truncate_spec y
  have hyb : |y| < 65536 := by
    rw [abs_lt]
    have c1 : ((0 : Int) : ℚ) ≤ (truncate y : ℚ) := by exact_mod_cast (hn ▸ Int.natCast_nonneg n)
    have c2 : (truncate y : ℚ) ≤ ((65535 : Int) : ℚ) := by
      exact_mod_cast (hn ▸ (by exact_mod_cast hr : (n : Int) ≤ 65535))
    push_cast at c1 c2
    rcases le_total 0 y with hc | hc
    · constructor <;> linarith [(t1 hc).1, (t1 hc).2]
    · constructor <;> linarith [(t2 hc).1, (t2 hc).2]
  have e : x * 1000 / (5 / 4) = x * 800 := by ring
  rw [e, hn, hyY]
  rw [hyY] at hyb
  exact truncate_near_exact (5 / 4) 800 x 5 (by norm_num) (by norm_num) (by norm_num)
    (by norm_num) hyb

/-- The computed watts count against the exact truncated quotient. -/
theorem wattsToRaw_near_exact (x : ℚ) (n : Nat) (h : wattsToRaw (.fin x) = some n) :
    |(n : Int) - truncate (x * 1000 / 10)| ≤ 1 ∧ |truncate (x * 1000 / 10)| ≤ |(n : Int)| := by
  obtain ⟨y, hy, hn, hr⟩ := (wattsToRaw_iff (.fin x) n).mp h
  have hyY := expr_defined x 10 y (by norm_num) hy
  obtain ⟨t1, t2⟩ := truncate_spec y
  have hyb : |y| < 65536 := by
    rw [abs_lt]
    have c1 : ((0 : Int) : ℚ) ≤ (truncate y : ℚ) := by exact_mod_cast (hn ▸ Int.natCast_nonneg n)
    have c2 : (truncate y : ℚ) ≤ ((65535 : Int) : ℚ) := by
      exact_mod_cast (hn ▸ (by exact_mod_cast hr : (n : Int) ≤ 65535))
    push_cast at c1 c2
    rcases le_total 0 y with hc | hc
    · constructor <;> linarith [(t1 hc).1, (t1 hc).2]
    · constructor <;> linarith [(t2 hc).1, (t2 hc).2]
  have e : x * 1000 / 10 = x * 100 := by ring
  rw [e, hn, hyY]
  rw [hyY] at hyb
  exact truncate_near_exact 10 100 x 40 (by norm_num) (by norm_num) (by norm_num)
    (by norm_num) hyb

/-! ### Unit conversions: round trip and reads -/

/-- C9: physical to raw to physical stays within one LSB.  For every `double` `x` with
`0 ≤ x * 800 < 65536` the volts conversion is defined and
`|rawToVolts (voltsToRaw x) - x| < 0.00125`; for every `double` `x` whose amps raw count fits
`int16_t` (in particular when `-32768 ≤ x * 800 < 32768`)
`|rawToAmps (ampsToRaw x) - x| < 0.00125`; for every `double` `x` with `0 ≤ x * 100 < 65536`
the watts conversion is defined and `|rawToWatts (wattsToRaw x) - x| < 0.010`.  The
differences are exact differences of the values of the `double`s. -/
theorem roundtrip_within_lsb :
    (∀ x : ℚ, binary64.representable x → 0 ≤ x * 800 → x * 800 < 65536 →
      ∃ (n : Nat) (v : ℚ), voltsToRaw (.fin x) = some n ∧ rawToVolts n = .fin v ∧
        |v - x| < 1 / 800) ∧
    (∀ (x : ℚ) (n : Int), binary64.representable x → ampsToRaw (.fin x) = some n →
      ∃ v : ℚ, rawToAmps n = .fin v ∧ |v - x| < 1 / 800) ∧
    (∀ x : ℚ, binary64.representable x → -32768 ≤ x * 800 → x * 800 < 32768 →
      ∃ n : Int, ampsToRaw (.fin x) = some n) ∧
    (∀ x : ℚ, binary64.representable x → 0 ≤ x * 100 → x * 100 < 65536 →
      ∃ (n : Nat) (v : ℚ), wattsToRaw (.fin x) = some n ∧ rawToWatts n = .fin v ∧
        |v - x| < 1 / 100) :=
  ⟨fun x hx h0 h1 => volts_roundtrip x (inFormat_of_representable x hx) h0 h1,
    fun x n hx h => amps_roundtrip x n (inFormat_of_representable x hx) h,
    fun x hx h0 h1 => amps_defined x (inFormat_of_representable x hx) h0 h1,
    fun x hx h0 h1 => watts_roundtrip x (inFormat_of_representable x hx) h0 h1⟩

/-- Witness for C9: the `double` nearest to `0.3` as volts and as watts, and `-1.0` as amps. -/
theorem roundtrip_within_lsb_witness :
    (∃ (n : Nat) (v : ℚ),
      voltsToRaw (.fin (5404319552844595 / 18014398509481984)) = some n ∧
        rawToVolts n = .fin v ∧ |v - 5404319552844595 / 18014398509481984| < 1 / 800) ∧
    (∃ v : ℚ, rawToAmps (-800) = .fin v ∧ |v - (-1)| < 1 / 800) ∧
    (∃ (n : Nat) (v : ℚ),
      wattsToRaw (.fin (5404319552844595 / 18014398509481984)) = some n ∧
        rawToWatts n = .fin v ∧ |v - 5404319552844595 / 18014398509481984| < 1 / 100) :=
  ⟨roundtrip_within_lsb.1 (5404319552844595 / 18014398509481984) (by decide!) (by norm_num)
      (by norm_num),
    roundtrip_within_lsb.2.1 (-1) (-800) (by decide!) (by decide!),
    roundtrip_within_lsb.2.2.2 (5404319552844595 / 18014398509481984) (by decide!)
      (by norm_num) (by norm_num)⟩

/-- C10: after a successful two-byte read `[b0, b1]`, `readCurrentRegisterInAmps` (register
`0x01`) yields `signed16((b0 << 8) | b1) * 1.25 / 1000`, with words from `0x8000` on read as
negative; `readBusVoltageRegisterInVolts` (register `0x02`) and `readPowerRegisterInWatts`
(register `0x03`) yield the unsigned word times `1.25 / 1000` and `10 / 1000`.  The scaled
values are `double`s: the nearest to the exact quotient. -/
theorem read_in_units (self : Device) (value : Double) (b0 b1 : Nat) (Wire : TwoWire)
    (haddr : self.addr < 256) (h0 : b0 < 256) (h1 : b1 < 256) :
    (Wire.slave (Wire.calls ++ selectAndRequest self 0x01) self.addr 2 = [b0, b1] →
      readCurrentRegisterInAmps self value Wire =
        (true,
          .fin (binary64.roundQ
            (((if (b0 <<< 8) ||| b1 < 0x8000 then (((b0 <<< 8) ||| b1 : Nat) : Int)
              else (((b0 <<< 8) ||| b1 : Nat) : Int) - 65536 : Int) : ℚ) * (5 / 4) / 1000)),
          { Wire with
            calls := Wire.calls ++ selectAndRequest self 0x01 ++ [.available, .read, .read]
            rxBuffer := [] })) ∧
    (Wire.slave (Wire.calls ++ selectAndRequest self 0x02) self.addr 2 = [b0, b1] →
      readBusVoltageRegisterInVolts self value Wire =
        (true,
          .fin (binary64.roundQ ((((b0 <<< 8) ||| b1 : Nat) : ℚ) * (5 / 4) / 1000)),
          { Wire with
            calls := Wire.calls ++ selectAndRequest self 0x02 ++ [.available, .read, .read]
            rxBuffer := [] })) ∧
    (Wire.slave (Wire.calls ++ selectAndRequest self 0x03) self.addr 2 = [b0, b1] →
      readPowerRegisterInWatts self value Wire =
        (true,
          .fin (binary64.roundQ ((((b0 <<< 8) ||| b1 : Nat) : ℚ) * 10 / 1000)),
          { Wire with
            calls := Wire.calls ++ selectAndRequest self 0x03 ++ [.available, .read, .read]
            rxBuffer := [] })) := by
  have hw := word_lt b0 b1 h0 h1
  refine ⟨?_, ?_, ?_⟩
  · intro hbus
    have hr := readRegister_two_bytes self CURRENT_REGISTER 0 b0 b1 Wire haddr (by decide) h0 h1
      hbus
    have hrange := toInt16_range ((b0 <<< 8) ||| b1)
    unfold readCurrentRegisterInAmps readCurrentRegister
    simp only [hr, if_true]
    rw [rawToAmps_eq _ (abs_le.mpr ⟨by omega, by omega⟩), toInt16_eq _ hw]
    rfl
  · intro hbus
    have hr := readRegister_two_bytes self BUS_VOLTAGE_REGISTER 0 b0 b1 Wire haddr (by decide)
      h0 h1 hbus
    unfold readBusVoltageRegisterInVolts readBusVoltageRegister
    simp only [hr, if_true]
    rw [rawToVolts_eq _ hw.le]
    rfl
  · intro hbus
    have hr := readRegister_two_bytes self POWER_REGISTER 0 b0 b1 Wire haddr (by decide)
      h0 h1 hbus
    unfold readPowerRegisterInWatts readPowerRegister
    simp only [hr, if_true]
    rw [rawToWatts_eq _ hw.le]
    rfl

/-- Witness for C10: the bytes `[0xFC, 0xE0]` from the current register give `-1.0` A. -/
theorem read_in_units_witness :
    (readCurrentRegisterInAmps (INA260 0) (.fin 0) (constWire 0 [0xFC, 0xE0])).1 = true ∧
    (readCurrentRegisterInAmps (INA260 0) (.fin 0) (constWire 0 [0xFC, 0xE0])).2.1 =
      .fin (-1) :=
  have h := (read_in_units (INA260 0) (.fin 0) 0xFC 0xE0 (constWire 0 [0xFC, 0xE0])
    (by decide) (by decide) (by decide)).1 rfl
  ⟨by rw [h], by rw [h]; decide!⟩

/-! ### Decoded reads and failure propagation -/

/-- A successful `readRegister` leaves a 16-bit word in `value`. -/
theorem readRegister_value_lt (self : Device) (reg value : Nat) (Wire : TwoWire)
    (h : (readRegister self reg value Wire).1 = true) :
    (readRegister self reg value Wire).2.1 < 65536 := by
  unfold readRegister at h ⊢
  simp only [] at h ⊢
  split_ifs at h ⊢ with hn
  exact Nat.mod_lt _ (by decide)

/-- A shifted high part and a low part that fits below it combine by addition. -/
theorem shiftLeft_or_eq (a b k : Nat) (hb : b < 2 ^ k) : (a <<< k) ||| b = a * 2 ^ k + b := by
  rw [Nat.shiftLeft_eq, Nat.mul_comm a, Nat.mul_add_lt_is_or hb]

/-- Masking with `0xFF` keeps the low byte. -/
theorem and_ff (n : Nat) : n &&& 0xFF = n % 256 :=
  Nat.and_pow_two_sub_one_eq_mod n 8

/-- The two data bytes of a 16-bit word, most significant first, give the word back. -/
theorem bytes_word (v : Nat) (hv : v < 65536) :
    (((v >>> 8) &&& 0xFF) <<< 8) ||| (v &&& 0xFF) = v := by
  have h1 : v &&& 0xFF < 2 ^ 8 := by rw [and_ff]; omega
  rw [shiftLeft_or_eq _ _ 8 h1, and_ff, and_ff, Nat.shiftRight_eq_div_pow]
  omega

/-- C11: when the underlying register read fails, every unit-converted or decoded read
accessor returns `false` and hands the caller's output back unchanged: the `double` of the
six unit-converted reads and all three characters of the manufacturer string. -/
theorem failure_propagates (self : Device) (value : Double) (mfgStr : Nat × Nat × Nat)
    (Wire : TwoWire) :
    ((readRegister self CURRENT_REGISTER 0 Wire).1 = false →
      (readCurrentRegisterInAmps self value Wire).1 = false ∧
      (readCurrentRegisterInAmps self value Wire).2.1 = value) ∧
    ((readRegister self BUS_VOLTAGE_REGISTER 0 Wire).1 = false →
      (readBusVoltageRegisterInVolts self value Wire).1 = false ∧
      (readBusVoltageRegisterInVolts self value Wire).2.1 = value) ∧
    ((readRegister self POWER_REGISTER 0 Wire).1 = false →
      (readPowerRegisterInWatts self value Wire).1 = false ∧
      (readPowerRegisterInWatts self value Wire).2.1 = value) ∧
    ((readRegister self ALERT_LIMIT_REGISTER 0 Wire).1 = false →
      ((readAlertLimitRegisterInAmps self value Wire).1 = false ∧
        (readAlertLimitRegisterInAmps self value Wire).2.1 = value) ∧
      ((readAlertLimitRegisterInVolts self value Wire).1 = false ∧
        (readAlertLimitRegisterInVolts self value Wire).2.1 = value) ∧
      ((readAlertLimitRegisterInWatts self value Wire).1 = false ∧
        (readAlertLimitRegisterInWatts self value Wire).2.1 = value)) ∧
    ((readRegister self MANUFACTURER_ID_REGISTER 0 Wire).1 = false →
      (readManufacturerIdRegister self mfgStr Wire).1 = false ∧
      (readManufacturerIdRegister self mfgStr Wire).2.1 = mfgStr) := by
  refine ⟨?_, ?_, ?_, ?_, ?_⟩
  · intro h
    simp [readCurrentRegisterInAmps, readCurrentRegister, h]
  · intro h
    simp [readBusVoltageRegisterInVolts, readBusVoltageRegister, h]
  · intro h
    simp [readPowerRegisterInWatts, readPowerRegister, h]
  · intro h
    simp [readAlertLimitRegisterInAmps, readAlertLimitRegisterInVolts,
      readAlertLimitRegisterInWatts, readAlertLimitRegister, h]
  · intro h
    simp [readManufacturerIdRegister, h]

/-- Witness for C11: a bus that delivers a single byte; the caller's `2.5` and the buffer
`"??!"` are handed back. -/
theorem failure_propagates_witness :
    (readRegister (INA260 0) ALERT_LIMIT_REGISTER 0 (constWire 0 [0x12])).1 = false ∧
    (readAlertLimitRegisterInAmps (INA260 0) (.fin (5 / 2)) (constWire 0 [0x12])).1 = false ∧
    (readAlertLimitRegisterInAmps (INA260 0) (.fin (5 / 2)) (constWire 0 [0x12])).2.1 =
      .fin (5 / 2) ∧
    (readManufacturerIdRegister (INA260 0) (0x3F, 0x3F, 0x21) (constWire 0 [0x12])).2.1 =
      (0x3F, 0x3F, 0x21) :=
  ⟨by decide,
    ((failure_propagates (INA260 0) (.fin (5 / 2)) (0x3F, 0x3F, 0x21)
      (constWire 0 [0x12])).2.2.2.1 (by decide)).1.1,
    ((failure_propagates (INA260 0) (.fin (5 / 2)) (0x3F, 0x3F, 0x21)
      (constWire 0 [0x12])).2.2.2.1 (by decide)).1.2,
    ((failure_propagates (INA260 0) (.fin (5 / 2)) (0x3F, 0x3F, 0x21)
      (constWire 0 [0x12])).2.2.2.2 (by decide)).2⟩

/-- C12: after a successful read of the word `w` from the manufacturer-ID register `0xFE`,
the buffer holds the high byte `(w >> 8) & 0xFF`, the low byte `w & 0xFF` and the
terminator `0`, whatever it held before. -/
theorem manufacturer_id_decode (self : Device) (mfgStr : Nat × Nat × Nat) (Wire : TwoWire)
    (h : (readRegister self MANUFACTURER_ID_REGISTER 0 Wire).1 = true) :
    MANUFACTURER_ID_REGISTER = 0xFE ∧
    (readManufacturerIdRegister self mfgStr Wire).1 = true ∧
    (readManufacturerIdRegister self mfgStr Wire).2.1 =
      (((readRegister self MANUFACTURER_ID_REGISTER 0 Wire).2.1 >>> 8) &&& 0xFF,
        (readRegister self MANUFACTURER_ID_REGISTER 0 Wire).2.1 &&& 0xFF, 0) ∧
    (readManufacturerIdRegister self mfgStr Wire).2.2 =
      (readRegister self MANUFACTURER_ID_REGISTER 0 Wire).2.2 := by
  have e1 : ∀ n : Nat, toUInt8 (n &&& 0xFF) = n &&& 0xFF := fun n =>
    Nat.mod_eq_of_lt (lt_of_le_of_lt Nat.and_le_right (by decide))
  refine ⟨rfl, ?_, ?_, ?_⟩
  · simp [readManufacturerIdRegister, h]
  · simp only [readManufacturerIdRegister, h, if_true, e1]
  · simp [readManufacturerIdRegister, h]

/-- Witness for C12: the word `0x5449` decodes to the string `"TI"`. -/
theorem manufacturer_id_decode_witness :
    (readRegister (INA260 0) MANUFACTURER_ID_REGISTER 0 (constWire 0 [0x54, 0x49])).2.1 =
      0x5449 ∧
    (readManufacturerIdRegister (INA260 0) (0, 0, 0) (constWire 0 [0x54, 0x49])).2.1 =
      (0x54, 0x49, 0) ∧
    String.mk [Char.ofNat 0x54, Char.ofNat 0x49] = "TI" :=
  ⟨by decide,
    ((manufacturer_id_decode (INA260 0) (0, 0, 0) (constWire 0 [0x54, 0x49])
      (by decide)).2.2.1).trans (by decide),
    by decide⟩

/-- C16: a successful `readDieIdRegister` reads register `0xFF` into `rawValue`; for the
16-bit word `w` it leaves there the view gives the 4-bit revision `rid = w & 0xF` and the
12-bit die ID `did = w >> 4`, and `w = (did << 4) | rid`. -/
theorem die_id_split (self : Device) (reg : DieIdRegister) (Wire : TwoWire)
    (h : (readDieIdRegister self reg Wire).1 = true) :
    DIE_ID_REGISTER = 0xFF ∧
    (readDieIdRegister self reg Wire).2.1.rawValue =
      (readRegister self DIE_ID_REGISTER reg.rawValue Wire).2.1 ∧
    (readDieIdRegister self reg Wire).2.1.rawValue < 65536 ∧
    (readDieIdRegister self reg Wire).2.1.rid =
      (readDieIdRegister self reg Wire).2.1.rawValue &&& 0xF ∧
    (readDieIdRegister self reg Wire).2.1.did =
      (readDieIdRegister self reg Wire).2.1.rawValue >>> 4 ∧
    (readDieIdRegister self reg Wire).2.1.rid < 16 ∧
    (readDieIdRegister self reg Wire).2.1.did < 4096 ∧
    (readDieIdRegister self reg Wire).2.1.rawValue =
      ((readDieIdRegister self reg Wire).2.1.did <<< 4) |||
        (readDieIdRegister self reg Wire).2.1.rid := by
  have hlt : (readRegister self DIE_ID_REGISTER reg.rawValue Wire).2.1 < 65536 :=
    readRegister_value_lt self DIE_ID_REGISTER reg.rawValue Wire h
  have hraw : (readDieIdRegister self reg Wire).2.1.rawValue =
      (readRegister self DIE_ID_REGISTER reg.rawValue Wire).2.1 := rfl
  generalize (readRegister self DIE_ID_REGISTER reg.rawValue Wire).2.1 = v at hlt hraw
  generalize (readDieIdRegister self reg Wire).2.1 = r at hraw
  obtain ⟨w⟩ := r
  simp only at hraw
  subst hraw
  have hand : w &&& 0xF = w % 16 := Nat.and_pow_two_sub_one_eq_mod w 4
  have hrid : (DieIdRegister.mk w).rid = w % 16 := by
    simp [DieIdRegister.rid, getBits]
  have hdid : (DieIdRegister.mk w).did = w / 16 := by
    simp only [DieIdRegister.did, getBits, Nat.shiftRight_eq_div_pow]
    omega
  refine ⟨rfl, rfl, hlt, ?_, ?_, ?_, ?_, ?_⟩
  · rw [hrid, hand]
  · rw [hdid, Nat.shiftRight_eq_div_pow]
  · rw [hrid]; omega
  · rw [hdid]; omega
  · rw [hrid, hdid, shiftLeft_or_eq _ _ 4 (by omega)]
    simp only []
    omega

/-- Witness for C16: the word `0x2270` splits into die ID `0x227` and revision `0`. -/
theorem die_id_split_witness :
    (readDieIdRegister (INA260 0) ⟨0⟩ (constWire 0 [0x22, 0x70])).2.1.rawValue = 0x2270 ∧
    (readDieIdRegister (INA260 0) ⟨0⟩ (constWire 0 [0x22, 0x70])).2.1.did = 0x227 ∧
    (readDieIdRegister (INA260 0) ⟨0⟩ (constWire 0 [0x22, 0x70])).2.1.rid = 0 :=
  have h := die_id_split (INA260 0) ⟨0⟩ (constWire 0 [0x22, 0x70]) (by decide)
  have hr : (readDieIdRegister (INA260 0) ⟨0⟩ (constWire 0 [0x22, 0x70])).2.1.rawValue =
      0x2270 := h.2.1.trans (by decide)
  ⟨hr, by rw [h.2.2.2.2.1, hr]; decide, by rw [h.2.2.2.1, hr]; decide⟩

/-- C18: `writeRegister reg v` emits, after the select byte, the data bytes
`(v >> 8) & 0xFF` and `v & 0xFF`; when a transport returns these two bytes to
`readRegister reg`, the read succeeds with exactly `v`. -/
theorem write_read_inverse (self : Device) (reg v value : Nat) (W1 W2 : TwoWire)
    (haddr : self.addr < 256) (hreg : reg < 256) (hv : v < 65536) :
    (writeRegister self reg v W1).2.calls =
      W1.calls ++ [.beginTransmission self.addr, .write reg, .write ((v >>> 8) &&& 0xFF),
        .write (v &&& 0xFF), .endTransmission] ∧
    (W2.slave (W2.calls ++ selectAndRequest self reg) self.addr 2 =
        [(v >>> 8) &&& 0xFF, v &&& 0xFF] →
      (readRegister self reg value W2).1 = true ∧
      (readRegister self reg value W2).2.1 = v) := by
  constructor
  · rw [writeRegister_spec self reg v W1 haddr hreg]
    rfl
  · intro hbus
    have h0 : (v >>> 8) &&& 0xFF < 256 := lt_of_le_of_lt Nat.and_le_right (by decide)
    have h1 : v &&& 0xFF < 256 := lt_of_le_of_lt Nat.and_le_right (by decide)
    rw [readRegister_two_bytes self reg value _ _ W2 haddr hreg h0 h1 hbus]
    exact ⟨rfl, bytes_word v hv⟩

/-- Witness for C18: the word `0xFCE0` written to and read back from register `0x07`. -/
theorem write_read_inverse_witness :
    (writeRegister (INA260 0) 0x07 0xFCE0 (constWire 0 [])).2.calls =
      [.beginTransmission 0x40, .write 0x07, .write 0xFC, .write 0xE0, .endTransmission] ∧
    (readRegister (INA260 0) 0x07 0 (constWire 0 [0xFC, 0xE0])).2.1 = 0xFCE0 :=
  ⟨((write_read_inverse (INA260 0) 0x07 0xFCE0 0 (constWire 0 []) (constWire 0 [0xFC, 0xE0])
      (by decide) (by decide) (by decide)).1).trans (by decide),
    ((write_read_inverse (INA260 0) 0x07 0xFCE0 0 (constWire 0 []) (constWire 0 [0xFC, 0xE0])
      (by decide) (by decide) (by decide)).2 (by decide)).2⟩

/-- C19: the status that `endTransmission` reports for the register-select transaction
does not enter the result of `readRegister`: transports to which the bus delivers the same
bytes give the same flag and value, in particular a transport and the same transport with
any other status behaviour; and a read whose select write reported a bus error still
succeeds when two bytes are available. -/
theorem readRegister_ignores_select_status (self : Device) (reg value : Nat)
    (W1 W2 : TwoWire) (haddr : self.addr < 256) (hreg : reg < 256) :
    (W1.slave (W1.calls ++ selectAndRequest self reg) self.addr 2 =
        W2.slave (W2.calls ++ selectAndRequest self reg) self.addr 2 →
      (readRegister self reg value W1).1 = (readRegister self reg value W2).1 ∧
      (readRegister self reg value W1).2.1 = (readRegister self reg value W2).2.1) ∧
    (∀ status : List WireCall → Nat,
      (readRegister self reg value { W1 with endStatus := status }).1 =
        (readRegister self reg value W1).1 ∧
      (readRegister self reg value { W1 with endStatus := status }).2.1 =
        (readRegister self reg value W1).2.1) ∧
    (∀ b0 b1 : Nat, b0 < 256 → b1 < 256 →
      ((W1.beginTransmission self.addr).write reg).endTransmission.1 ≠ 0 →
      W1.slave (W1.calls ++ selectAndRequest self reg) self.addr 2 = [b0, b1] →
      (readRegister self reg value W1).1 = true ∧
      (readRegister self reg value W1).2.1 = (b0 <<< 8) ||| b1) := by
  have key : ∀ Wa Wb : TwoWire,
      Wa.slave (Wa.calls ++ selectAndRequest self reg) self.addr 2 =
        Wb.slave (Wb.calls ++ selectAndRequest self reg) self.addr 2 →
      (readRegister self reg value Wa).1 = (readRegister self reg value Wb).1 ∧
      (readRegister self reg value Wa).2.1 = (readRegister self reg value Wb).2.1 := by
    intro Wa Wb hs
    rw [readRegister_unfold self reg value Wa haddr hreg,
      readRegister_unfold self reg value Wb haddr hreg, hs]
    split_ifs with hlen
    · simp only [TwoWire.read, TwoWire.record]
      generalize Wb.slave (Wb.calls ++ selectAndRequest self reg) self.addr 2 = l at hlen
      match l, hlen with
      | [a, b], _ => simp
    · simp
  refine ⟨key W1 W2, fun status => key _ _ rfl, ?_⟩
  intro b0 b1 h0 h1 _ hbus
  rw [readRegister_two_bytes self reg value b0 b1 W1 haddr hreg h0 h1 hbus]
  exact ⟨rfl, rfl⟩

/-- Witness for C19: a bus that answers the select write with status 2 (address NACK) and
still delivers two bytes. -/
theorem readRegister_ignores_select_status_witness :
    (((constWire 2 [0x12, 0x34]).beginTransmission 0x40).write 0x01).endTransmission.1 = 2 ∧
    (readRegister (INA260 0) 0x01 0 (constWire 2 [0x12, 0x34])).1 = true ∧
    (readRegister (INA260 0) 0x01 0 (constWire 2 [0x12, 0x34])).2.1 = 0x1234 ∧
    (readRegister (INA260 0) 0x01 0 (constWire 2 [0x12, 0x34])).1 =
      (readRegister (INA260 0) 0x01 0 (constWire 0 [0x12, 0x34])).1 :=
  ⟨by decide,
    ((readRegister_ignores_select_status (INA260 0) 0x01 0 (constWire 2 [0x12, 0x34])
      (constWire 0 [0x12, 0x34]) (by decide) (by decide)).2.2 0x12 0x34 (by decide) (by decide)
      (by decide) (by decide)).1,
    (((readRegister_ignores_select_status (INA260 0) 0x01 0 (constWire 2 [0x12, 0x34])
      (constWire 0 [0x12, 0x34]) (by decide) (by decide)).2.2 0x12 0x34 (by decide) (by decide)
      (by decide) (by decide)).2).trans (by decide),
    ((readRegister_ignores_select_status (INA260 0) 0x01 0 (constWire 2 [0x12, 0x34])
      (constWire 0 [0x12, 0x34]) (by decide) (by decide)).1 (by decide)).1⟩

/-! ### Start-up -/

/-- The transport after `reset`: one write transaction of `0x8000` to register `0x00`. -/
theorem reset_wire (self : Device) (Wire : TwoWire) (haddr : self.addr < 256) :
    (reset self Wire).2 =
      { Wire with
        calls := Wire.calls ++ [.beginTransmission self.addr, .write 0x00, .write 0x80,
          .write 0x00, .endTransmission] } := by
  have h : reset self Wire = writeRegister self CONFIGURATION_REGISTER 0x8000 Wire := by
    simp only [reset, writeConfigurationRegister]
    rfl
  have ht : writeTransaction self CONFIGURATION_REGISTER 0x8000 =
      [.beginTransmission self.addr, .write 0x00, .write 0x80, .write 0x00,
        .endTransmission] := by
    simp only [writeTransaction, CONFIGURATION_REGISTER]
    have e1 : (0x8000 >>> 8) &&& 0xFF = 0x80 := by decide
    have e2 : 0x8000 &&& 0xFF = 0x00 := by decide
    rw [e1, e2]
  rw [h, writeRegister_spec self CONFIGURATION_REGISTER 0x8000 Wire haddr (by decide), ht]

/-- One `begin` call: the latch is set, `Wire.begin()` is called only when the latch was
clear, and the reset write follows. -/
theorem begin_spec (self : Device) (g : Globals) (haddr : self.addr < 256) :
    (begin self g).wireInitialized = true ∧
    (begin self g).Wire.calls =
      g.Wire.calls ++ (if g.wireInitialized = true then [] else [WireCall.begin]) ++
        [.beginTransmission self.addr, .write 0x00, .write 0x80, .write 0x00,
          .endTransmission] := by
  unfold begin
  cases hg : g.wireInitialized
  · simp [reset_wire _ _ haddr, TwoWire.begin, TwoWire.record]
  · simp [reset_wire _ _ haddr, hg]

/-- The log after a sequence of `begin` calls from any state of the latch. -/
theorem beginAll_calls : ∀ (handles : List Device) (g : Globals),
    (∀ d ∈ handles, d.addr < 256) →
    (beginAll handles g).Wire.calls =
      g.Wire.calls ++
        (if g.wireInitialized = true ∨ handles = [] then [] else [WireCall.begin]) ++
        resetWrites handles
  | [], g, _ => by simp [beginAll, resetWrites]
  | d :: rest, g, h => by
    have hd : d.addr < 256 := h d (List.mem_cons_self d rest)
    have hrest : ∀ x ∈ rest, x.addr < 256 := fun x hx => h x (List.mem_cons_of_mem d hx)
    have ih := beginAll_calls rest (begin d g) hrest
    have hb := begin_spec d g hd
    have hstep : beginAll (d :: rest) g = beginAll rest (begin d g) := rfl
    rw [hstep, ih, hb.1, hb.2]
    simp [resetWrites]

/-- The latch after a sequence of `begin` calls. -/
theorem beginAll_latch : ∀ (handles : List Device) (g : Globals),
    (∀ d ∈ handles, d.addr < 256) → handles ≠ [] →
    (beginAll handles g).wireInitialized = true
  | [], _, _, hne => absurd rfl hne
  | [d], g, h, _ => (begin_spec d g (h d (List.mem_cons_self d []))).1
  | d :: e :: rest, g, h, _ => by
    have hrest : ∀ x ∈ e :: rest, x.addr < 256 := fun x hx => h x (List.mem_cons_of_mem d hx)
    exact beginAll_latch (e :: rest) (begin d g) hrest (List.cons_ne_nil e rest)

/-- Reset writes contain no `Wire.begin()`. -/
theorem resetWrites_count (handles : List Device) :
    (resetWrites handles).count WireCall.begin = 0 := by
  rw [List.count_eq_zero]
  intro hmem
  simp [resetWrites, List.mem_flatMap] at hmem

/-- C13: over a sequence of one or more `begin` calls on any handles, started with the
latch clear, `Wire.begin()` is called exactly once, in the first call and before that
call's reset write; every call, first or later, issues the reset write (`0x8000` to
register `0x00`) to the address of its own handle, and nothing else is sent. -/
theorem begin_initialises_once (handles : List Device) (Wire : TwoWire)
    (hne : handles ≠ []) (haddr : ∀ d ∈ handles, d.addr < 256) :
    (beginAll handles (Globals.start Wire)).Wire.calls =
      Wire.calls ++ [WireCall.begin] ++ resetWrites handles ∧
    (beginAll handles (Globals.start Wire)).Wire.calls.count WireCall.begin =
      Wire.calls.count WireCall.begin + 1 ∧
    (beginAll handles (Globals.start Wire)).wireInitialized = true ∧
    (∀ self ∈ handles,
      (begin self (Globals.start Wire)).Wire.calls =
        Wire.calls ++ [.begin, .beginTransmission self.addr, .write 0x00, .write 0x80,
          .write 0x00, .endTransmission]) ∧
    (∀ self ∈ handles, ∀ g : Globals, g.wireInitialized = true →
      (begin self g).Wire.calls =
        g.Wire.calls ++ [.beginTransmission self.addr, .write 0x00, .write 0x80,
          .write 0x00, .endTransmission]) := by
  have hc := beginAll_calls handles (Globals.start Wire) haddr
  have hc2 : (beginAll handles (Globals.start Wire)).Wire.calls =
      Wire.calls ++ [WireCall.begin] ++ resetWrites handles := by
    rw [hc]
    simp [Globals.start, hne]
  refine ⟨hc2, ?_, beginAll_latch handles _ haddr hne, ?_, ?_⟩
  · rw [hc2, List.count_append, List.count_append, resetWrites_count]
    simp
  · intro self hs
    rw [(begin_spec self (Globals.start Wire) (haddr self hs)).2]
    simp [Globals.start]
  · intro self hs g hg
    rw [(begin_spec self g (haddr self hs)).2, hg]
    simp

/-- Witness for C13: `begin` on the handles at `0x40`, `0x45` and again `0x40`. -/
theorem begin_initialises_once_witness :
    (beginAll [INA260 0, INA260 5, INA260 0] (Globals.start (constWire 0 []))).Wire.calls =
      [.begin,
        .beginTransmission 0x40, .write 0x00, .write 0x80, .write 0x00, .endTransmission,
        .beginTransmission 0x45, .write 0x00, .write 0x80, .write 0x00, .endTransmission,
        .beginTransmission 0x40, .write 0x00, .write 0x80, .write 0x00, .endTransmission] :=
  ((begin_initialises_once [INA260 0, INA260 5, INA260 0] (constWire 0 []) (by decide)
    (by decide)).1).trans (by decide)

/-! ### Register views -/

/-- Bits of a bit-field read. -/
theorem testBit_getBits (raw off width i : Nat) :
    (getBits raw off width).testBit i = (decide (i < width) && raw.testBit (off + i)) := by
  unfold getBits
  rw [Nat.testBit_mod_two_pow, Nat.testBit_shiftRight]

/-- Bits of a word after a bit-field assignment: the bits of the field are those of the
assigned value, every other bit of the 16-bit word is kept. -/
theorem testBit_setBits (raw off width v i : Nat) :
    (setBits raw off width v).testBit i =
      (decide (i < 16) &&
        (if off ≤ i ∧ i < off + width then v.testBit (i - off) else raw.testBit i)) := by
  unfold setBits toUInt16
  have h16 : (65536 : Nat) = 2 ^ 16 := by norm_num
  rw [h16, Nat.testBit_mod_two_pow, Nat.testBit_xor, Nat.testBit_shiftLeft, Nat.testBit_xor,
    testBit_getBits, Nat.testBit_mod_two_pow]
  by_cases h1 : off ≤ i
  · by_cases h2 : i < off + width
    · have h3 : i - off < width := by omega
      have h4 : off + (i - off) = i := by omega
      simp [h1, h2, h3, h4]
    · have h3 : ¬ i - off < width := by omega
      simp [h1, h2, h3]
  · have h1' : ¬ i ≥ off := h1
    simp [h1, h1']

/-- A bit-field assignment yields a 16-bit word. -/
theorem setBits_lt (raw off width v : Nat) : setBits raw off width v < 65536 := by
  unfold setBits toUInt16
  exact Nat.mod_lt _ (by decide)

/-- Reading back the assigned bit-field gives the value truncated to the field width. -/
theorem getBits_setBits_same (raw off width v : Nat) (h : off + width ≤ 16) :
    getBits (setBits raw off width v) off width = v % 2 ^ width := by
  apply Nat.eq_of_testBit_eq
  intro i
  rw [testBit_getBits, testBit_setBits, Nat.testBit_mod_two_pow]
  by_cases hi : i < width
  · have h1 : off + i < 16 := by omega
    have h2 : off ≤ off + i ∧ off + i < off + width := ⟨by omega, by omega⟩
    have h3 : off + i - off = i := by omega
    simp [hi, h1, h2, h3]
  · simp [hi]

/-- Assigning one bit-field does not change a disjoint bit-field of the 16-bit word. -/
theorem getBits_setBits_other (raw off width v off2 width2 : Nat) (h16 : off2 + width2 ≤ 16)
    (hdis : off2 + width2 ≤ off ∨ off + width ≤ off2) :
    getBits (setBits raw off width v) off2 width2 = getBits raw off2 width2 := by
  apply Nat.eq_of_testBit_eq
  intro i
  rw [testBit_getBits, testBit_getBits, testBit_setBits]
  by_cases hi : i < width2
  · have h1 : off2 + i < 16 := by omega
    have h2 : ¬ (off ≤ off2 + i ∧ off2 + i < off + width) := by omega
    simp [hi, h1, h2]
  · simp [hi]

/-- A bit of a word as a one-bit field. -/
theorem getBits_one (raw i : Nat) : getBits raw i 1 = if raw.testBit i then 1 else 0 := by
  unfold getBits
  rw [Nat.testBit, Nat.one_and_eq_mod_two]
  simp only [pow_one]
  have h := Nat.mod_two_eq_zero_or_one (raw >>> i)
  rcases h with h | h <;> simp [h]

/-- A low part and a shifted high part above it combine by addition. -/
theorem or_shiftLeft_eq (x y k : Nat) (hx : x < 2 ^ k) : x ||| (y <<< k) = x + y * 2 ^ k := by
  rw [Nat.or_comm, shiftLeft_or_eq y x k hx, Nat.add_comm]

/-- A 16-bit word is the sum of the six bit groups of the configuration register. -/
theorem configuration_decomp (w : Nat) (hw : w < 65536) :
    w = getBits w 0 3 + 8 * getBits w 3 3 + 64 * getBits w 6 3 + 512 * getBits w 9 3 +
      4096 * getBits w 12 3 + 32768 * getBits w 15 1 := by
  unfold getBits
  simp only [Nat.shiftRight_eq_div_pow]
  norm_num
  omega

/-- The shift-and-or expression of the five fields as a sum. -/
theorem configuration_or_eq (m i v a r : Nat) (hm : m < 8) (hi : i < 8) (hv : v < 8)
    (ha : a < 8) :
    m ||| (i <<< 3) ||| (v <<< 6) ||| (a <<< 9) ||| (r <<< 15) =
      m + 8 * i + 64 * v + 512 * a + 32768 * r := by
  rw [or_shiftLeft_eq m i 3 (by omega)]
  rw [or_shiftLeft_eq _ v 6 (by omega)]
  rw [or_shiftLeft_eq _ a 9 (by omega)]
  rw [or_shiftLeft_eq _ r 15 (by omega)]
  omega

/-- A bit-field read fits the field width. -/
theorem getBits_lt (raw off width : Nat) : getBits raw off width < 2 ^ width :=
  Nat.mod_lt _ (Nat.pos_pow_of_pos width (by decide))

/-- Fields of a packed configuration register. -/
theorem pack_fields (m i v a r : Nat) :
    (ConfigurationRegister.pack m i v a r).mode = m % 8 ∧
    (ConfigurationRegister.pack m i v a r).ishct = i % 8 ∧
    (ConfigurationRegister.pack m i v a r).vbusct = v % 8 ∧
    (ConfigurationRegister.pack m i v a r).avg = a % 8 ∧
    (ConfigurationRegister.pack m i v a r).rst = r % 2 ∧
    getBits (ConfigurationRegister.pack m i v a r).rawValue 12 3 = 0 ∧
    (ConfigurationRegister.pack m i v a r).rawValue < 65536 := by
  simp only [ConfigurationRegister.pack, ConfigurationRegister.mode,
    ConfigurationRegister.ishct, ConfigurationRegister.vbusct, ConfigurationRegister.avg,
    ConfigurationRegister.rst, ConfigurationRegister.setMode, ConfigurationRegister.setIshct,
    ConfigurationRegister.setVbusct, ConfigurationRegister.setAvg,
    ConfigurationRegister.setRst, ConfigurationRegister.zero]
  refine ⟨?_, ?_, ?_, ?_, ?_, ?_, setBits_lt _ _ _ _⟩
  · rw [getBits_setBits_other _ _ _ _ _ _ (by omega) (by omega),
      getBits_setBits_other _ _ _ _ _ _ (by omega) (by omega),
      getBits_setBits_other _ _ _ _ _ _ (by omega) (by omega),
      getBits_setBits_other _ _ _ _ _ _ (by omega) (by omega),
      getBits_setBits_same _ _ _ _ (by omega)]
    rfl
  · rw [getBits_setBits_other _ _ _ _ _ _ (by omega) (by omega),
      getBits_setBits_other _ _ _ _ _ _ (by omega) (by omega),
      getBits_setBits_other _ _ _ _ _ _ (by omega) (by omega),
      getBits_setBits_same _ _ _ _ (by omega)]
    rfl
  · rw [getBits_setBits_other _ _ _ _ _ _ (by omega) (by omega),
      getBits_setBits_other _ _ _ _ _ _ (by omega) (by omega),
      getBits_setBits_same _ _ _ _ (by omega)]
    rfl
  · rw [getBits_setBits_other _ _ _ _ _ _ (by omega) (by omega),
      getBits_setBits_same _ _ _ _ (by omega)]
    rfl
  · rw [getBits_setBits_same _ _ _ _ (by omega)]
    rfl
  · rw [getBits_setBits_other _ _ _ _ _ _ (by omega) (by omega),
      getBits_setBits_other _ _ _ _ _ _ (by omega) (by omega),
      getBits_setBits_other _ _ _ _ _ _ (by omega) (by omega),
      getBits_setBits_other _ _ _ _ _ _ (by omega) (by omega),
      getBits_setBits_other _ _ _ _ _ _ (by omega) (by omega)]
    decide

/-- The word of a packed configuration register. -/
theorem pack_rawValue (m i v a r : Nat) (hm : m < 8) (hi : i < 8) (hv : v < 8) (ha : a < 8)
    (hr : r < 2) :
    (ConfigurationRegister.pack m i v a r).rawValue =
      m + 8 * i + 64 * v + 512 * a + 32768 * r := by
  obtain ⟨h1, h2, h3, h4, h5, h6, h7⟩ := pack_fields m i v a r
  have hd := configuration_decomp _ h7
  simp only [ConfigurationRegister.mode, ConfigurationRegister.ishct,
    ConfigurationRegister.vbusct, ConfigurationRegister.avg, ConfigurationRegister.rst]
    at h1 h2 h3 h4 h5
  rw [h1, h2, h3, h4, h5, h6] at hd
  omega

/-- C14: the bit-field view of the configuration register.  A 16-bit word whose reserved
bits 12..14 are zero is `mode | (ishct << 3) | (vbusct << 6) | (avg << 9) | (rst << 15)`
with four 3-bit fields and a 1-bit `rst`, and packing its fields gives the word back;
packing in-range field values and reading each field returns the same values; assigning
one field stores the value truncated to the field width and leaves every other field and
the reserved bits unchanged.  All enumerators of the four field types fit in 3 bits. -/
theorem configuration_fields_lossless :
    (∀ w : Nat, w < 65536 → getBits w 12 3 = 0 →
      (ConfigurationRegister.mk w).mode < 8 ∧
      (ConfigurationRegister.mk w).ishct < 8 ∧
      (ConfigurationRegister.mk w).vbusct < 8 ∧
      (ConfigurationRegister.mk w).avg < 8 ∧
      (ConfigurationRegister.mk w).rst < 2 ∧
      w = (ConfigurationRegister.mk w).mode ||| ((ConfigurationRegister.mk w).ishct <<< 3) |||
        ((ConfigurationRegister.mk w).vbusct <<< 6) |||
        ((ConfigurationRegister.mk w).avg <<< 9) |||
        ((ConfigurationRegister.mk w).rst <<< 15) ∧
      ConfigurationRegister.pack (ConfigurationRegister.mk w).mode
        (ConfigurationRegister.mk w).ishct (ConfigurationRegister.mk w).vbusct
        (ConfigurationRegister.mk w).avg (ConfigurationRegister.mk w).rst =
        ConfigurationRegister.mk w) ∧
    (∀ m i v a r : Nat, m < 8 → i < 8 → v < 8 → a < 8 → r < 2 →
      (ConfigurationRegister.pack m i v a r).rawValue =
        m ||| (i <<< 3) ||| (v <<< 6) ||| (a <<< 9) ||| (r <<< 15) ∧
      (ConfigurationRegister.pack m i v a r).mode = m ∧
      (ConfigurationRegister.pack m i v a r).ishct = i ∧
      (ConfigurationRegister.pack m i v a r).vbusct = v ∧
      (ConfigurationRegister.pack m i v a r).avg = a ∧
      (ConfigurationRegister.pack m i v a r).rst = r ∧
      getBits (ConfigurationRegister.pack m i v a r).rawValue 12 3 = 0) ∧
    (∀ (reg : ConfigurationRegister) (x : Nat),
      ((reg.setMode x).mode = x % 8 ∧ (reg.setMode x).ishct = reg.ishct ∧
        (reg.setMode x).vbusct = reg.vbusct ∧ (reg.setMode x).avg = reg.avg ∧
        (reg.setMode x).rst = reg.rst ∧
        getBits (reg.setMode x).rawValue 12 3 = getBits reg.rawValue 12 3) ∧
      ((reg.setIshct x).mode = reg.mode ∧ (reg.setIshct x).ishct = x % 8 ∧
        (reg.setIshct x).vbusct = reg.vbusct ∧ (reg.setIshct x).avg = reg.avg ∧
        (reg.setIshct x).rst = reg.rst ∧
        getBits (reg.setIshct x).rawValue 12 3 = getBits reg.rawValue 12 3) ∧
      ((reg.setVbusct x).mode = reg.mode ∧ (reg.setVbusct x).ishct = reg.ishct ∧
        (reg.setVbusct x).vbusct = x % 8 ∧ (reg.setVbusct x).avg = reg.avg ∧
        (reg.setVbusct x).rst = reg.rst ∧
        getBits (reg.setVbusct x).rawValue 12 3 = getBits reg.rawValue 12 3) ∧
      ((reg.setAvg x).mode = reg.mode ∧ (reg.setAvg x).ishct = reg.ishct ∧
        (reg.setAvg x).vbusct = reg.vbusct ∧ (reg.setAvg x).avg = x % 8 ∧
        (reg.setAvg x).rst = reg.rst ∧
        getBits (reg.setAvg x).rawValue 12 3 = getBits reg.rawValue 12 3) ∧
      ((reg.setRst x).mode = reg.mode ∧ (reg.setRst x).ishct = reg.ishct ∧
        (reg.setRst x).vbusct = reg.vbusct ∧ (reg.setRst x).avg = reg.avg ∧
        (reg.setRst x).rst = x % 2 ∧
        getBits (reg.setRst x).rawValue 12 3 = getBits reg.rawValue 12 3)) ∧
    ((∀ e : OperatingMode, e.val < 8) ∧ (∀ e : CurrentConversionTime, e.val < 8) ∧
      (∀ e : VoltageConversionTime, e.val < 8) ∧ (∀ e : AveragingMode, e.val < 8)) := by
  refine ⟨?_, ?_, ?_, ⟨by decide, by decide, by decide, by decide⟩⟩
  · intro w hw hres
    have hd := configuration_decomp w hw
    rw [hres] at hd
    have b1 : getBits w 0 3 < 8 := getBits_lt w 0 3
    have b2 : getBits w 3 3 < 8 := getBits_lt w 3 3
    have b3 : getBits w 6 3 < 8 := getBits_lt w 6 3
    have b4 : getBits w 9 3 < 8 := getBits_lt w 9 3
    have b5 : getBits w 15 1 < 2 := getBits_lt w 15 1
    simp only [ConfigurationRegister.mode, ConfigurationRegister.ishct,
      ConfigurationRegister.vbusct, ConfigurationRegister.avg, ConfigurationRegister.rst]
    refine ⟨b1, b2, b3, b4, b5, ?_, ?_⟩
    · rw [configuration_or_eq _ _ _ _ _ b1 b2 b3 b4]
      omega
    · have hp := pack_rawValue _ _ _ _ _ b1 b2 b3 b4 b5
      generalize ConfigurationRegister.pack (getBits w 0 3) (getBits w 3 3) (getBits w 6 3)
        (getBits w 9 3) (getBits w 15 1) = p at hp
      obtain ⟨raw⟩ := p
      simp only at hp
      rw [hp]
      congr 1
      omega
  · intro m i v a r hm hi hv ha hr
    obtain ⟨h1, h2, h3, h4, h5, h6, _⟩ := pack_fields m i v a r
    refine ⟨?_, ?_, ?_, ?_, ?_, ?_, h6⟩
    · rw [pack_rawValue m i v a r hm hi hv ha hr, configuration_or_eq m i v a r hm hi hv ha]
    · rw [h1]; omega
    · rw [h2]; omega
    · rw [h3]; omega
    · rw [h4]; omega
    · rw [h5]; omega
  · intro reg x
    simp only [ConfigurationRegister.mode, ConfigurationRegister.ishct,
      ConfigurationRegister.vbusct, ConfigurationRegister.avg, ConfigurationRegister.rst,
      ConfigurationRegister.setMode, ConfigurationRegister.setIshct,
      ConfigurationRegister.setVbusct, ConfigurationRegister.setAvg,
      ConfigurationRegister.setRst]
    refine ⟨⟨?_, ?_, ?_, ?_, ?_, ?_⟩, ⟨?_, ?_, ?_, ?_, ?_, ?_⟩, ⟨?_, ?_, ?_, ?_, ?_, ?_⟩,
      ⟨?_, ?_, ?_, ?_, ?_, ?_⟩, ⟨?_, ?_, ?_, ?_, ?_, ?_⟩⟩ <;>
    first
      | exact getBits_setBits_other _ _ _ _ _ _ (by omega) (by omega)
      | exact getBits_setBits_same _ _ _ _ (by omega)

/-- Witness for C14: the word `0x0127` (continuous shunt and bus, 1.1 ms, 1.1 ms, no
averaging) and its fields. -/
theorem configuration_fields_lossless_witness :
    (ConfigurationRegister.pack 7 4 4 0 0).rawValue = 0x0127 ∧
    (ConfigurationRegister.mk 0x0127).mode = 7 ∧
    ConfigurationRegister.pack (ConfigurationRegister.mk 0x0127).mode
      (ConfigurationRegister.mk 0x0127).ishct (ConfigurationRegister.mk 0x0127).vbusct
      (ConfigurationRegister.mk 0x0127).avg (ConfigurationRegister.mk 0x0127).rst =
      ConfigurationRegister.mk 0x0127 :=
  ⟨((configuration_fields_lossless.2.1 7 4 4 0 0 (by decide) (by decide) (by decide)
      (by decide) (by decide)).1).trans (by decide),
    by decide,
    (configuration_fields_lossless.1 0x0127 (by decide) (by decide)).2.2.2.2.2.2⟩

/-- Reading a named flag is reading the one-bit field at its position. -/
theorem maskEnable_get (r : MaskEnableRegister) (f : MaskEnableFlag) :
    r.get f = getBits r.rawValue f.bit 1 := by
  cases f <;> rfl

/-- Assigning a named flag is assigning the one-bit field at its position. -/
theorem maskEnable_set (r : MaskEnableRegister) (f : MaskEnableFlag) (x : Nat) :
    (r.set f x).rawValue = setBits r.rawValue f.bit 1 x := by
  cases f <;> rfl

/-- Positions of the named flags lie in the 16-bit word. -/
theorem maskEnable_bit_lt (f : MaskEnableFlag) : f.bit < 16 := by
  cases f <;> decide

/-- C15: the mask/enable view has 11 named one-bit flags at pairwise distinct positions
(len 0, apol 1, ovf 2, cvrf 3, aff 4, cnvr 10, pol 11, bul 12, bol 13, ucl 14, ocl 15); the
remaining bits of the word are exactly the 5 reserved bits 5..9.  For every 16-bit word,
assigning a named flag sets its bit to the assigned value and changes no other bit, hence
no other flag and no reserved bit. -/
theorem mask_enable_single_bit (w : Nat) (hw : w < 65536) (f : MaskEnableFlag) (x : Nat) :
    (Fintype.card MaskEnableFlag = 11 ∧
      Function.Injective MaskEnableFlag.bit ∧
      (MaskEnableFlag.len.bit = 0 ∧ MaskEnableFlag.apol.bit = 1 ∧ MaskEnableFlag.ovf.bit = 2 ∧
        MaskEnableFlag.cvrf.bit = 3 ∧ MaskEnableFlag.aff.bit = 4 ∧
        MaskEnableFlag.cnvr.bit = 10 ∧ MaskEnableFlag.pol.bit = 11 ∧
        MaskEnableFlag.bul.bit = 12 ∧ MaskEnableFlag.bol.bit = 13 ∧
        MaskEnableFlag.ucl.bit = 14 ∧ MaskEnableFlag.ocl.bit = 15) ∧
      (∀ i : Nat, i < 16 → ((∃ g : MaskEnableFlag, g.bit = i) ↔ ¬ (5 ≤ i ∧ i ≤ 9)))) ∧
    (∀ g : MaskEnableFlag,
      (MaskEnableRegister.mk w).get g = if w.testBit g.bit then 1 else 0) ∧
    ((MaskEnableRegister.mk w).set f x).rawValue < 65536 ∧
    ((MaskEnableRegister.mk w).set f x).get f = x % 2 ∧
    ((MaskEnableRegister.mk w).set f x).rawValue.testBit f.bit = x.testBit 0 ∧
    (∀ i : Nat, i ≠ f.bit →
      ((MaskEnableRegister.mk w).set f x).rawValue.testBit i = w.testBit i) ∧
    (∀ g : MaskEnableFlag, g ≠ f →
      ((MaskEnableRegister.mk w).set f x).get g = (MaskEnableRegister.mk w).get g) ∧
    getBits ((MaskEnableRegister.mk w).set f x).rawValue 5 5 = getBits w 5 5 := by
  have hinj : Function.Injective MaskEnableFlag.bit := by
    intro a b hab
    cases a <;> cases b <;> first | rfl | (exact absurd hab (by decide))
  have hbit := maskEnable_bit_lt f
  refine ⟨⟨by decide, hinj, by decide, ?_⟩, ?_, ?_, ?_, ?_, ?_, ?_, ?_⟩
  · decide
  · intro g
    rw [maskEnable_get, getBits_one]
  · rw [maskEnable_set]
    exact setBits_lt _ _ _ _
  · rw [maskEnable_get, maskEnable_set, getBits_setBits_same _ _ _ _ (by omega)]
    rfl
  · rw [maskEnable_set, testBit_setBits]
    simp [hbit]
  · intro i hi
    rw [maskEnable_set, testBit_setBits]
    have h2 : ¬ (f.bit ≤ i ∧ i < f.bit + 1) := by omega
    simp only [h2, if_false]
    by_cases h16 : i < 16
    · simp [h16]
    · have hlt : w < 2 ^ i :=
        lt_of_lt_of_le hw (by
          have h65 : (65536 : Nat) = 2 ^ 16 := by norm_num
          rw [h65]
          exact Nat.pow_le_pow_right (by decide) (by omega))
      simp [h16, Nat.testBit_lt_two_pow hlt]
  · intro g hg
    have hne : g.bit ≠ f.bit := fun h => hg (hinj h)
    have hgb := maskEnable_bit_lt g
    rw [maskEnable_get, maskEnable_get, maskEnable_set]
    exact getBits_setBits_other _ _ _ _ _ _ (by omega) (by omega)
  · rw [maskEnable_set]
    have hr : ¬ (5 ≤ f.bit ∧ f.bit ≤ 9) := by cases f <;> decide
    exact getBits_setBits_other _ _ _ _ _ _ (by omega) (by omega)

/-- Witness for C15: setting `cnvr` (bit 10) in the word `0x8001` gives `0x8401`, and
clearing `ocl` (bit 15) gives `0x0001`. -/
theorem mask_enable_single_bit_witness :
    ((MaskEnableRegister.mk 0x8001).set .cnvr 1).get .cnvr = 1 ∧
    ((MaskEnableRegister.mk 0x8001).set .cnvr 1).rawValue = 0x8401 ∧
    ((MaskEnableRegister.mk 0x8001).set .ocl 0).rawValue = 0x0001 :=
  ⟨(mask_enable_single_bit 0x8001 (by decide) .cnvr 1).2.2.2.1, by decide, by decide⟩

/-! ### Alert limit in amps: write, then read -/

/-- The amps conversion of a moderate `x` whose computed quotient lies strictly between
`-32769` and `32768` is defined and is the truncated quotient. -/
theorem ampsToRaw_of_bounds (x : ℚ) (hx : |x| ≤ 2 ^ 20)
    (h0 : -32769 < binary64.roundQ (binary64.roundQ (x * 1000) / (5 / 4)))
    (h1 : binary64.roundQ (binary64.roundQ (x * 1000) / (5 / 4)) < 32768) :
    ampsToRaw (.fin x) =
      some (truncate (binary64.roundQ (binary64.roundQ (x * 1000) / (5 / 4)))) := by
  have hexpr := expr_fin x (5 / 4) (by norm_num) hx
  obtain ⟨t1, t2⟩ := truncate_spec (binary64.roundQ (binary64.roundQ (x * 1000) / (5 / 4)))
  rw [ampsToRaw_iff]
  refine ⟨_, hexpr, rfl, ?_, ?_⟩
  · rcases le_total 0 (binary64.roundQ (binary64.roundQ (x * 1000) / (5 / 4))) with hc | hc
    · have : (0 : Int) ≤ truncate (binary64.roundQ (binary64.roundQ (x * 1000) / (5 / 4))) := by
        unfold truncate; rw [if_pos hc]; exact Int.floor_nonneg.mpr hc
      omega
    · have := (t2 hc).1
      have h2 : ((-32769 : Int) : ℚ) <
          (truncate (binary64.roundQ (binary64.roundQ (x * 1000) / (5 / 4))) : ℚ) := by
        push_cast; linarith
      have h3 : (-32769 : Int) <
          truncate (binary64.roundQ (binary64.roundQ (x * 1000) / (5 / 4))) := by
        exact_mod_cast h2
      omega
  · rcases le_total 0 (binary64.roundQ (binary64.roundQ (x * 1000) / (5 / 4))) with hc | hc
    · have := (t1 hc).1
      have h2 : (truncate (binary64.roundQ (binary64.roundQ (x * 1000) / (5 / 4))) : ℚ) <
          ((32768 : Int) : ℚ) := by
        push_cast; linarith
      have h3 : truncate (binary64.roundQ (binary64.roundQ (x * 1000) / (5 / 4))) < 32768 := by
        exact_mod_cast h2
      omega
    · have := (t2 hc).2
      have h2 : (truncate (binary64.roundQ (binary64.roundQ (x * 1000) / (5 / 4))) : ℚ) <
          ((1 : Int) : ℚ) := by
        push_cast; linarith
      have h3 : truncate (binary64.roundQ (binary64.roundQ (x * 1000) / (5 / 4))) < 1 := by
        exact_mod_cast h2
      omega

/-- A defined amps conversion is the truncated computed quotient and fits `int16_t`. -/
theorem ampsToRaw_some (x : ℚ) (n : Int) (h : ampsToRaw (.fin x) = some n) :
    n = truncate (binary64.roundQ (binary64.roundQ (x * 1000) / (5 / 4))) ∧
    -32768 ≤ n ∧ n ≤ 32767 := by
  obtain ⟨y, hy, hn, hr1, hr2⟩ := (ampsToRaw_iff (.fin x) n).mp h
  have hyY := expr_defined x (5 / 4) y (by norm_num) hy
  rw [← hyY]
  exact ⟨hn, hr1, hr2⟩

/-- Two's complement: an `int16_t` value converted to `uint16_t` and reinterpreted. -/
theorem toInt16_intToUInt16 (n : Int) (h0 : -32768 ≤ n) (h1 : n ≤ 32767) :
    intToUInt16 n < 65536 ∧ toInt16 (intToUInt16 n) = n ∧
    (intToUInt16 n : Int) = if 0 ≤ n then n else n + 65536 := by
  unfold toInt16 intToUInt16
  refine ⟨by omega, ?_, ?_⟩
  · split_ifs <;> omega
  · split_ifs <;> omega

/-- The sign of the count follows the sign of the physical value. -/
theorem amps_count_sign (x : ℚ) :
    (0 ≤ x → 0 ≤ truncate (binary64.roundQ (binary64.roundQ (x * 1000) / (5 / 4)))) ∧
    (x ≤ 0 → truncate (binary64.roundQ (binary64.roundQ (x * 1000) / (5 / 4))) ≤ 0) := by
  obtain ⟨t1, t2⟩ := truncate_spec (binary64.roundQ (binary64.roundQ (x * 1000) / (5 / 4)))
  constructor
  · intro h
    have hm := expr_mono (5 / 4) 0 x (by norm_num) h
    rw [expr_zero] at hm
    unfold truncate
    rw [if_pos hm]
    exact Int.floor_nonneg.mpr hm
  · intro h
    have hm := expr_mono (5 / 4) x 0 (by norm_num) h
    rw [expr_zero] at hm
    rcases eq_or_lt_of_le hm with h0 | h0
    · rw [h0]
      decide
    · unfold truncate
      rw [if_neg (by linarith)]
      have : (0 : Int) ≤ ⌊-binary64.roundQ (binary64.roundQ (x * 1000) / (5 / 4))⌋ :=
        Int.floor_nonneg.mpr (by linarith)
      omega

/-! ### Raw to physical to raw -/

/-- A rounded value of moderate size is within `2^-20` below the exact one. -/
theorem roundQ_ge_sub (z : ℚ) (h0 : 0 ≤ z) (h1 : z ≤ 2 ^ 20) :
    z - 1 / 2 ^ 20 ≤ binary64.roundQ z := by
  have hc1 := Int.floor_le (z * 2 ^ 20)
  have hc2 := Int.lt_floor_add_one (z * 2 ^ 20)
  have hc0 : 0 ≤ ⌊z * 2 ^ 20⌋ := Int.floor_nonneg.mpr (by positivity)
  have hcu : ⌊z * 2 ^ 20⌋ ≤ 2 ^ 40 := by
    have : (⌊z * 2 ^ 20⌋ : ℚ) ≤ ((2 ^ 40 : Int) : ℚ) := by
      push_cast
      nlinarith
    exact_mod_cast this
  have hf : binary64.inFormat ((⌊z * 2 ^ 20⌋ : ℚ) / 2 ^ 20) :=
    inFormat_dyadic _ 20 (by rw [abs_of_nonneg hc0]; omega) (by norm_num)
  have h := le_roundQ_of_le binary64 (by decide) z _ hf
    (by rw [div_le_iff₀ (by positivity)]; exact hc1)
  have : z - 1 / 2 ^ 20 < (⌊z * 2 ^ 20⌋ : ℚ) / 2 ^ 20 := by
    rw [lt_div_iff₀ (by positivity)]
    have e : (z - 1 / 2 ^ 20) * 2 ^ 20 = z * 2 ^ 20 - 1 := by field_simp
    rw [e]; linarith
  linarith

/-- A rounded value of moderate magnitude is within `2^-20` of the exact one. -/
theorem roundQ_abs_near (z : ℚ) (h : |z| ≤ 2 ^ 20) :
    |binary64.roundQ z - z| ≤ 1 / 2 ^ 20 := by
  rcases le_total 0 z with h0 | h0
  · rw [abs_of_nonneg h0] at h
    have a := roundQ_le_add z h0 h
    have b := roundQ_ge_sub z h0 h
    rw [abs_le]
    constructor <;> linarith
  · rw [abs_of_nonpos h0] at h
    have a := roundQ_le_add (-z) (by linarith) h
    have b := roundQ_ge_sub (-z) (by linarith) h
    rw [roundQ_neg] at a b
    rw [abs_le]
    constructor <;> linarith

/-- Rounding keeps values apart that differ by more than `2^-19`. -/
theorem roundQ_lt_of_gap (z1 z2 : ℚ) (h1 : |z1| ≤ 2 ^ 20) (h2 : |z2| ≤ 2 ^ 20)
    (h : z1 + 1 / 2 ^ 19 < z2) : binary64.roundQ z1 < binary64.roundQ z2 := by
  have a := abs_le.mp (roundQ_abs_near z1 h1)
  have b := abs_le.mp (roundQ_abs_near z2 h2)
  have e : (1 : ℚ) / 2 ^ 19 = 1 / 2 ^ 20 + 1 / 2 ^ 20 := by norm_num
  rw [e] at h
  linarith [a.2, b.1]

/-- Converting the raw value `r` with `s` counts per unit and back: the computed quotient
is non-negative and within `1002 * 2^-20` of `r`. -/
theorem back_near (d s : ℚ) (r : Nat) (hd1 : 1 ≤ d) (hd2 : d ≤ 10) (hs : d * s = 1000)
    (hr : r ≤ 65536) :
    0 ≤ binary64.roundQ ((r : ℚ) / s) ∧ binary64.roundQ ((r : ℚ) / s) ≤ 2 ^ 20 ∧
    0 ≤ binary64.roundQ (binary64.roundQ (binary64.roundQ ((r : ℚ) / s) * 1000) / d) ∧
    |binary64.roundQ (binary64.roundQ (binary64.roundQ ((r : ℚ) / s) * 1000) / d) - r| ≤
      1002 / 2 ^ 20 := by
  have hp : 1 ≤ binary64.prec := by decide
  have hd0 : 0 < d := by linarith
  have hs0 : 0 < s := by
    by_contra hc
    push_neg at hc
    nlinarith
  have hs100 : 100 ≤ s := by nlinarith
  have hrq0 : (0 : ℚ) ≤ r := by exact_mod_cast Nat.zero_le r
  have hrq : (r : ℚ) ≤ 65536 := by exact_mod_cast hr
  have hq0 : 0 ≤ (r : ℚ) / s := div_nonneg hrq0 hs0.le
  have hq1 : (r : ℚ) / s ≤ 656 := by
    rw [div_le_iff₀ hs0]
    nlinarith
  have hreq : (r : ℚ) = (r : ℚ) / s * 1000 / d := by
    rw [← hs]
    field_simp
    exact Or.inl (mul_comm s d)
  generalize (r : ℚ) / s = q at hq0 hq1 hreq
  -- first rounding
  have hV := abs_le.mp (roundQ_abs_near q (by rw [abs_of_nonneg hq0]; norm_num; linarith))
  have hV0 : 0 ≤ binary64.roundQ q := by
    have := roundQ_mono binary64 hp 0 q hq0
    rwa [roundQ_zero] at this
  generalize binary64.roundQ q = V at hV hV0
  norm_num at hV
  have hz1 : 0 ≤ V * 1000 := by positivity
  have hz1u : V * 1000 ≤ 2 ^ 20 := by norm_num; linarith
  have hP := abs_le.mp (roundQ_abs_near (V * 1000) (by rw [abs_of_nonneg hz1]; exact hz1u))
  have hP0 : 0 ≤ binary64.roundQ (V * 1000) := by
    have := roundQ_mono binary64 hp 0 (V * 1000) hz1
    rwa [roundQ_zero] at this
  generalize binary64.roundQ (V * 1000) = P at hP hP0
  norm_num at hP
  have hz2 : 0 ≤ P / d := div_nonneg hP0 hd0.le
  have hz2u : P / d ≤ 2 ^ 20 := by
    rw [div_le_iff₀ hd0]
    norm_num
    nlinarith
  have hY := abs_le.mp (roundQ_abs_near (P / d) (by rw [abs_of_nonneg hz2]; exact hz2u))
  have hY0 : 0 ≤ binary64.roundQ (P / d) := by
    have := roundQ_mono binary64 hp 0 (P / d) hz2
    rwa [roundQ_zero] at this
  generalize binary64.roundQ (P / d) = Y at hY hY0
  norm_num at hY
  have hdel : |P / d - (r : ℚ)| ≤ 1001 / 2 ^ 20 := by
    rw [hreq]
    have e : P / d - q * 1000 / d = (P - q * 1000) / d := by ring
    rw [e, abs_div, abs_of_pos hd0]
    have h1 : |P - q * 1000| ≤ 1001 / 2 ^ 20 := by
      rw [abs_le]
      norm_num
      constructor <;> linarith
    calc |P - q * 1000| / d ≤ |P - q * 1000| := div_le_self (abs_nonneg _) hd1
      _ ≤ 1001 / 2 ^ 20 := h1
  have hdel2 := abs_le.mp hdel
  norm_num at hdel2
  refine ⟨hV0, by norm_num; linarith, hY0, ?_⟩
  rw [abs_le]
  norm_num
  constructor <;> linarith

/-- Converting the raw value `r` to physical units and back gives the truncated quotient,
which is `r` or `r - 1`. -/
theorem back_floor (d s : ℚ) (r : Nat) (hd1 : 1 ≤ d) (hd2 : d ≤ 10) (hs : d * s = 1000)
    (hr : r ≤ 65536) :
    Double.div (Double.mul (.fin (binary64.roundQ ((r : ℚ) / s))) (.fin 1000)) (.fin d) =
      .fin (binary64.roundQ (binary64.roundQ (binary64.roundQ ((r : ℚ) / s) * 1000) / d)) ∧
    0 ≤ truncate
      (binary64.roundQ (binary64.roundQ (binary64.roundQ ((r : ℚ) / s) * 1000) / d)) ∧
    (truncate (binary64.roundQ (binary64.roundQ (binary64.roundQ ((r : ℚ) / s) * 1000) / d)) =
        (r : Int) ∨
      truncate (binary64.roundQ (binary64.roundQ (binary64.roundQ ((r : ℚ) / s) * 1000) / d)) +
        1 = (r : Int)) := by
  obtain ⟨hV0, hV1, hY0, hY⟩ := back_near d s r hd1 hd2 hs hr
  have hexpr := expr_fin (binary64.roundQ ((r : ℚ) / s)) d hd1
    (by rw [abs_of_nonneg hV0]; exact hV1)
  refine ⟨hexpr, ?_, ?_⟩
  · rw [truncate_of_nonneg _ hY0]
    exact Int.floor_nonneg.mpr hY0
  · rw [truncate_of_nonneg _ hY0]
    generalize binary64.roundQ (binary64.roundQ (binary64.roundQ ((r : ℚ) / s) * 1000) / d) = Y
      at hY0 hY
    have hb := abs_le.mp hY
    norm_num at hb
    have hfl0 : 0 ≤ ⌊Y⌋ := Int.floor_nonneg.mpr hY0
    have hlt : ⌊Y⌋ < (r : Int) + 1 := by
      rw [Int.floor_lt]
      push_cast
      linarith
    have hge : (r : Int) - 1 ≤ ⌊Y⌋ ∨ r = 0 := by
      rcases Nat.eq_zero_or_pos r with h0 | h0
      · exact Or.inr h0
      · left
        rw [Int.le_floor]
        push_cast
        linarith
    rcases hge with hge | hge
    · omega
    · subst hge
      left
      push_cast at hlt ⊢
      omega

/-- Volts: raw to physical to raw gives `r` or `r - 1`. -/
theorem volts_back (r : Nat) (hr : r ≤ 65535) :
    ∃ n : Nat, voltsToRaw (rawToVolts r) = some n ∧ (n = r ∨ n + 1 = r) := by
  obtain ⟨hexpr, h0, hcase⟩ := back_floor (5 / 4) 800 r (by norm_num) (by norm_num)
    (by norm_num) (by omega)
  have e : (r : ℚ) * (5 / 4) / 1000 = (r : ℚ) / 800 := by ring
  rw [rawToVolts_eq r (by omega), e]
  obtain ⟨k, hk⟩ := Int.eq_ofNat_of_zero_le h0
  rw [hk] at hcase
  refine ⟨k, ?_, by omega⟩
  rw [voltsToRaw_iff]
  exact ⟨_, hexpr, hk.symm, by omega⟩

/-- Watts: raw to physical to raw gives `r` or `r - 1`. -/
theorem watts_back (r : Nat) (hr : r ≤ 65535) :
    ∃ n : Nat, wattsToRaw (rawToWatts r) = some n ∧ (n = r ∨ n + 1 = r) := by
  obtain ⟨hexpr, h0, hcase⟩ := back_floor 10 100 r (by norm_num) (by norm_num)
    (by norm_num) (by omega)
  have e : (r : ℚ) * 10 / 1000 = (r : ℚ) / 100 := by ring
  rw [rawToWatts_eq r (by omega), e]
  obtain ⟨k, hk⟩ := Int.eq_ofNat_of_zero_le h0
  rw [hk] at hcase
  refine ⟨k, ?_, by omega⟩
  rw [wattsToRaw_iff]
  exact ⟨_, hexpr, hk.symm, by omega⟩

/-- Amps: raw to physical to raw gives `r` or the count next to `r` toward zero. -/
theorem amps_back (r : Int) (h0 : -32768 ≤ r) (h1 : r ≤ 32767) :
    ∃ n : Int, ampsToRaw (rawToAmps r) = some n ∧
      (n = r ∨ (0 < r ∧ n = r - 1) ∨ (r < 0 ∧ n = r + 1)) := by
  rw [rawToAmps_eq r (abs_le.mpr ⟨by omega, by omega⟩)]
  rcases le_or_lt 0 r with hr | hr
  · obtain ⟨k, hk⟩ := Int.eq_ofNat_of_zero_le hr
    subst hk
    obtain ⟨hexpr, hm0, hcase⟩ := back_floor (5 / 4) 800 k (by norm_num) (by norm_num)
      (by norm_num) (by omega)
    have e : (((k : Nat) : Int) : ℚ) * (5 / 4) / 1000 = (k : ℚ) / 800 := by
      push_cast; ring
    rw [e]
    refine ⟨_, (ampsToRaw_iff _ _).mpr ⟨_, hexpr, rfl, by omega, by omega⟩, ?_⟩
    omega
  · obtain ⟨k, hk⟩ := Int.eq_ofNat_of_zero_le (by omega : 0 ≤ -r)
    have hrk : r = -(k : Int) := by omega
    subst hrk
    obtain ⟨hexpr, hm0, hcase⟩ := back_floor (5 / 4) 800 k (by norm_num) (by norm_num)
      (by norm_num) (by omega)
    obtain ⟨hV0, hV1, hY0, hY⟩ := back_near (5 / 4) 800 k (by norm_num) (by norm_num)
      (by norm_num) (by omega)
    have e : ((-(k : Int) : Int) : ℚ) * (5 / 4) / 1000 = -((k : ℚ) / 800) := by
      push_cast; ring
    rw [e, roundQ_neg]
    have hfin := expr_fin (-binary64.roundQ ((k : ℚ) / 800)) (5 / 4) (by norm_num)
      (by rw [abs_neg, abs_of_nonneg hV0]; exact hV1)
    rw [expr_neg] at hfin
    refine ⟨_, (ampsToRaw_iff _ _).mpr ⟨_, hfin, rfl, ?_, ?_⟩, ?_⟩
    · rw [truncate_neg]; omega
    · rw [truncate_neg]; omega
    · rw [truncate_neg]; omega

/-- The raw-to-physical conversions are strictly increasing. -/
theorem rawTo_strictMono :
    (∀ r1 r2 : Nat, r1 < r2 → r2 ≤ 65535 →
      binary64.roundQ ((r1 : ℚ) * (5 / 4) / 1000) <
        binary64.roundQ ((r2 : ℚ) * (5 / 4) / 1000)) ∧
    (∀ r1 r2 : Nat, r1 < r2 → r2 ≤ 65535 →
      binary64.roundQ ((r1 : ℚ) * 10 / 1000) < binary64.roundQ ((r2 : ℚ) * 10 / 1000)) ∧
    (∀ r1 r2 : Int, -32768 ≤ r1 → r1 < r2 → r2 ≤ 32767 →
      binary64.roundQ ((r1 : ℚ) * (5 / 4) / 1000) <
        binary64.roundQ ((r2 : ℚ) * (5 / 4) / 1000)) := by
  refine ⟨?_, ?_, ?_⟩
  · intro r1 r2 h12 h2
    have a1 : (0 : ℚ) ≤ r1 := by exact_mod_cast Nat.zero_le r1
    have a2 : (r1 : ℚ) + 1 ≤ r2 := by exact_mod_cast h12
    have a3 : (r2 : ℚ) ≤ 65535 := by exact_mod_cast h2
    apply roundQ_lt_of_gap
    · rw [abs_le]; norm_num; constructor <;> linarith
    · rw [abs_le]; norm_num; constructor <;> linarith
    · norm_num; linarith
  · intro r1 r2 h12 h2
    have a1 : (0 : ℚ) ≤ r1 := by exact_mod_cast Nat.zero_le r1
    have a2 : (r1 : ℚ) + 1 ≤ r2 := by exact_mod_cast h12
    have a3 : (r2 : ℚ) ≤ 65535 := by exact_mod_cast h2
    apply roundQ_lt_of_gap
    · rw [abs_le]; norm_num; constructor <;> linarith
    · rw [abs_le]; norm_num; constructor <;> linarith
    · norm_num; linarith
  · intro r1 r2 h1 h12 h2
    have a1 : (-32768 : ℚ) ≤ r1 := by exact_mod_cast h1
    have a2 : (r1 : ℚ) + 1 ≤ r2 := by exact_mod_cast h12
    have a3 : (r2 : ℚ) ≤ 32767 := by exact_mod_cast h2
    apply roundQ_lt_of_gap
    · rw [abs_le]; norm_num; constructor <;> linarith
    · rw [abs_le]; norm_num; constructor <;> linarith
    · norm_num; linarith

/-- Counterexample for C20: the raw value 201 does not survive the conversion to physical
units and back; it comes back as 200 for volts, watts and amps, and `-201` amps comes back
as `-200`. -/
theorem raw_roundtrip_not_identity :
    voltsToRaw (rawToVolts 201) = some 200 ∧ voltsToRaw (rawToVolts 201) ≠ some 201 ∧
    wattsToRaw (rawToWatts 201) = some 200 ∧
    ampsToRaw (rawToAmps 201) = some 200 ∧
    ampsToRaw (rawToAmps (-201)) = some (-200) := by
  refine ⟨by decide!, by decide!, by decide!, by decide!, by decide!⟩

/-- C20 (amended): raw to physical to raw is defined on every register value and returns
the value or the next count toward zero: `r` or `r - 1` for volts and watts on unsigned
16-bit `r`; for amps on signed 16-bit `r`, `r`, or `r - 1` when `r > 0`, or `r + 1` when
`r < 0`.  Each raw-to-physical conversion is injective. -/
theorem raw_roundtrip_within_one :
    (∀ r : Nat, r ≤ 65535 →
      ∃ n : Nat, voltsToRaw (rawToVolts r) = some n ∧ (n = r ∨ n + 1 = r)) ∧
    (∀ r : Nat, r ≤ 65535 →
      ∃ n : Nat, wattsToRaw (rawToWatts r) = some n ∧ (n = r ∨ n + 1 = r)) ∧
    (∀ r : Int, -32768 ≤ r → r ≤ 32767 →
      ∃ n : Int, ampsToRaw (rawToAmps r) = some n ∧
        (n = r ∨ (0 < r ∧ n = r - 1) ∨ (r < 0 ∧ n = r + 1))) ∧
    (∀ r1 r2 : Nat, r1 ≤ 65535 → r2 ≤ 65535 → rawToVolts r1 = rawToVolts r2 → r1 = r2) ∧
    (∀ r1 r2 : Nat, r1 ≤ 65535 → r2 ≤ 65535 → rawToWatts r1 = rawToWatts r2 → r1 = r2) ∧
    (∀ r1 r2 : Int, -32768 ≤ r1 → r1 ≤ 32767 → -32768 ≤ r2 → r2 ≤ 32767 →
      rawToAmps r1 = rawToAmps r2 → r1 = r2) := by
  obtain ⟨mv, mw, ma⟩ := rawTo_strictMono
  refine ⟨volts_back, watts_back, amps_back, ?_, ?_, ?_⟩
  · intro r1 r2 h1 h2 h
    rw [rawToVolts_eq r1 (by omega), rawToVolts_eq r2 (by omega)] at h
    have hq : binary64.roundQ ((r1 : ℚ) * (5 / 4) / 1000) =
        binary64.roundQ ((r2 : ℚ) * (5 / 4) / 1000) := by injection h
    rcases lt_trichotomy r1 r2 with hlt | heq | hgt
    · exact absurd hq (ne_of_lt (mv r1 r2 hlt h2))
    · exact heq
    · exact absurd hq.symm (ne_of_lt (mv r2 r1 hgt h1))
  · intro r1 r2 h1 h2 h
    rw [rawToWatts_eq r1 (by omega), rawToWatts_eq r2 (by omega)] at h
    have hq : binary64.roundQ ((r1 : ℚ) * 10 / 1000) =
        binary64.roundQ ((r2 : ℚ) * 10 / 1000) := by injection h
    rcases lt_trichotomy r1 r2 with hlt | heq | hgt
    · exact absurd hq (ne_of_lt (mw r1 r2 hlt h2))
    · exact heq
    · exact absurd hq.symm (ne_of_lt (mw r2 r1 hgt h1))
  · intro r1 r2 a1 b1 a2 b2 h
    rw [rawToAmps_eq r1 (abs_le.mpr ⟨by omega, by omega⟩),
      rawToAmps_eq r2 (abs_le.mpr ⟨by omega, by omega⟩)] at h
    have hq : binary64.roundQ ((r1 : ℚ) * (5 / 4) / 1000) =
        binary64.roundQ ((r2 : ℚ) * (5 / 4) / 1000) := by injection h
    rcases lt_trichotomy r1 r2 with hlt | heq | hgt
    · exact absurd hq (ne_of_lt (ma r1 r2 a1 hlt b2))
    · exact heq
    · exact absurd hq.symm (ne_of_lt (ma r2 r1 a2 hgt b1))

/-- Witness for C20 (amended): the raw values 200 and 201 as volts, and `-201` as amps. -/
theorem raw_roundtrip_within_one_witness :
    (∃ n : Nat, voltsToRaw (rawToVolts 200) = some n ∧ (n = 200 ∨ n + 1 = 200)) ∧
    (∃ n : Nat, voltsToRaw (rawToVolts 201) = some n ∧ (n = 201 ∨ n + 1 = 201)) ∧
    (∃ n : Int, ampsToRaw (rawToAmps (-201)) = some n ∧
      (n = -201 ∨ (0 < (-201 : Int) ∧ n = -201 - 1) ∨ ((-201 : Int) < 0 ∧ n = -201 + 1))) :=
  ⟨raw_roundtrip_within_one.1 200 (by decide),
    raw_roundtrip_within_one.1 201 (by decide),
    raw_roundtrip_within_one.2.2.1 (-201) (by decide) (by decide)⟩

/-! ### Unit conversions: the claims on the two directions -/

/-- The rounding error of a value of magnitude between `2^-20` and `2^(hi + 1)` is at most
`2^(hi - 53)`, half a unit in the last place of the binade `hi`. -/
theorem roundQ_near_of_lt (z : ℚ) (hi : Int) (h0 : (2 : ℚ) ^ (-20 : Int) ≤ |z|)
    (h1 : |z| < (2 : ℚ) ^ (hi + 1)) :
    |binary64.roundQ z - z| ≤ (2 : ℚ) ^ (hi - 53) := by
  have key : ∀ y : ℚ, 0 < y → (2 : ℚ) ^ (-20 : Int) ≤ y → y < (2 : ℚ) ^ (hi + 1) →
      |binary64.roundQ y - y| ≤ (2 : ℚ) ^ (hi - 53) := by
    intro y hy hy0 hy1
    obtain ⟨b1, b2⟩ := binade_of_pos y hy
    obtain ⟨e1, e2⟩ := binade_bounds y (-20) hi hy hy0 hy1
    obtain ⟨_, r1, r2, _⟩ := roundQ_binade_bounds y (ilog2 y) (by omega) b1 b2
    have hmono : (2 : ℚ) ^ (ilog2 y - 52) ≤ (2 : ℚ) ^ (hi - 52) :=
      zpow_le_zpow_right₀ (by norm_num) (by omega)
    have hsplit : (2 : ℚ) ^ (hi - 52) = (2 : ℚ) ^ (hi - 53) * 2 := by
      have : hi - 52 = (hi - 53) + 1 := by ring
      rw [this, zpow_add₀ (by norm_num), zpow_one]
    rw [abs_le]
    constructor <;> linarith
  rcases lt_trichotomy z 0 with hneg | hzero | hpos
  · have h := key (-z) (by linarith) (by rwa [abs_of_neg hneg] at h0)
      (by rwa [abs_of_neg hneg] at h1)
    rw [roundQ_neg] at h
    have e : -binary64.roundQ z - -z = -(binary64.roundQ z - z) := by ring
    rwa [e, abs_neg] at h
  · subst hzero
    rw [abs_zero] at h0
    have : (0 : ℚ) < (2 : ℚ) ^ (-20 : Int) := by positivity
    linarith
  · exact key z hpos (by rwa [abs_of_pos hpos] at h0) (by rwa [abs_of_pos hpos] at h1)

/-- Rounding error of the scaled raw value: at most `2^-47` for `r * 1.25 / 1000` and
`2^-44` for `r * 10 / 1000`, for `|r| ≤ 65536`. -/
theorem scaling_error (r : Int) (hr : |r| ≤ 65536) :
    |binary64.roundQ ((r : ℚ) * (5 / 4) / 1000) - (r : ℚ) * (5 / 4) / 1000| ≤ 1 / 2 ^ 47 ∧
    |binary64.roundQ ((r : ℚ) * 10 / 1000) - (r : ℚ) * 10 / 1000| ≤ 1 / 2 ^ 44 := by
  by_cases h0 : r = 0
  · subst h0
    simp [roundQ_zero]
  · have h1 : (1 : ℚ) ≤ |(r : ℚ)| := by
      have : (1 : Int) ≤ |r| := Int.one_le_abs h0
      exact_mod_cast this
    have h2 : |(r : ℚ)| ≤ 65536 := by exact_mod_cast hr
    constructor
    · have e : |(r : ℚ) * (5 / 4) / 1000| = |(r : ℚ)| / 800 := by
        rw [show (r : ℚ) * (5 / 4) / 1000 = (r : ℚ) / 800 by ring, abs_div,
          abs_of_pos (by norm_num : (0 : ℚ) < 800)]
      have h := roundQ_near_of_lt ((r : ℚ) * (5 / 4) / 1000) 6
        (by rw [e]; norm_num; linarith) (by rw [e]; norm_num; linarith)
      norm_num at h ⊢
      exact h
    · have e : |(r : ℚ) * 10 / 1000| = |(r : ℚ)| / 100 := by
        rw [show (r : ℚ) * 10 / 1000 = (r : ℚ) / 100 by ring, abs_div,
          abs_of_pos (by norm_num : (0 : ℚ) < 100)]
      have h := roundQ_near_of_lt ((r : ℚ) * 10 / 1000) 9
        (by rw [e]; norm_num; linarith) (by rw [e]; norm_num; linarith)
      norm_num at h ⊢
      exact h

/-- Counterexample for C7: for the raw value 201 the exact scalings `201 * 1.25 / 1000` and
`201 * 10 / 1000` are not `double`s, and the conversions return other values. -/
theorem rawTo_scaling_not_exact :
    ¬ binary64.representable ((201 : ℚ) * (5 / 4) / 1000) ∧
    ¬ binary64.representable ((201 : ℚ) * 10 / 1000) ∧
    rawToVolts 201 ≠ .fin ((201 : ℚ) * (5 / 4) / 1000) ∧
    rawToAmps 201 ≠ .fin ((201 : ℚ) * (5 / 4) / 1000) ∧
    rawToWatts 201 ≠ .fin ((201 : ℚ) * 10 / 1000) ∧
    rawToVolts 201 = .fin (1131529406376837 / 4503599627370496) := by
  refine ⟨by decide!, by decide!, by decide!, by decide!, by decide!, by decide!⟩

/-- C7 (amended): each raw-to-physical conversion returns the `double` nearest to the exact
linear scaling: `rawToAmps r` and `rawToVolts r` are `r * 1.25 / 1000` rounded once (the
product is exact), within `2^-47` of it, and `rawToWatts r` is `r * 10 / 1000` rounded
once, within `2^-44` of it; the result is the exact scaling whenever that is a `double`, as
for `-800`, `12000` and `250`, which give `-1.0`, `15.0` and `2.5`. -/
theorem rawTo_nearest_double :
    (∀ r : Int, -32768 ≤ r → r ≤ 32767 →
      rawToAmps r = .fin (binary64.roundQ ((r : ℚ) * (5 / 4) / 1000)) ∧
      |binary64.roundQ ((r : ℚ) * (5 / 4) / 1000) - (r : ℚ) * (5 / 4) / 1000| ≤ 1 / 2 ^ 47) ∧
    (∀ r : Nat, r < 65536 →
      rawToVolts r = .fin (binary64.roundQ ((r : ℚ) * (5 / 4) / 1000)) ∧
      |binary64.roundQ ((r : ℚ) * (5 / 4) / 1000) - (r : ℚ) * (5 / 4) / 1000| ≤ 1 / 2 ^ 47 ∧
      rawToWatts r = .fin (binary64.roundQ ((r : ℚ) * 10 / 1000)) ∧
      |binary64.roundQ ((r : ℚ) * 10 / 1000) - (r : ℚ) * 10 / 1000| ≤ 1 / 2 ^ 44) ∧
    (∀ q f : ℚ, binary64.inFormat f → |binary64.roundQ q - q| ≤ |f - q|) ∧
    (∀ q : ℚ, binary64.inFormat q → binary64.roundQ q = q) ∧
    rawToAmps (-800) = .fin (-1) ∧ rawToVolts 12000 = .fin 15 ∧ rawToWatts 250 = .fin (5 / 2) := by
  refine ⟨?_, ?_, ?_, ?_, by decide!, by decide!, by decide!⟩
  · intro r h1 h2
    have hr : |r| ≤ 65536 := abs_le.mpr ⟨by omega, by omega⟩
    exact ⟨rawToAmps_eq r hr, (scaling_error r hr).1⟩
  · intro r hr
    have hr2 : |(r : Int)| ≤ 65536 := abs_le.mpr ⟨by omega, by omega⟩
    have he := scaling_error (r : Int) hr2
    push_cast at he
    exact ⟨rawToVolts_eq r hr.le, he.1, rawToWatts_eq r hr.le, he.2⟩
  · intro q f hf
    exact roundQ_nearest binary64 (by decide) q f hf
  · intro q hf
    exact roundQ_exact binary64 (by decide) q hf

/-- Witness for C7 (amended): the raw values `-800`, `12000` and `250`. -/
theorem rawTo_nearest_double_witness :
    rawToAmps (-800) = .fin (binary64.roundQ (((-800 : Int) : ℚ) * (5 / 4) / 1000)) ∧
    rawToVolts 12000 = .fin (binary64.roundQ (((12000 : Nat) : ℚ) * (5 / 4) / 1000)) ∧
    rawToWatts 250 = .fin (binary64.roundQ (((250 : Nat) : ℚ) * 10 / 1000)) :=
  ⟨(rawTo_nearest_double.1 (-800) (by decide) (by decide)).1,
    (rawTo_nearest_double.2.1 12000 (by decide)).1,
    (rawTo_nearest_double.2.1 250 (by decide)).2.2.1⟩

/-- A defined volts conversion is the truncated computed quotient. -/
theorem voltsToRaw_some (x : ℚ) (n : Nat) (h : voltsToRaw (.fin x) = some n) :
    (n : Int) = truncate (binary64.roundQ (binary64.roundQ (x * 1000) / (5 / 4))) ∧
    n ≤ 65535 := by
  obtain ⟨y, hy, hn, hr⟩ := (voltsToRaw_iff (.fin x) n).mp h
  have hyY := expr_defined x (5 / 4) y (by norm_num) hy
  rw [← hyY]
  exact ⟨hn, hr⟩

/-- A defined watts conversion is the truncated computed quotient. -/
theorem wattsToRaw_some (x : ℚ) (n : Nat) (h : wattsToRaw (.fin x) = some n) :
    (n : Int) = truncate (binary64.roundQ (binary64.roundQ (x * 1000) / 10)) ∧
    n ≤ 65535 := by
  obtain ⟨y, hy, hn, hr⟩ := (wattsToRaw_iff (.fin x) n).mp h
  have hyY := expr_defined x 10 y (by norm_num) hy
  rw [← hyY]
  exact ⟨hn, hr⟩

/-- Truncation leaves an integer unchanged. -/
theorem truncate_intCast (t : Int) : truncate (t : ℚ) = t := by
  unfold truncate
  split_ifs with h
  · exact Int.floor_intCast t
  · rw [← Int.cast_neg, Int.floor_intCast]
    omega

/-- At an exact multiple `t` of the LSB the three conversions return `t`. -/
theorem toRaw_exact_multiple :
    (∀ (x : ℚ) (t : Int), x * 800 = t → -32768 ≤ t → t ≤ 32767 →
      ampsToRaw (.fin x) = some t) ∧
    (∀ (x : ℚ) (t : Nat), x * 800 = t → t ≤ 65535 → voltsToRaw (.fin x) = some t) ∧
    (∀ (x : ℚ) (t : Nat), x * 100 = t → t ≤ 65535 → wattsToRaw (.fin x) = some t) := by
  refine ⟨?_, ?_, ?_⟩
  · intro x t hx h0 h1
    have hxt : x = (t : ℚ) / 800 := by rw [← hx]; ring
    have hq0 : (-32768 : ℚ) ≤ t := by exact_mod_cast h0
    have hq1 : (t : ℚ) ≤ 32767 := by exact_mod_cast h1
    have he := expr_exact (5 / 4) 800 x (5 * t) t (by norm_num) (by norm_num)
      (by rw [abs_lt]; constructor <;> omega) (by push_cast; ring)
      (by rw [abs_lt]; constructor <;> omega) hxt
    have hfin := expr_fin x (5 / 4) (by norm_num)
      (by rw [hxt, abs_le]; constructor <;> norm_num <;> linarith)
    rw [he] at hfin
    exact (ampsToRaw_iff _ _).mpr ⟨_, hfin, (truncate_intCast t).symm, h0, h1⟩
  · intro x t hx h1
    have hxt : x = (((t : Nat) : Int) : ℚ) / 800 := by push_cast; rw [← hx]; ring
    have hq1 : (t : ℚ) ≤ 65535 := by exact_mod_cast h1
    have hq0 : (0 : ℚ) ≤ t := by exact_mod_cast Nat.zero_le t
    have he := expr_exact (5 / 4) 800 x (5 * (t : Int)) (t : Int) (by norm_num) (by norm_num)
      (by rw [abs_lt]; constructor <;> omega) (by push_cast; ring)
      (by rw [abs_lt]; constructor <;> omega) hxt
    have hfin := expr_fin x (5 / 4) (by norm_num)
      (by rw [hxt, abs_le]; push_cast; constructor <;> norm_num <;> linarith)
    rw [he] at hfin
    exact (voltsToRaw_iff _ _).mpr ⟨_, hfin, (truncate_intCast t).symm, h1⟩
  · intro x t hx h1
    have hxt : x = (((t : Nat) : Int) : ℚ) / 100 := by push_cast; rw [← hx]; ring
    have hq1 : (t : ℚ) ≤ 65535 := by exact_mod_cast h1
    have hq0 : (0 : ℚ) ≤ t := by exact_mod_cast Nat.zero_le t
    have he := expr_exact 10 100 x (40 * (t : Int)) (t : Int) (by norm_num) (by norm_num)
      (by rw [abs_lt]; constructor <;> omega) (by push_cast; ring)
      (by rw [abs_lt]; constructor <;> omega) hxt
    have hfin := expr_fin x 10 (by norm_num)
      (by rw [hxt, abs_le]; push_cast; constructor <;> norm_num <;> linarith)
    rw [he] at hfin
    exact (wattsToRaw_iff _ _).mpr ⟨_, hfin, (truncate_intCast t).symm, h1⟩

/-- Counterexample for C8: for the `double` nearest to `0.3` the three conversions return
240, 240 and 30, while the truncated exact quotients are 239, 239 and 29. -/
theorem toRaw_not_exact_truncation :
    binary64.representable (5404319552844595 / 18014398509481984) ∧
    voltsToRaw (.fin (5404319552844595 / 18014398509481984)) = some 240 ∧
    ampsToRaw (.fin (5404319552844595 / 18014398509481984)) = some 240 ∧
    truncate ((5404319552844595 / 18014398509481984 : ℚ) * 1000 / (5 / 4)) = 239 ∧
    wattsToRaw (.fin (5404319552844595 / 18014398509481984)) = some 30 ∧
    truncate ((5404319552844595 / 18014398509481984 : ℚ) * 1000 / 10) = 29 := by
  refine ⟨by decide!, by decide!, by decide!, by decide!, by decide!, by decide!⟩

/-- C8 (amended): each physical-to-raw conversion evaluates the inverse formula in `double`
arithmetic and truncates toward zero: a defined result is
`trunc(fl(fl(x * 1000) / 1.25))` (for watts `trunc(fl(fl(x * 1000) / 10))`), where `fl`
rounds to the nearest `double`, and the conversion is defined exactly when that value fits
the return type.  Against the quotient taken exactly the result is the exact truncated
quotient or one count further from zero, and it is the exact quotient whenever `x` is an
exact multiple of the LSB, as for `-1.0` A, `15.0` V and `2.5` W. -/
theorem toRaw_truncates_computed :
    (∀ (x : ℚ) (n : Int), ampsToRaw (.fin x) = some n →
      n = truncate (binary64.roundQ (binary64.roundQ (x * 1000) / (5 / 4))) ∧
      |n - truncate (x * 1000 / (5 / 4))| ≤ 1 ∧ |truncate (x * 1000 / (5 / 4))| ≤ |n|) ∧
    (∀ (x : ℚ) (n : Nat), voltsToRaw (.fin x) = some n →
      (n : Int) = truncate (binary64.roundQ (binary64.roundQ (x * 1000) / (5 / 4))) ∧
      |(n : Int) - truncate (x * 1000 / (5 / 4))| ≤ 1 ∧
      |truncate (x * 1000 / (5 / 4))| ≤ |(n : Int)|) ∧
    (∀ (x : ℚ) (n : Nat), wattsToRaw (.fin x) = some n →
      (n : Int) = truncate (binary64.roundQ (binary64.roundQ (x * 1000) / 10)) ∧
      |(n : Int) - truncate (x * 1000 / 10)| ≤ 1 ∧
      |truncate (x * 1000 / 10)| ≤ |(n : Int)|) ∧
    (∀ (x : Double) (n : Int), ampsToRaw x = some n ↔
      ∃ y : ℚ, Double.div (Double.mul x (.fin 1000)) (.fin (5 / 4)) = .fin y ∧
        n = truncate y ∧ -32768 ≤ n ∧ n ≤ 32767) ∧
    (∀ (x : Double) (n : Nat), voltsToRaw x = some n ↔
      ∃ y : ℚ, Double.div (Double.mul x (.fin 1000)) (.fin (5 / 4)) = .fin y ∧
        (n : Int) = truncate y ∧ n ≤ 65535) ∧
    (∀ (x : Double) (n : Nat), wattsToRaw x = some n ↔
      ∃ y : ℚ, Double.div (Double.mul x (.fin 1000)) (.fin 10) = .fin y ∧
        (n : Int) = truncate y ∧ n ≤ 65535) ∧
    (∀ y : ℚ, (0 ≤ y → (truncate y : ℚ) ≤ y ∧ y < (truncate y : ℚ) + 1) ∧
      (y ≤ 0 → y ≤ (truncate y : ℚ) ∧ (truncate y : ℚ) - 1 < y)) ∧
    ((∀ (x : ℚ) (t : Int), x * 800 = t → -32768 ≤ t → t ≤ 32767 →
        ampsToRaw (.fin x) = some t) ∧
      (∀ (x : ℚ) (t : Nat), x * 800 = t → t ≤ 65535 → voltsToRaw (.fin x) = some t) ∧
      (∀ (x : ℚ) (t : Nat), x * 100 = t → t ≤ 65535 → wattsToRaw (.fin x) = some t)) ∧
    ampsToRaw (.fin (-1)) = some (-800) ∧ voltsToRaw (.fin 15) = some 12000 ∧
      wattsToRaw (.fin (5 / 2)) = some 250 := by
  refine ⟨?_, ?_, ?_, ampsToRaw_iff, voltsToRaw_iff, wattsToRaw_iff, truncate_spec,
    toRaw_exact_multiple, by decide!, by decide!, by decide!⟩
  · intro x n h
    exact ⟨(ampsToRaw_some x n h).1, ampsToRaw_near_exact x n h⟩
  · intro x n h
    exact ⟨(voltsToRaw_some x n h).1, voltsToRaw_near_exact x n h⟩
  · intro x n h
    exact ⟨(wattsToRaw_some x n h).1, wattsToRaw_near_exact x n h⟩

/-- Witness for C8 (amended): `-1.0` A converts to `-800`, and the `double` nearest to
`0.3` V converts to 240, one count above the truncated exact quotient 239. -/
theorem toRaw_truncates_computed_witness :
    ampsToRaw (.fin (-1)) = some (-800) ∧
    |((240 : Nat) : Int) -
      truncate ((5404319552844595 / 18014398509481984 : ℚ) * 1000 / (5 / 4))| ≤ 1 :=
  ⟨toRaw_truncates_computed.2.2.2.2.2.2.2.1.1 (-1) (-800) (by norm_num) (by decide)
      (by decide),
    (toRaw_truncates_computed.2.1 (5404319552844595 / 18014398509481984) 240
      (by decide!)).2.1⟩

/-! ### Alert limit in amps: the range of the claim -/

/-- Amps: a `double` whose exactly truncated count `trunc(x * 800)` fits `int16_t` has a
defined conversion, unless it is the `double` nearest to `-40.96125`. -/
theorem amps_defined_of_exact_count (x : ℚ) (hx : binary64.inFormat x)
    (h0 : -32768 ≤ truncate (x * 800)) (h1 : truncate (x * 800) ≤ 32767)
    (hne : x ≠ -5764783444894679 / 140737488355328) :
    ∃ n : Int, ampsToRaw (.fin x) = some n := by
  obtain ⟨t1, t2⟩ := truncate_spec (x * 800)
  have hup : x * 800 < 32768 := by
    by_contra hc
    push_neg at hc
    have h2 := (t1 (by linarith)).2
    have h3 : ((32767 : Int) : ℚ) < (truncate (x * 800) : ℚ) := by
      push_cast; linarith
    have h4 : (32767 : Int) < truncate (x * 800) := by exact_mod_cast h3
    omega
  by_cases hlo : -32768 ≤ x * 800
  · exact amps_defined x hx hlo hup
  · push_neg at hlo
    have hgt : -32769 < x * 800 := by
      have h2 := (t2 (by linarith)).2
      have h3 : ((-32768 : Int) : ℚ) ≤ (truncate (x * 800) : ℚ) := by
        exact_mod_cast h0
      push_cast at h3
      linarith
    have habs : (2 : ℚ) ^ (5 : Int) ≤ |x| := by
      rw [abs_of_neg (by linarith)]
      norm_num
      linarith
    obtain ⟨K, hK⟩ := inFormat_grid x 5 hx habs
    have e : (2 : ℚ) ^ ((5 : Int) - 52) = 1 / 140737488355328 := by norm_num
    rw [e] at hK
    have hKq : (-32769 * 140737488355328 : ℚ) < (K : ℚ) * 800 := by
      rw [hK] at hgt
      have h2 : (-32769 : ℚ) * 140737488355328 <
          (K : ℚ) * (1 / 140737488355328) * 800 * 140737488355328 :=
        mul_lt_mul_of_pos_right hgt (by norm_num)
      have h3 : (K : ℚ) * (1 / 140737488355328) * 800 * 140737488355328 = (K : ℚ) * 800 := by
        field_simp
      rw [h3] at h2
      exact h2
    have hKi : (-32769 * 140737488355328 : Int) < K * 800 := by exact_mod_cast hKq
    have hKne : K ≠ -5764783444894679 := by
      intro hc
      apply hne
      rw [hK, hc]
      norm_num
    have hKi2 : (-5764783444894678 : Int) ≤ K := by omega
    have hKq2 : (-5764783444894678 : ℚ) ≤ (K : ℚ) := by exact_mod_cast hKi2
    have hx1 : (-5764783444894678 / 140737488355328 : ℚ) ≤ x := by
      rw [hK]
      have : (-5764783444894678 : ℚ) * (1 / 140737488355328) ≤
          (K : ℚ) * (1 / 140737488355328) :=
        mul_le_mul_of_nonneg_right hKq2 (by norm_num)
      linarith
    have hm := expr_mono (5 / 4) _ _ (by norm_num) hx1
    have hv : -32769 < binary64.roundQ (binary64.roundQ
        ((-5764783444894678 / 140737488355328 : ℚ) * 1000) / (5 / 4)) := by decide!
    have hY1 := amps_edge x hx hup
    exact ⟨_, ampsToRaw_of_bounds x (by rw [abs_le]; constructor <;> linarith)
      (by linarith) hY1⟩

/-- Counterexample for C17: at the `double` nearest to `-40.96125` the truncated exact
count `trunc(x * 800)` is `-32768`, inside the range, but the quotient the code computes is
`-32769.0`: the conversion to `int16_t` is undefined and nothing is written.  At the
`double` nearest to `0.3` the bytes written are those of 240, not of the truncated exact
quotient 239. -/
theorem alert_limit_amps_edge_undefined :
    binary64.representable (-5764783444894679 / 140737488355328) ∧
    truncate ((-5764783444894679 / 140737488355328 : ℚ) * 800) = -32768 ∧
    binary64.roundQ (binary64.roundQ
      ((-5764783444894679 / 140737488355328 : ℚ) * 1000) / (5 / 4)) = -32769 ∧
    ampsToRaw (.fin (-5764783444894679 / 140737488355328)) = none ∧
    (writeAlertLimitRegisterInAmps (INA260 0) (.fin (-5764783444894679 / 140737488355328))
      (constWire 0 [])).isNone = true ∧
    truncate ((5404319552844595 / 18014398509481984 : ℚ) * 1000 / (5 / 4)) = 239 ∧
    (writeAlertLimitRegisterInAmps (INA260 0) (.fin (5404319552844595 / 18014398509481984))
        (constWire 0 [])).map (fun r => r.2.calls) =
      some [.beginTransmission 0x40, .write 0x07, .write 0x00, .write 0xF0,
        .endTransmission] := by
  refine ⟨by decide!, by decide!, by decide!, by decide!, by decide!, by decide!, by decide!⟩

/-- C17 (amended): the alert limit in amps survives a write followed by a read.  For
every `double` `x` with `-32768 ≤ trunc(x * 800) ≤ 32767`, other than the `double` nearest
to `-40.96125`, the count `n = trunc(fl(fl(x * 1000) / 1.25))` that the code computes is
defined and fits `int16_t`; it is `trunc(x * 800)` or one count further from zero;
`writeAlertLimitRegisterInAmps x` sends to register `0x07` the two data bytes, high byte
first, of the two's-complement word of `n`; and when a transport returns those two bytes,
`readAlertLimitRegisterInAmps` succeeds with the `double` `a` nearest to `n * 1.25 / 1000`,
where `|a - x| < 0.00125` and `a` is zero or has the sign of `x`. -/
theorem alert_limit_amps_write_read (self : Device) (x : ℚ) (value : Double)
    (W1 W2 : TwoWire) (haddr : self.addr < 256) (hx : binary64.representable x)
    (h0 : -32768 ≤ truncate (x * 800)) (h1 : truncate (x * 800) ≤ 32767)
    (hne : x ≠ -5764783444894679 / 140737488355328) :
    ALERT_LIMIT_REGISTER = 0x07 ∧
    ∃ n : Int,
      ampsToRaw (.fin x) = some n ∧
      n = truncate (binary64.roundQ (binary64.roundQ (x * 1000) / (5 / 4))) ∧
      |n - truncate (x * 800)| ≤ 1 ∧ |truncate (x * 800)| ≤ |n| ∧
      -32768 ≤ n ∧ n ≤ 32767 ∧
      (intToUInt16 n : Int) = (if 0 ≤ n then n else n + 65536) ∧
      toInt16 (intToUInt16 n) = n ∧
      (writeAlertLimitRegisterInAmps self (.fin x) W1).map (fun r => r.2.calls) =
        some (W1.calls ++ [.beginTransmission self.addr, .write 0x07,
          .write ((intToUInt16 n >>> 8) &&& 0xFF), .write (intToUInt16 n &&& 0xFF),
          .endTransmission]) ∧
      (W2.slave (W2.calls ++ selectAndRequest self 0x07) self.addr 2 =
          [(intToUInt16 n >>> 8) &&& 0xFF, intToUInt16 n &&& 0xFF] →
        (readAlertLimitRegisterInAmps self value W2).1 = true ∧
        (readAlertLimitRegisterInAmps self value W2).2.1 =
          .fin (binary64.roundQ ((n : ℚ) * (5 / 4) / 1000)) ∧
        |binary64.roundQ ((n : ℚ) * (5 / 4) / 1000) - x| < 1 / 800 ∧
        (0 ≤ x → 0 ≤ binary64.roundQ ((n : ℚ) * (5 / 4) / 1000)) ∧
        (x ≤ 0 → binary64.roundQ ((n : ℚ) * (5 / 4) / 1000) ≤ 0)) := by
  have hin := inFormat_of_representable x hx
  refine ⟨rfl, ?_⟩
  obtain ⟨n, hn⟩ := amps_defined_of_exact_count x hin h0 h1 hne
  obtain ⟨hnY, hr0, hr1⟩ := ampsToRaw_some x n hn
  obtain ⟨hu, hti, hui⟩ := toInt16_intToUInt16 n hr0 hr1
  have hnear := ampsToRaw_near_exact x n hn
  have e800 : x * 1000 / (5 / 4) = x * 800 := by ring
  rw [e800] at hnear
  refine ⟨n, hn, hnY, hnear.1, hnear.2, hr0, hr1, hui, hti, ?_, ?_⟩
  · unfold writeAlertLimitRegisterInAmps writeAlertLimitRegister
    rw [hn, Option.map_some', Option.map_some',
      writeRegister_spec self ALERT_LIMIT_REGISTER _ W1 haddr (by decide)]
    rfl
  · intro hbus
    have hb0 : (intToUInt16 n >>> 8) &&& 0xFF < 256 :=
      lt_of_le_of_lt Nat.and_le_right (by decide)
    have hb1 : intToUInt16 n &&& 0xFF < 256 := lt_of_le_of_lt Nat.and_le_right (by decide)
    have hr := readRegister_two_bytes self ALERT_LIMIT_REGISTER 0 _ _ W2 haddr (by decide)
      hb0 hb1 hbus
    rw [bytes_word _ hu] at hr
    have hraw := rawToAmps_eq n (abs_le.mpr ⟨by omega, by omega⟩)
    have hread : readAlertLimitRegisterInAmps self value W2 =
        (true, .fin (binary64.roundQ ((n : ℚ) * (5 / 4) / 1000)),
          { W2 with
            calls := W2.calls ++ selectAndRequest self ALERT_LIMIT_REGISTER ++
              [.available, .read, .read]
            rxBuffer := [] }) := by
      unfold readAlertLimitRegisterInAmps readAlertLimitRegister
      simp only [hr, if_true]
      rw [hti, hraw]
    obtain ⟨v, hv, hbound⟩ := amps_roundtrip x n hin hn
    rw [hraw] at hv
    have hv2 : binary64.roundQ ((n : ℚ) * (5 / 4) / 1000) = v := by
      injection hv
    obtain ⟨s0, s1⟩ := amps_count_sign x
    rw [← hnY] at s0 s1
    refine ⟨by rw [hread], by rw [hread], by rw [hv2]; exact hbound, ?_, ?_⟩
    · intro hx0
      have hn0 : (0 : ℚ) ≤ (n : ℚ) := by exact_mod_cast s0 hx0
      have := roundQ_mono binary64 (by decide) 0 ((n : ℚ) * (5 / 4) / 1000)
        (by linarith)
      rwa [roundQ_zero] at this
    · intro hx0
      have hn0 : (n : ℚ) ≤ 0 := by exact_mod_cast s1 hx0
      have := roundQ_mono binary64 (by decide) ((n : ℚ) * (5 / 4) / 1000) 0
        (by linarith)
      rwa [roundQ_zero] at this

/-- Witness for C17 (amended): `x = -1.0` A is written as the bytes `[0xFC, 0xE0]` and
read back as `-1.0` A. -/
theorem alert_limit_amps_write_read_witness :
    ampsToRaw (.fin (-1)) = some (-800) ∧
    (writeAlertLimitRegisterInAmps (INA260 0) (.fin (-1)) (constWire 0 [])).map
        (fun r => r.2.calls) =
      some [.beginTransmission 0x40, .write 0x07, .write 0xFC, .write 0xE0,
        .endTransmission] ∧
    (readAlertLimitRegisterInAmps (INA260 0) (.fin 0) (constWire 0 [0xFC, 0xE0])).1 = true ∧
    (readAlertLimitRegisterInAmps (INA260 0) (.fin 0) (constWire 0 [0xFC, 0xE0])).2.1 =
      .fin (-1) := by
  obtain ⟨_, n, hn, _, _, _, _, _, _, _, hw, hrd⟩ :=
    alert_limit_amps_write_read (INA260 0) (-1) (.fin 0) (constWire 0 [])
      (constWire 0 [0xFC, 0xE0]) (by decide) (by decide!) (by decide!) (by decide!)
      (by decide!)
  have hc : ampsToRaw (.fin (-1)) = some (-800) := by decide!
  have hn800 : n = -800 := by
    rw [hc] at hn
    exact (Option.some.inj hn).symm
  subst hn800
  have hr := hrd (by decide)
  refine ⟨hc, hw.trans (by decide), hr.1, hr.2.1.trans ?_⟩
  have e : binary64.roundQ (((-800 : Int) : ℚ) * (5 / 4) / 1000) = -1 := by decide!
  rw [e]

end INA260
